import Mathlib

/-!
Verification of the movement-scheduling core of the `tts-prototype` repository.

The repository contains two draft families:

* `src/index.js`: a `Ship`/`Player` pair where `Player` owns a destination
  queue (`moveQueue`), an interruption flag (`_isInterrupted`), a reentrancy
  guard (`_isMoving`), and an async processing loop (`_processMoveQueue` /
  `_executeMoveTo`) whose path computation is a breadth-first search that
  targets the clicked goal cell exactly.
* `src/unnamed/part_001` (second half): a different `Ship` with a standalone
  `findPath` (breadth-first search with an adjacent-tile early return and a
  nearest-tile fallback candidate), `followPath` (stepwise walking guarded by
  a generation counter `movementToken`), and `processQueue`.

This file gives a shallow embedding of both and proves or refutes the frozen
claims about them.  Grids are embedded as bounds plus a per-cell tile
predicate; the async control flow of `index.js` is embedded as a small-step
machine whose configurations are exactly the states at the `await sleep`
macrotask boundaries (the only points where external events can interleave).
-/

set_option maxHeartbeats 1600000

namespace TTS

/-- A grid coordinate.  For `index.js` this is `(x, y)`; for `part_001` it is
`(row, col)`. -/
abbrev Coord := Nat × Nat

/-- Four-directional (edge) adjacency of grid coordinates. -/
def adj4 (a b : Coord) : Prop :=
  (a.1 = b.1 ∧ (a.2 + 1 = b.2 ∨ b.2 + 1 = a.2)) ∨
  (a.2 = b.2 ∧ (a.1 + 1 = b.1 ∨ b.1 + 1 = a.1))

instance (a b : Coord) : Decidable (adj4 a b) := by unfold adj4; infer_instance

/-- Manhattan distance `|a.1 - b.1| + |a.2 - b.2|` on natural coordinates. -/
def manhattan (a b : Coord) : Nat :=
  ((a.1 - b.1) + (b.1 - a.1)) + ((a.2 - b.2) + (b.2 - a.2))

/-- `ReachN ok a b n`: there is a walk of exactly `n` grid steps from `a` to
`b`, each step moving to a 4-adjacent coordinate satisfying `ok` (the starting
coordinate itself is unconstrained, matching both searches, which enqueue the
start unconditionally). -/
inductive ReachN (ok : Coord → Bool) : Coord → Coord → Nat → Prop where
  | refl (a : Coord) : ReachN ok a a 0
  | step {a b c : Coord} {n : Nat} (h : ReachN ok a b n) (hadj : adj4 b c)
      (hok : ok c = true) : ReachN ok a c (n + 1)

/-- Reachability: some walk of any length exists. -/
def Reachable (ok : Coord → Bool) (a b : Coord) : Prop := ∃ n, ReachN ok a b n

/-! ## The grid and BFS of `src/index.js` (`_executeMoveTo`) -/

/-- The grid of `src/index.js`: `width`, `height`, and each cell's
`tileType === 'land'` test. -/
structure SGrid where
  width : Nat
  height : Nat
  land : Nat → Nat → Bool

/-- A coordinate the BFS of `_executeMoveTo` may expand into: in bounds and a
land tile (`neighbor.tileType === 'land'` after the bounds check). -/
def SGrid.ok (g : SGrid) (c : Coord) : Bool :=
  decide (c.1 < g.width) && decide (c.2 < g.height) && g.land c.1 c.2

/-- The `dirs` array of `_executeMoveTo`: up, right, down, left as `(dx, dy)`. -/
def dirs : List (Int × Int) := [(0, -1), (1, 0), (0, 1), (-1, 0)]

/-- The coordinate reached from `cur` by offset `d` if it passes the bounds
check of `expandDir` (the inline `nx`/`ny` computation and bounds `continue`
of the source). -/
def nbr (g : SGrid) (cur : Coord) (d : Int × Int) : Option Coord :=
  let nx : Int := (cur.1 : Int) + d.1
  let ny : Int := (cur.2 : Int) + d.2
  if nx < 0 ∨ (g.width : Int) ≤ nx ∨ ny < 0 ∨ (g.height : Int) ≤ ny then none
  else some (nx.toNat, ny.toNat)

/-- BFS search state of `_executeMoveTo`: pending `queue`, `visited` set, and
the `parents` map (`childKey → parentKey`, with `null` stored for the start). -/
structure BfsSt where
  queue : List Coord
  visited : List Coord
  parents : List (Coord × Option Coord)

/-- Lookup in the `parents` map: `none` models a key that is absent. -/
def pget (ps : List (Coord × Option Coord)) (c : Coord) : Option (Option Coord) :=
  (ps.find? (fun e => e.1 == c)).map (fun e => e.2)

/-- One neighbor probe of the BFS in `_executeMoveTo`, in source order:
bounds check, visited check, land check, then enqueue and record the parent. -/
def expandDir (g : SGrid) (cur : Coord) (st : BfsSt) (d : Int × Int) : BfsSt :=
  match nbr g cur d with
  | none => st
  | some n =>
    if n ∈ st.visited then st
    else if !(g.land n.1 n.2) then st
    else { queue := st.queue ++ [n], visited := st.visited ++ [n],
           parents := (n, some cur) :: st.parents }

/-- Expansion of all four directions from a dequeued cell. -/
def bfsStep (g : SGrid) (cur : Coord) (st : BfsSt) : BfsSt :=
  dirs.foldl (fun s d => expandDir g cur s d) st

/-- The `while (queue.length)` BFS loop of `_executeMoveTo`.  Returns whether
`goal` was dequeued (`found = true`, breaking the loop) together with the
search state at that moment.  The fuel argument only serves termination; the
caller passes enough fuel for exhaustion to coincide with an empty queue. -/
def bfsLoop (g : SGrid) (goal : Coord) : Nat → BfsSt → Bool × BfsSt
  | fuel, st =>
      match st.queue with
      | [] => (false, st)
      | cur :: rest =>
          match fuel with
          | 0 => (false, st)
          | fuel + 1 =>
              if cur = goal then (true, st)
              else bfsLoop g goal fuel (bfsStep g cur { st with queue := rest })

/-- Initial BFS state: the start cell enqueued, visited, with a `null` parent. -/
def bfsInit (start : Coord) : BfsSt :=
  { queue := [start], visited := [start], parents := [(start, none)] }

/-- The whole BFS of `_executeMoveTo` from `start` toward `goal`. -/
def bfsRun (g : SGrid) (start goal : Coord) : Bool × BfsSt :=
  bfsLoop g goal (g.width * g.height + 2) (bfsInit start)

/-- Path reconstruction loop of `_executeMoveTo`: push the current key, then
follow `parents` until `null` (the start's parent) or a missing key. -/
def reconLoop (ps : List (Coord × Option Coord)) :
    Nat → Option Coord → List Coord → List Coord
  | _, none, acc => acc
  | 0, some _, acc => acc
  | fuel + 1, some c, acc => reconLoop ps fuel (pget ps c).join (acc ++ [c])

/-- The reconstructed path of `_executeMoveTo` (reversed to run start → goal). -/
def recon (ps : List (Coord × Option Coord)) (goal : Coord) : List Coord :=
  (reconLoop ps (ps.length + 1) (some goal) []).reverse

/-- The full path computation of `_executeMoveTo` (BFS plus reconstruction):
`none` iff the BFS exhausted its queue without dequeuing the goal. -/
def findPathIdx (g : SGrid) (start goal : Coord) : Option (List Coord) :=
  match bfsRun g start goal with
  | (true, st) => some (recon st.parents goal)
  | (false, _) => none

/-! ## The grid and `findPath` of `src/unnamed/part_001` -/

/-- Tile state of the part_001 `Ship` grid: per-cell `className` string and
`hasCustomer` flag, with `rows × cols` bounds. -/
structure TGrid where
  rows : Nat
  cols : Nat
  cls : Nat → Nat → String
  cust : Nat → Nat → Bool

/-- `walkableHere` of `findPath`: the tile state exists (in bounds — out of
bounds `getTileState` yields `{}`), has `className === 'land'`, and no
customer. -/
def TGrid.walk (g : TGrid) (c : Coord) : Bool :=
  decide (c.1 < g.rows) && decide (c.2 < g.cols) &&
    (g.cls c.1 c.2 == "land") && !(g.cust c.1 c.2)

/-- part_001 `findPath` neighbor offsets: up, down, left, right as `(dr, dc)`. -/
def tdirs : List (Int × Int) := [(-1, 0), (1, 0), (0, -1), (0, 1)]

/-- The coordinate reached from `cur` by offset `d` if it passes the bounds
check of `fpExpand` (the inline `nr`/`nc` computation and `inBounds`
`continue` of the source). -/
def tnbr (g : TGrid) (cur : Coord) (d : Int × Int) : Option Coord :=
  let nr : Int := (cur.1 : Int) + d.1
  let nc : Int := (cur.2 : Int) + d.2
  if nr < 0 ∨ nc < 0 ∨ (g.rows : Int) ≤ nr ∨ (g.cols : Int) ≤ nc then none
  else some (nr.toNat, nc.toNat)

/-- Search state of part_001 `findPath`: pending `queue`, `visited` set, the
`prev` map (child → parent; the start has no entry), and the best fallback
candidate `(key, Manhattan distance to goal)`. -/
structure FpSt where
  queue : List Coord
  visited : List Coord
  prev : List (Coord × Coord)
  best : Option (Coord × Nat)

/-- Lookup in the `prev` map. -/
def fpget (ps : List (Coord × Coord)) (c : Coord) : Option Coord :=
  (ps.find? (fun e => e.1 == c)).map (fun e => e.2)

/-- One neighbor probe of `findPath`, in source order: bounds check, visited
check, walkability check, then enqueue and record the parent. -/
def fpExpand (g : TGrid) (cur : Coord) (st : FpSt) (d : Int × Int) : FpSt :=
  match tnbr g cur d with
  | none => st
  | some n =>
    if n ∈ st.visited then st
    else if !(g.walk n) then st
    else { queue := st.queue ++ [n], visited := st.visited ++ [n],
           prev := (n, cur) :: st.prev, best := st.best }

/-- Reconstruction loop of `findPath`: starting from an accumulator that
already holds the target key, repeatedly push the parent until the start key
is reached or a key is missing. -/
def fpReconLoop (ps : List (Coord × Coord)) (start : Coord) :
    Nat → Coord → List Coord → List Coord
  | 0, _, acc => acc
  | fuel + 1, c, acc =>
      if c = start then acc
      else
        match fpget ps c with
        | none => acc
        | some p => fpReconLoop ps start fuel p (acc ++ [p])

/-- Reconstructed `findPath` path to `c` (reversed to run start → `c`). -/
def fpRecon (ps : List (Coord × Coord)) (start c : Coord) : List Coord :=
  (fpReconLoop ps start (ps.length + 1) c [c]).reverse

/-- The `while (queue.length)` loop of part_001 `findPath`, including the
adjacent-to-goal early return, the best-candidate bookkeeping, and the
post-loop fallback return.  As in `bfsLoop`, the fuel only serves
termination. -/
def fpLoop (g : TGrid) (start goal : Coord) : Nat → FpSt → Option (List Coord)
  | fuel, st =>
      match st.queue with
      | [] =>
          match st.best with
          | some kd => some (fpRecon st.prev start kd.1)
          | none => none
      | cur :: rest =>
          match fuel with
          | 0 => none
          | fuel + 1 =>
              if manhattan cur goal = 1 ∧ g.walk cur then
                some (fpRecon st.prev start cur)
              else
                let best' :=
                  if g.walk cur then
                    match st.best with
                    | none => some (cur, manhattan cur goal)
                    | some kd =>
                        if manhattan cur goal < kd.2 then some (cur, manhattan cur goal)
                        else some kd
                  else st.best
                fpLoop g start goal fuel
                  (tdirs.foldl (fun s d => fpExpand g cur s d)
                    { st with queue := rest, best := best' })

/-- part_001 `findPath` from `start` toward `goal` (`null` embedded as
`none`). -/
def findPathT (g : TGrid) (start goal : Coord) : Option (List Coord) :=
  fpLoop g start goal (g.rows * g.cols + 2)
    { queue := [start], visited := [start], prev := [], best := none }

/-! ## The movement scheduler of `src/index.js` -/

/-- Mutable `Player` state of `src/index.js` as visible at macrotask
boundaries, plus ghost logs: `trace` records each committed step position
(the `PositionChanged` history) and `completedLog` each destination popped by
`moveQueue.shift()` after its traversal. -/
structure PState where
  x : Int
  y : Int
  placed : Option Coord
  moveQueue : List (Int × Int)
  isMoving : Bool
  interrupted : Bool
  occ : List Coord
  trace : List Coord
  completedLog : List (Int × Int)

/-- The atomic step block of `_executeMoveTo`'s animation loop: clear the
previous cell's `entity` when it is this player, set the next cell's
`entity`, and update `_placedCell`, `x` and `y` — all between two `await`
points. -/
def stepCommit (S : PState) (next : Coord) : PState :=
  let occ1 := match S.placed with
    | some p => if p ∈ S.occ then S.occ.filter (fun c => c != p) else S.occ
    | none => S.occ
  let occ2 := if next ∈ occ1 then occ1 else next :: occ1
  { S with occ := occ2, placed := some next, x := (next.1 : Int),
           y := (next.2 : Int), trace := S.trace ++ [next] }

/-- The outcome of running a stretch of `_executeMoveTo`: either the function
returned, or it suspended at `await sleep` after committing step `i` of
`path`. -/
inductive ExecOut where
  | ret (S : PState)
  | sleep (S : PState) (path : List Coord) (i : Nat)

/-- The synchronous prefix of `_executeMoveTo dest`: the validation guards
(bounds, placement, already-at-target, target tile type), the BFS with path
reconstruction, the degenerate-path guard, and — when a real path exists —
the first animation iteration up to its `await sleep`. -/
def execStart (g : SGrid) (S : PState) (d : Int × Int) : ExecOut :=
  if d.1 < 0 ∨ (g.width : Int) ≤ d.1 ∨ d.2 < 0 ∨ (g.height : Int) ≤ d.2 then .ret S
  else
    match S.placed with
    | none => .ret S
    | some start =>
        let t : Coord := (d.1.toNat, d.2.toNat)
        if start = t then .ret S
        else if !(g.land t.1 t.2) then .ret S
        else
          match findPathIdx g start t with
          | none => .ret S
          | some path =>
              if path.length ≤ 1 then .ret S
              else if S.interrupted then .ret S
              else
                match path[1]? with
                | none => .ret S
                | some c => .sleep (stepCommit S c) path 1

/-- Resumption of the animation loop after the sleep at step `i`: advance the
loop counter, re-check the loop bound and the interrupt flag, and either
commit the next step (suspending again) or return. -/
def execResume (S : PState) (path : List Coord) (i : Nat) : ExecOut :=
  if h : i + 1 < path.length then
    if S.interrupted then .ret S
    else .sleep (stepCommit S (path.get ⟨i + 1, h⟩)) path (i + 1)
  else .ret S

/-- The state of `_processMoveQueue` when it yields control: the player
state, the suspended traversal if any, and whether the `finally` block
scheduled a restart. -/
structure LoopOut where
  S : PState
  task : Option ((Int × Int) × List Coord × Nat)
  restart : Bool

/-- The `finally` block of `_processMoveQueue`: clear `_isMoving` and, if
`_isInterrupted` is still set, clear it and schedule an immediate restart. -/
def exitFin (S : PState) : LoopOut :=
  { S := { S with isMoving := false, interrupted := false },
    task := none, restart := S.interrupted }

/-- `moveQueue.shift()`: pop the head (no-op on an empty queue, as in JS),
logging the popped destination as completed. -/
def shiftS (S : PState) : PState :=
  match S.moveQueue with
  | [] => S
  | d :: rest => { S with moveQueue := rest, completedLog := S.completedLog ++ [d] }

/-- The `while` loop of `_processMoveQueue`, run from the loop top to the
next suspension point (an `await sleep` inside `_executeMoveTo`) or to loop
exit.  The list parameter is the loop's view of the remaining queue — it
always equals `S.moveQueue` at call sites and only drives the recursion. -/
def procGo (g : SGrid) : List (Int × Int) → PState → LoopOut
  | [], S => exitFin S
  | d :: ds, S =>
      if S.interrupted then exitFin S
      else
        match execStart g S d with
        | .sleep S' path i => { S := S', task := some (d, path, i), restart := false }
        | .ret S' =>
            if S'.interrupted then exitFin S'
            else procGo g ds (shiftS S')

/-- Entry to `_processMoveQueue` past the reentrancy guard: set `_isMoving`,
clear `_isInterrupted`. -/
def procEntry (S : PState) : PState :=
  { S with isMoving := true, interrupted := false }

/-- A scheduler configuration at a macrotask boundary: player state, the
sleeping traversal (destination, path, committed index) if one exists, and
the number of pending scheduled restarts. -/
structure Conf where
  S : PState
  task : Option ((Int × Int) × List Coord × Nat)
  pending : Nat

/-- A call to `_processMoveQueue` (from `moveTo`, `moveToPriority`, or a
scheduled restart), run to its first suspension point or completion. -/
def invokeProcess (g : SGrid) (c : Conf) : Conf :=
  if c.S.isMoving then c
  else
    let out := procGo g (procEntry c.S).moveQueue (procEntry c.S)
    { S := out.S, task := out.task,
      pending := c.pending + (if out.restart then 1 else 0) }

/-- External events and timer firings visible to the scheduler. -/
inductive MEv where
  | moveTo (d : Int × Int)
  | priority (d : Int × Int)
  | stop
  | tick
  | restart

/-- The body of `moveTo` before its `_processMoveQueue()` call: push the
destination (no validation of any kind happens here). -/
def moveToCore (S : PState) (d : Int × Int) : PState :=
  { S with moveQueue := S.moveQueue ++ [d] }

/-- The body of `moveToPriority` before its conditional processor start: set
the interrupt flag and replace the queue with the single new destination. -/
def priorityCore (S : PState) (d : Int × Int) : PState :=
  { S with interrupted := true, moveQueue := [d] }

/-- The body of `stopAllMovement`: set the interrupt flag and clear the
queue. -/
def stopCore (S : PState) : PState :=
  { S with interrupted := true, moveQueue := [] }

/-- One machine transition at a macrotask boundary. -/
def mstep (g : SGrid) (c : Conf) : MEv → Conf
  | .moveTo d => invokeProcess g { c with S := moveToCore c.S d }
  | .priority d =>
      let S1 := priorityCore c.S d
      if S1.isMoving then { c with S := S1 }
      else invokeProcess g { c with S := S1 }
  | .stop => { c with S := stopCore c.S }
  | .tick =>
      match c.task with
      | none => c
      | some (d, path, i) =>
          match execResume c.S path i with
          | .sleep S' p j => { c with S := S', task := some (d, p, j) }
          | .ret S' =>
              if S'.interrupted then
                let out := exitFin S'
                { S := out.S, task := none,
                  pending := c.pending + (if out.restart then 1 else 0) }
              else
                let out := procGo g (shiftS S').moveQueue (shiftS S')
                { S := out.S, task := out.task,
                  pending := c.pending + (if out.restart then 1 else 0) }
  | .restart =>
      if c.pending = 0 then c
      else invokeProcess g { c with pending := c.pending - 1 }

/-- Run a sequence of events. -/
def mrun (g : SGrid) (c : Conf) : List MEv → Conf
  | [] => c
  | e :: es => mrun g (mstep g c e) es

/-- The configuration right after `initPlayer` placed the player at `p`. -/
def initConf (p : Coord) : Conf :=
  { S := { x := (p.1 : Int), y := (p.2 : Int), placed := some p, moveQueue := [],
           isMoving := false, interrupted := false, occ := [p], trace := [],
           completedLog := [] },
    task := none, pending := 0 }

/-- The state at the synchronous return of a `moveToPriority` call: the flag
and queue updates and — when the processor was idle — `_processMoveQueue` run
only up to its first `await` (the `await _executeMoveTo(...)`), which never
reaches the `shift()`. -/
def prioritySyncState (g : SGrid) (S : PState) (d : Int × Int) : PState :=
  let S1 := priorityCore S d
  if S1.isMoving then S1
  else
    match execStart g (procEntry S1) d with
    | .ret S3 => S3
    | .sleep S3 _ _ => S3

/-- Error kinds of the spec's error-handling design (§7). -/
inductive MoveErr where
  | outOfBounds
  | notPlaced

/-- Modelled from the spec (§7): an `enqueueDestination` that reports
spatial/placement errors to the caller synchronously and aborts only that
call.  It exists solely to compare the spec's claimed behavior with the
source's `moveTo`, which performs no validation. -/
def moveToSpec (g : SGrid) (S : PState) (d : Int × Int) : Except MoveErr PState :=
  if d.1 < 0 ∨ (g.width : Int) ≤ d.1 ∨ d.2 < 0 ∨ (g.height : Int) ≤ d.2 then
    .error .outOfBounds
  else if S.placed = none then .error .notPlaced
  else .ok (moveToCore S d)

/-! ## The destination queue machinery of `src/unnamed/part_001` -/

/-- Notifications emitted by the part_001 queue processor (badge updates and
player moves abstracted as events). -/
inductive TNote where
  | noPath (d : Coord)
  | reached (d : Coord)
  | moved (c : Coord)

/-- part_001 processor state: destination queue, player position, the
`processing` flag, the `movementToken` generation counter, and the ghost
notification log. -/
structure TState where
  destQueue : List Coord
  player : Coord
  processing : Bool
  movementToken : Nat
  notes : List TNote

/-- `initPlayer`'s clamping of a target coordinate into the grid
(`Math.max(0, Math.min(rows - 1, row))`, likewise for columns). -/
def clampPos (g : TGrid) (c : Coord) : Coord :=
  (min (g.rows - 1) c.1, min (g.cols - 1) c.2)

/-- `followPath` in the absence of any cancellation (the token check never
fires): walk through every path coordinate via `movePlayerTo`, skipping a
leading coordinate equal to the player's position. -/
def followPathPure (g : TGrid) (t : TState) (path : List Coord) : TState :=
  let steps := if path.head? = some t.player then path.tail else path
  { t with player := steps.foldl (fun _ c => clampPos g c) t.player,
           notes := t.notes ++ steps.map (fun c => TNote.moved (clampPos g c)) }

/-- The `while` loop of part_001 `processQueue`, assuming no concurrent
events (so each `followPath` completes).  The list parameter is the loop's
view of the queue, equal to `t.destQueue` at call sites. -/
def processGo (g : TGrid) : List Coord → TState → TState
  | [], t => { t with processing := false }
  | target :: rest, t =>
      if t.player = target then
        let t2 := { t with destQueue := rest, notes := t.notes ++ [TNote.reached target] }
        processGo g rest t2
      else
        match findPathT g t.player target with
        | none =>
            let t2 := { t with destQueue := rest, notes := t.notes ++ [TNote.noPath target] }
            processGo g rest t2
        | some path =>
            let t' := followPathPure g t path
            let t2 := { t' with destQueue := rest, notes := t'.notes ++ [TNote.reached target] }
            processGo g rest t2

/-- part_001 `processQueue`: the reentrancy guard, the `processing` flag, and
the loop. -/
def processQueue (g : TGrid) (t : TState) : TState :=
  if t.processing then t
  else processGo g t.destQueue { t with processing := true }

/-- The state effect of part_001 `clearQueue`: bump `movementToken` to cancel
any in-flight `followPath` and drain the queue. -/
def clearQueueCore (t : TState) : TState :=
  { t with movementToken := t.movementToken + 1, destQueue := [] }

/-- The double-click preemption flow of part_001: `clearQueue` (token bump,
queue drain) followed by pushing the clicked tile as the sole destination. -/
def preemptT (t : TState) (d : Coord) : TState :=
  { clearQueueCore t with destQueue := [d] }

/-- part_001 `followPath` read against an oracle giving the value of
`movementToken` at each of its reads (two per loop iteration: before the
step and after the sleep); `captured` is the value read at entry. Returns the
final player position. -/
def followPathTok (g : TGrid) (captured : Nat) (tok : Nat → Nat) :
    Nat → List Coord → Coord → Coord
  | _, [], pos => pos
  | k, c :: rest, pos =>
      if tok k ≠ captured then pos
      else
        let pos' := clampPos g c
        if tok (k + 1) ≠ captured then pos'
        else followPathTok g captured tok (k + 2) rest pos'

/-- `followPath` entry: capture the token, skip a leading coordinate equal to
the player position, then walk with per-step token checks. -/
def followPathTokRun (g : TGrid) (captured : Nat) (tok : Nat → Nat)
    (path : List Coord) (pos : Coord) : Coord :=
  let steps := if path.head? = some pos then path.tail else path
  followPathTok g captured tok 0 steps pos

/-- Modelled from the spec (§4.4): the per-step cancellation check the spec
describes, which aborts when the interrupted flag is set **or** the captured
token differs from the current one. -/
def specStepAborts (interrupted : Bool) (captured current : Nat) : Bool :=
  interrupted || captured != current

/-- The per-step cancellation check actually performed by part_001
`followPath`: the token comparison only. -/
def followPathAborts (captured current : Nat) : Bool :=
  captured != current

/-! ## Verification vocabulary (predicates used by the theorems) -/

/-- The occupancy invariant of claim C8: the player occupies exactly one grid
cell, and `x`, `y` and `_placedCell` all agree with it. -/
def OccInv (S : PState) : Prop :=
  ∃ p : Coord, S.placed = some p ∧ S.occ = [p] ∧
    S.x = (p.1 : Int) ∧ S.y = (p.2 : Int)

/-- Configurations reachable from `c0` by timer events alone after a
`stopAllMovement`: empty queue, no step committed since, and any sleeping
task still flagged interrupted. -/
def StoppedFrom (c0 c : Conf) : Prop :=
  c.S.moveQueue = [] ∧ c.S.trace = c0.S.trace ∧ c.S.x = c0.S.x ∧
  c.S.y = c0.S.y ∧ c.S.placed = c0.S.placed ∧ c.S.occ = c0.S.occ ∧
  (c.task.isSome = true → c.S.interrupted = true)

/-- A quiescent scheduler: no sleeping task, no pending restart, not moving. -/
def Quiescent (c : Conf) : Prop :=
  c.task = none ∧ c.pending = 0 ∧ c.S.isMoving = false

/-- An in-bounds land destination, distinct from and reachable from `p`. -/
def GoodDest (g : SGrid) (p t : Coord) : Prop :=
  t.1 < g.width ∧ t.2 < g.height ∧ g.land t.1 t.2 = true ∧ t ≠ p ∧
    Reachable g.ok p t

/-- A chain of destinations, each valid and reachable from its predecessor. -/
def DestChain (g : SGrid) : Coord → List Coord → Prop
  | _, [] => True
  | p, t :: ts => GoodDest g p t ∧ DestChain g t ts

/-- Embedding of a grid coordinate into the JS `(x, y)` number pair held in
the queue. -/
def ic (t : Coord) : Int × Int := ((t.1 : Int), (t.2 : Int))

/-- Event lists made of timer ticks and `moveTo` calls only. -/
def OnlyTickMove (evs : List MEv) : Prop :=
  ∀ e ∈ evs, e = .tick ∨ ∃ d, e = .moveTo d

/-- The `moveTo` destinations of an event list, in order. -/
def movesOf (evs : List MEv) : List (Int × Int) :=
  evs.filterMap (fun e => match e with | .moveTo d => some d | _ => none)

/-- Timer-only event lists (sleep ticks and restart firings). -/
def OnlyTimer (evs : List MEv) : Prop :=
  ∀ e ∈ evs, e = .tick ∨ e = .restart

/-- The run invariant for preemption-free operation (claims C7 and C10):
`done` destinations completed so far, `pend` still queued.  The scheduler is
either idle with an empty queue at the last completed destination, or asleep
inside a traversal of the head of `pend` whose committed prefix ends at the
current position; completed destinations appear in the committed-step history
in order. -/
def RunInv (g : SGrid) (p0 : Coord) (done pend : List Coord) (c : Conf) : Prop :=
  c.pending = 0 ∧ c.S.interrupted = false ∧
  c.S.completedLog = done.map ic ∧ c.S.moveQueue = pend.map ic ∧
  DestChain g (done.getLastD p0) pend ∧
  ((c.task = none ∧ c.S.isMoving = false ∧ pend = [] ∧
      c.S.placed = some (done.getLastD p0) ∧ done.Sublist c.S.trace) ∨
   (∃ t pend' path i, ∃ hi : i < path.length,
      pend = t :: pend' ∧ c.task = some (ic t, path, i) ∧ c.S.isMoving = true ∧
      1 ≤ i ∧ path.getLast? = some t ∧ c.S.placed = some (path.get ⟨i, hi⟩) ∧
      ∃ τ, c.S.trace = τ ++ [path.get ⟨i, hi⟩] ∧ done.Sublist τ))

/-! ## Concrete fixtures used by witnesses and counterexamples -/

/-- A 2-wide, 1-tall all-land `index.js` grid. -/
def gridW : SGrid := ⟨2, 1, fun _ _ => true⟩

/-- A 3-wide, 1-tall all-land `index.js` grid. -/
def gridW3 : SGrid := ⟨3, 1, fun _ _ => true⟩

/-- The freshly placed player state at `(0,0)`. -/
def stateW : PState := (initConf (0, 0)).S

/-- The player state mid-traversal: step to `(1,0)` already committed. -/
def stateMovingW : PState :=
  { x := 1, y := 0, placed := some (1, 0), moveQueue := [(1, 0)], isMoving := true,
    interrupted := false, occ := [(1, 0)], trace := [(1, 0)], completedLog := [] }

/-- A configuration sleeping mid-traversal toward `(1,0)` (step 1 already
committed). -/
def confMovingW : Conf :=
  { S := stateMovingW, task := some ((1, 0), [(0, 0), (1, 0)], 1), pending := 0 }

/-- A 1-row, 3-column all-land part_001 grid. -/
def tgridW : TGrid := ⟨1, 3, fun _ _ => "land", fun _ _ => false⟩

/-- A 1-row, 3-column all-water part_001 grid. -/
def tgridWater : TGrid := ⟨1, 3, fun _ _ => "water", fun _ _ => false⟩

end TTS

namespace TTS

/-! ## Basic lemmas about the shared vocabulary -/

lemma manhattan_comm (a b : Coord) : manhattan a b = manhattan b a := by
  unfold manhattan; omega

lemma manhattan_self (a : Coord) : manhattan a a = 0 := by
  unfold manhattan; omega

lemma manhattan_eq_zero {a b : Coord} (h : manhattan a b = 0) : a = b := by
  unfold manhattan at h
  have h1 : a.1 = b.1 := by omega
  have h2 : a.2 = b.2 := by omega
  exact Prod.ext h1 h2

lemma adj4_manhattan {a b : Coord} (h : adj4 a b) : manhattan a b = 1 := by
  unfold adj4 at h; unfold manhattan
  rcases h with ⟨h1, h2 | h2⟩ | ⟨h1, h2 | h2⟩ <;> omega

/-- A step moves Manhattan distance to any fixed point by at most one. -/
lemma adj4_manhattan_le {a b t : Coord} (h : adj4 a b) :
    manhattan a t ≤ manhattan b t + 1 := by
  unfold adj4 at h; unfold manhattan
  rcases h with ⟨h1, h2 | h2⟩ | ⟨h1, h2 | h2⟩ <;> omega

lemma SGrid.ok_iff {g : SGrid} {c : Coord} :
    g.ok c = true ↔ c.1 < g.width ∧ c.2 < g.height ∧ g.land c.1 c.2 = true := by
  simp [SGrid.ok, Bool.and_assoc]

lemma TGrid.walk_iff {g : TGrid} {c : Coord} :
    g.walk c = true ↔
      c.1 < g.rows ∧ c.2 < g.cols ∧ g.cls c.1 c.2 = "land" ∧ g.cust c.1 c.2 = false := by
  simp [TGrid.walk, Bool.and_assoc]

/-- Every in-bounds 4-neighbor of `cur` is produced by exactly the `dirs`
scan of `_executeMoveTo`. -/
lemma nbr_complete {g : SGrid} {cur c : Coord} (hadj : adj4 cur c)
    (h1 : c.1 < g.width) (h2 : c.2 < g.height) :
    ∃ d ∈ dirs, nbr g cur d = some c := by
  rcases hadj with ⟨e1, e2 | e2⟩ | ⟨e1, e2 | e2⟩
  · exact ⟨(0, 1), by simp [dirs], by
      simp only [nbr]
      rw [if_neg (by omega)]
      simp only [Option.some.injEq]
      exact Prod.ext (by omega) (by omega)⟩
  · exact ⟨(0, -1), by simp [dirs], by
      simp only [nbr]
      rw [if_neg (by omega)]
      simp only [Option.some.injEq]
      exact Prod.ext (by omega) (by omega)⟩
  · exact ⟨(1, 0), by simp [dirs], by
      simp only [nbr]
      rw [if_neg (by omega)]
      simp only [Option.some.injEq]
      exact Prod.ext (by omega) (by omega)⟩
  · exact ⟨(-1, 0), by simp [dirs], by
      simp only [nbr]
      rw [if_neg (by omega)]
      simp only [Option.some.injEq]
      exact Prod.ext (by omega) (by omega)⟩

/-- Everything the `dirs` scan produces is an in-bounds 4-neighbor. -/
lemma nbr_sound {g : SGrid} {cur c : Coord} {d : Int × Int} (hd : d ∈ dirs)
    (h : nbr g cur d = some c) :
    adj4 cur c ∧ c.1 < g.width ∧ c.2 < g.height := by
  simp only [dirs, List.mem_cons, List.not_mem_nil, or_false] at hd
  simp only [nbr] at h
  split at h
  · exact absurd h (by simp)
  · rename_i hb
    push_neg at hb
    obtain ⟨hb1, hb2, hb3, hb4⟩ := hb
    simp only [Option.some.injEq] at h
    subst h
    rcases hd with rfl | rfl | rfl | rfl <;>
      refine ⟨?_, by omega, by omega⟩ <;> unfold adj4 <;> simp <;> omega

/-! ## Lemmas about the parents map and `expandDir` -/

lemma pget_cons {k : Coord} {v : Option Coord} {ps : List (Coord × Option Coord)}
    {c : Coord} : pget ((k, v) :: ps) c = if k = c then some v else pget ps c := by
  by_cases h : k = c
  · subst h; simp [pget, List.find?]
  · simp only [pget, List.find?]
    have hb : ((k, v).1 == c) = false := by simpa using h
    simp [hb, h]

lemma pget_nil {c : Coord} : pget ([] : List (Coord × Option Coord)) c = none := by
  simp [pget]


/-- The possible outcomes of a single `expandDir` call: either the state is
unchanged (and any walkable coordinate this direction produced was already
visited), or a fresh, in-bounds, walkable 4-neighbor of `cur` is appended to
the queue and the visited set with parent `cur`. -/
lemma expandDir_cases (g : SGrid) (cur : Coord) (st : BfsSt) {d : Int × Int}
    (hd : d ∈ dirs) :
    (expandDir g cur st d = st ∧
      ∀ c', nbr g cur d = some c' → g.ok c' = true → c' ∈ st.visited) ∨
      ∃ n, nbr g cur d = some n ∧ n ∉ st.visited ∧ g.ok n = true ∧ adj4 cur n ∧
        expandDir g cur st d =
          { queue := st.queue ++ [n], visited := st.visited ++ [n],
            parents := (n, some cur) :: st.parents } := by
  unfold expandDir
  match h : nbr g cur d with
  | none => exact Or.inl ⟨rfl, by intro c' hc'; exact absurd hc' (by simp)⟩
  | some n =>
      by_cases hv : n ∈ st.visited
      · left
        refine ⟨by simp [hv], ?_⟩
        intro c' hc' _
        cases hc'
        exact hv
      · by_cases hl : g.land n.1 n.2 = true
        · right
          obtain ⟨hadj, hw, hh⟩ := nbr_sound hd h
          exact ⟨n, rfl, hv, SGrid.ok_iff.mpr ⟨hw, hh, hl⟩, hadj, by simp [hv, hl]⟩
        · left
          refine ⟨?_, ?_⟩
          · have hb : (!(g.land n.1 n.2)) = true := by simp [hl]
            simp [hv, hb]
          · intro c' hc' hok
            cases hc'
            rw [SGrid.ok_iff] at hok
            exact absurd hok.2.2 hl

/-- A no-op `expandDir` leaves every field unchanged (trivially), and in the
enqueue case the deltas of `queue` and `visited` lengths agree. -/
lemma expandDir_len (g : SGrid) (cur : Coord) (st : BfsSt) (d : Int × Int) :
    (expandDir g cur st d).visited.length + st.queue.length =
      st.visited.length + (expandDir g cur st d).queue.length := by
  unfold expandDir
  match h : nbr g cur d with
  | none => simp
  | some n =>
      by_cases hv : n ∈ st.visited
      · simp [hv]
      · by_cases hl : g.land n.1 n.2 = true
        · simp [hv, hl]; omega
        · have hb : (!(g.land n.1 n.2)) = true := by simp [hl]
          simp [hv, hb]

lemma bfsStep_len (g : SGrid) (cur : Coord) (st : BfsSt) :
    (bfsStep g cur st).visited.length + st.queue.length =
      st.visited.length + (bfsStep g cur st).queue.length := by
  unfold bfsStep
  generalize dirs = ds
  induction ds generalizing st with
  | nil => simp
  | cons d ds ih =>
      simp only [List.foldl_cons]
      have h1 := expandDir_len g cur st d
      have h2 := ih (expandDir g cur st d)
      omega

/-- Size bound for any duplicate-free list of coordinates that are each the
start or in bounds. -/
lemma visited_len_le (g : SGrid) (start : Coord) (l : List Coord)
    (hnd : l.Nodup) (hin : ∀ c ∈ l, c = start ∨ g.ok c = true) :
    l.length ≤ g.width * g.height + 1 := by
  classical
  have hsub : l.toFinset ⊆ insert start ((Finset.range g.width) ×ˢ (Finset.range g.height)) := by
    intro c hc
    rw [List.mem_toFinset] at hc
    rcases hin c hc with rfl | hok
    · exact Finset.mem_insert_self _ _
    · rw [SGrid.ok_iff] at hok
      exact Finset.mem_insert_of_mem (by
        rw [Finset.mem_product]
        exact ⟨Finset.mem_range.mpr hok.1, Finset.mem_range.mpr hok.2.1⟩)
  have hcard := Finset.card_le_card hsub
  rw [List.toFinset_card_of_nodup hnd] at hcard
  calc l.length ≤ (insert start ((Finset.range g.width) ×ˢ (Finset.range g.height))).card := hcard
    _ ≤ ((Finset.range g.width) ×ˢ (Finset.range g.height)).card + 1 := Finset.card_insert_le _ _
    _ = g.width * g.height + 1 := by
        rw [Finset.card_product, Finset.card_range, Finset.card_range]

/-! ## The BFS invariant of `_executeMoveTo` -/

/-- Facts maintained by every BFS state of `_executeMoveTo`, relative to a
ghost distance labeling `dmap` (the depth of each visited cell in the parent
tree). -/
structure BfsCore (g : SGrid) (start goal : Coord) (st : BfsSt)
    (dmap : Coord → Nat) : Prop where
  vnd : st.visited.Nodup
  vok : ∀ c ∈ st.visited, c = start ∨ g.ok c = true
  qsub : ∀ c ∈ st.queue, c ∈ st.visited
  qnd : st.queue.Nodup
  p0 : pget st.parents start = some none
  pkeys : ∀ c, (pget st.parents c).isSome = true ↔ c ∈ st.visited
  pnull : ∀ c, pget st.parents c = some none → c = start
  pstep : ∀ c p, pget st.parents c = some (some p) →
    c ≠ start ∧ p ∈ st.visited ∧ adj4 p c ∧ g.ok c = true
  d0 : dmap start = 0
  dparent : ∀ c p, pget st.parents c = some (some p) → dmap c = dmap p + 1
  dreach : ∀ c ∈ st.visited, ReachN g.ok start c (dmap c)
  dbound : ∀ c ∈ st.visited, dmap c < st.visited.length
  plen : st.parents.length = st.visited.length
  qsorted : st.queue.Pairwise (fun a b => dmap a ≤ dmap b)
  qband : ∀ a ∈ st.queue, ∀ b ∈ st.queue, dmap a ≤ dmap b + 1
  vband : ∀ c ∈ st.visited, ∀ b ∈ st.queue, dmap c ≤ dmap b + 1
  goalq : goal ∈ st.visited → goal ∈ st.queue

/-- The invariant at the top of the BFS `while` loop: the core facts plus
closure of all already-processed (dequeued) cells. -/
structure BfsInv (g : SGrid) (start goal : Coord) (st : BfsSt)
    (dmap : Coord → Nat) extends BfsCore g start goal st dmap : Prop where
  closure : ∀ c ∈ st.visited, c ∉ st.queue → ∀ c', adj4 c c' → g.ok c' = true →
    c' ∈ st.visited ∧ dmap c' ≤ dmap c + 1

/-- The invariant in the middle of processing a dequeued cell `cur`, with the
directions in `ds` still to be scanned. -/
structure BfsMid (g : SGrid) (start goal cur : Coord) (ds : List (Int × Int))
    (st : BfsSt) (dmap : Coord → Nat)
    extends BfsCore g start goal st dmap : Prop where
  curv : cur ∈ st.visited
  curnq : cur ∉ st.queue
  vbandc : ∀ c ∈ st.visited, dmap c ≤ dmap cur + 1
  qlow : ∀ a ∈ st.queue, dmap cur ≤ dmap a
  closure' : ∀ c ∈ st.visited, c ∉ st.queue → c ≠ cur →
    ∀ c', adj4 c c' → g.ok c' = true → c' ∈ st.visited ∧ dmap c' ≤ dmap c + 1
  curcl : ∀ c', adj4 cur c' → g.ok c' = true →
    (c' ∈ st.visited ∧ dmap c' ≤ dmap cur + 1) ∨ ∃ d ∈ ds, nbr g cur d = some c'

lemma BfsCore.start_mem {g start goal st dmap}
    (H : BfsCore g start goal st dmap) : start ∈ st.visited :=
  (H.pkeys start).mp (by rw [H.p0]; rfl)

/-- Dequeuing a non-goal head establishes the mid-processing invariant with
all four directions pending. -/
lemma BfsInv.toMid {g : SGrid} {start goal : Coord} {st : BfsSt} {dmap}
    {cur : Coord} {rest : List Coord}
    (H : BfsInv g start goal st dmap) (hq : st.queue = cur :: rest)
    (hne : cur ≠ goal) :
    BfsMid g start goal cur dirs { st with queue := rest } dmap := by
  have hcv : cur ∈ st.visited := H.qsub cur (by rw [hq]; exact List.mem_cons_self _ _)
  have hnd := H.qnd
  rw [hq] at hnd
  refine
    { vnd := H.vnd
      vok := H.vok
      qsub := fun c hc => H.qsub c (by rw [hq]; exact List.mem_cons_of_mem _ hc)
      qnd := hnd.of_cons
      p0 := H.p0
      pkeys := H.pkeys
      pnull := H.pnull
      pstep := H.pstep
      d0 := H.d0
      dparent := H.dparent
      dreach := H.dreach
      dbound := H.dbound
      plen := H.plen
      qsorted := ?_
      qband := ?_
      vband := ?_
      goalq := ?_
      curv := hcv
      curnq := (List.nodup_cons.mp hnd).1
      vbandc := ?_
      qlow := ?_
      closure' := ?_
      curcl := ?_ }
  · have := H.qsorted
    rw [hq] at this
    exact (List.pairwise_cons.mp this).2
  · intro a ha b hb
    exact H.qband a (by rw [hq]; exact List.mem_cons_of_mem _ ha)
      b (by rw [hq]; exact List.mem_cons_of_mem _ hb)
  · intro c hc b hb
    exact H.vband c hc b (by rw [hq]; exact List.mem_cons_of_mem _ hb)
  · intro hgv
    have := H.goalq hgv
    rw [hq] at this
    rcases List.mem_cons.mp this with h | h
    · exact absurd h.symm hne
    · exact h
  · intro c hc
    exact H.vband c hc cur (by rw [hq]; exact List.mem_cons_self _ _)
  · intro a ha
    have := H.qsorted
    rw [hq] at this
    exact (List.pairwise_cons.mp this).1 a ha
  · intro c hc hcq hccur c' hadj hok
    refine H.closure c hc ?_ c' hadj hok
    rw [hq]
    intro hmem
    rcases List.mem_cons.mp hmem with h | h
    · exact hccur h
    · exact hcq h
  · intro c' hadj hok
    rw [SGrid.ok_iff] at hok
    exact Or.inr (nbr_complete hadj hok.1 hok.2.1)

/-- Scanning one direction preserves the mid-processing invariant (possibly
relabeling distances for the newly enqueued cell). -/
lemma BfsMid.expand {g : SGrid} {start goal cur : Coord} {ds : List (Int × Int)}
    {d : Int × Int} {st : BfsSt} {dmap}
    (H : BfsMid g start goal cur (d :: ds) st dmap) (hd : d ∈ dirs) :
    ∃ dmap', BfsMid g start goal cur ds (expandDir g cur st d) dmap' := by
  rcases expandDir_cases g cur st hd with ⟨heq, hnoop⟩ | ⟨n, hn, hfresh, hok, hadj, heq⟩
  · refine ⟨dmap, ?_⟩
    rw [heq]
    exact
      { toBfsCore := H.toBfsCore, curv := H.curv, curnq := H.curnq,
        vbandc := H.vbandc, qlow := H.qlow, closure' := H.closure',
        curcl := by
          intro c' hadj hok
          rcases H.curcl c' hadj hok with hL | ⟨d0, hd0, hnb⟩
          · exact Or.inl hL
          · rcases List.mem_cons.mp hd0 with rfl | hmem
            · have hv := hnoop c' hnb hok
              exact Or.inl ⟨hv, H.vbandc c' hv⟩
            · exact Or.inr ⟨d0, hmem, hnb⟩ }
  · rw [heq]
    refine ⟨fun c => if c = n then dmap cur + 1 else dmap c, ?_⟩
    have hstart : start ∈ st.visited := H.toBfsCore.start_mem
    have hnstart : n ≠ start := fun h => hfresh (by rw [h]; exact hstart)
    have hncur : cur ≠ n := fun h => hfresh (by rw [← h]; exact H.curv)
    have hnotq : n ∉ st.queue := fun h => hfresh (H.qsub n h)
    have hagree : ∀ c ∈ st.visited, (if c = n then dmap cur + 1 else dmap c) = dmap c := by
      intro c hc
      rw [if_neg (fun h => hfresh (by rw [← h]; exact hc))]
    refine
      { vnd := ?_, vok := ?_, qsub := ?_, qnd := ?_, p0 := ?_, pkeys := ?_,
        pnull := ?_, pstep := ?_, d0 := ?_, dparent := ?_, dreach := ?_,
        dbound := ?_, plen := ?_, qsorted := ?_, qband := ?_, vband := ?_,
        goalq := ?_, curv := ?_, curnq := ?_, vbandc := ?_, qlow := ?_,
        closure' := ?_, curcl := ?_ }
    · simp only [List.nodup_append, List.nodup_cons, List.not_mem_nil,
        not_false_iff, List.nodup_nil, and_true, true_and]
      exact ⟨H.vnd, by simpa [List.disjoint_singleton] using hfresh⟩
    · intro c hc
      rcases List.mem_append.mp hc with h | h
      · exact H.vok c h
      · right
        rw [List.mem_singleton.mp h]
        exact hok
    · intro c hc
      rcases List.mem_append.mp hc with h | h
      · exact List.mem_append_left _ (H.qsub c h)
      · exact List.mem_append_right _ h
    · simp only [List.nodup_append, List.nodup_cons, List.not_mem_nil,
        not_false_iff, List.nodup_nil, and_true, true_and]
      exact ⟨H.qnd, by simpa [List.disjoint_singleton] using hnotq⟩
    · rw [pget_cons, if_neg hnstart]
      exact H.p0
    · intro c
      rw [pget_cons]
      by_cases h : n = c
      · subst h
        simp
      · rw [if_neg h]
        rw [H.pkeys c]
        constructor
        · intro hc
          exact List.mem_append_left _ hc
        · intro hc
          rcases List.mem_append.mp hc with hc | hc
          · exact hc
          · exact absurd (List.mem_singleton.mp hc).symm h
    · intro c hc
      rw [pget_cons] at hc
      by_cases h : n = c
      · rw [if_pos h] at hc
        exact absurd hc (by simp)
      · rw [if_neg h] at hc
        exact H.pnull c hc
    · intro c p hc
      rw [pget_cons] at hc
      by_cases h : n = c
      · rw [if_pos h] at hc
        have hp : cur = p := Option.some.inj (Option.some.inj hc)
        rw [← h, ← hp]
        exact ⟨hnstart, List.mem_append_left _ H.curv, hadj, hok⟩
      · rw [if_neg h] at hc
        obtain ⟨h1, h2, h3, h4⟩ := H.pstep c p hc
        exact ⟨h1, List.mem_append_left _ h2, h3, h4⟩
    · rw [if_neg (fun h => hnstart h.symm)]
      exact H.d0
    · intro c p hc
      rw [pget_cons] at hc
      by_cases h : n = c
      · rw [if_pos h] at hc
        have hp : cur = p := Option.some.inj (Option.some.inj hc)
        rw [← h, ← hp, if_pos rfl, if_neg hncur]
      · rw [if_neg h] at hc
        have hcv : c ∈ st.visited := by
          rw [← H.pkeys c, hc]
          rfl
        have hpv : p ∈ st.visited := (H.pstep c p hc).2.1
        rw [hagree c hcv, hagree p hpv]
        exact H.dparent c p hc
    · intro c hc
      rcases List.mem_append.mp hc with h | h
      · rw [hagree c h]
        exact H.dreach c h
      · rw [List.mem_singleton.mp h, if_pos rfl]
        exact ReachN.step (H.dreach cur H.curv) hadj hok
    · intro c hc
      rw [List.length_append, List.length_singleton]
      rcases List.mem_append.mp hc with h | h
      · rw [hagree c h]
        have := H.dbound c h
        omega
      · rw [List.mem_singleton.mp h, if_pos rfl]
        have := H.dbound cur H.curv
        omega
    · simp [H.plen]
    · rw [List.pairwise_append]
      refine ⟨?_, List.pairwise_singleton _ _, ?_⟩
      · refine H.qsorted.imp_of_mem ?_
        intro a b ha hb hab
        rw [hagree a (H.qsub a ha), hagree b (H.qsub b hb)]
        exact hab
      · intro a ha b hb
        rw [List.mem_singleton.mp hb, if_pos rfl, hagree a (H.qsub a ha)]
        exact H.vbandc a (H.qsub a ha)
    · intro a ha b hb
      rcases List.mem_append.mp ha with ha' | ha' <;>
        rcases List.mem_append.mp hb with hb' | hb'
      · rw [hagree a (H.qsub a ha'), hagree b (H.qsub b hb')]
        exact H.qband a ha' b hb'
      · rw [hagree a (H.qsub a ha'), List.mem_singleton.mp hb', if_pos rfl]
        have := H.vbandc a (H.qsub a ha')
        omega
      · rw [List.mem_singleton.mp ha', if_pos rfl, hagree b (H.qsub b hb')]
        have := H.qlow b hb'
        omega
      · rw [List.mem_singleton.mp ha', List.mem_singleton.mp hb']
        simp
    · intro c hc b hb
      rcases List.mem_append.mp hc with hc' | hc' <;>
        rcases List.mem_append.mp hb with hb' | hb'
      · rw [hagree c hc', hagree b (H.qsub b hb')]
        exact H.vband c hc' b hb'
      · rw [hagree c hc', List.mem_singleton.mp hb', if_pos rfl]
        have := H.vbandc c hc'
        omega
      · rw [List.mem_singleton.mp hc', if_pos rfl, hagree b (H.qsub b hb')]
        have := H.qlow b hb'
        omega
      · rw [List.mem_singleton.mp hc', List.mem_singleton.mp hb']
        simp
    · intro hgv
      rcases List.mem_append.mp hgv with h | h
      · exact List.mem_append_left _ (H.goalq h)
      · exact List.mem_append_right _ h
    · exact List.mem_append_left _ H.curv
    · intro h
      rcases List.mem_append.mp h with h' | h'
      · exact H.curnq h'
      · exact hncur (List.mem_singleton.mp h')
    · intro c hc
      rw [if_neg hncur]
      rcases List.mem_append.mp hc with h | h
      · rw [hagree c h]
        exact H.vbandc c h
      · rw [List.mem_singleton.mp h, if_pos rfl]
    · intro a ha
      rw [if_neg hncur]
      rcases List.mem_append.mp ha with h | h
      · rw [hagree a (H.qsub a h)]
        exact H.qlow a h
      · rw [List.mem_singleton.mp h, if_pos rfl]
        omega
    · intro c hc hcq hccur c' hadj' hok'
      have hcv : c ∈ st.visited := by
        rcases List.mem_append.mp hc with h | h
        · exact h
        · exact absurd (List.mem_singleton.mp h)
            (fun he => hcq (by rw [he]; exact List.mem_append_right _ (List.mem_singleton_self n)))
      have hcq' : c ∉ st.queue := fun h => hcq (List.mem_append_left _ h)
      obtain ⟨h1, h2⟩ := H.closure' c hcv hcq' hccur c' hadj' hok'
      refine ⟨List.mem_append_left _ h1, ?_⟩
      rw [hagree c hcv, hagree c' h1]
      exact h2
    · intro c' hadj' hok'
      rcases H.curcl c' hadj' hok' with ⟨h1, h2⟩ | ⟨d0, hd0, hnb⟩
      · left
        refine ⟨List.mem_append_left _ h1, ?_⟩
        rw [hagree c' h1, if_neg hncur]
        exact h2
      · rcases List.mem_cons.mp hd0 with rfl | hmem
        · rw [hn] at hnb
          have : c' = n := (Option.some.inj hnb).symm
          subst this
          left
          refine ⟨List.mem_append_right _ (List.mem_singleton_self _), ?_⟩
          rw [if_pos rfl, if_neg hncur]
        · exact Or.inr ⟨d0, hmem, hnb⟩

/-- Folding `expandDir` over a suffix of the direction list preserves the
mid-processing invariant. -/
lemma BfsMid.fold {g : SGrid} {start goal cur : Coord} :
    ∀ {ds : List (Int × Int)} {st : BfsSt} {dmap},
      BfsMid g start goal cur ds st dmap → (∀ d ∈ ds, d ∈ dirs) →
      ∃ dmap', BfsMid g start goal cur []
        (ds.foldl (fun s d => expandDir g cur s d) st) dmap' := by
  intro ds
  induction ds with
  | nil => intro st dmap H _; exact ⟨dmap, H⟩
  | cons d ds ih =>
      intro st dmap H hsub
      obtain ⟨dmap', H'⟩ := H.expand (hsub d (List.mem_cons_self _ _))
      simpa using ih H' (fun d' hd' => hsub d' (List.mem_cons_of_mem _ hd'))

/-- At the end of the direction scan the full loop-top invariant is restored. -/
lemma BfsMid.toInv {g : SGrid} {start goal cur : Coord} {st : BfsSt} {dmap}
    (H : BfsMid g start goal cur [] st dmap) : BfsInv g start goal st dmap :=
  { toBfsCore := H.toBfsCore
    closure := by
      intro c hc hcq c' hadj hok
      by_cases hcc : c = cur
      · rcases H.curcl c' (by rw [← hcc]; exact hadj) hok with hL | ⟨d, hd, _⟩
        · rw [hcc]
          exact hL
        · exact absurd hd (List.not_mem_nil _)
      · exact H.closure' c hc hcq hcc c' hadj hok }

/-- Minimality at the moment the goal sits at the head of the queue: every
walk from `start` either certifies a depth bound for its endpoint or is
already at least `dmap goal` long. -/
lemma BfsInv.min_at_head {g : SGrid} {start goal : Coord} {st : BfsSt} {dmap}
    {rest : List Coord} (H : BfsInv g start goal st dmap)
    (hq : st.queue = goal :: rest) :
    ∀ m c, ReachN g.ok start c m → (c ∈ st.visited ∧ dmap c ≤ m) ∨ dmap goal ≤ m := by
  intro m c h
  induction h with
  | refl => exact Or.inl ⟨H.toBfsCore.start_mem, H.d0.le⟩
  | step hr hadj hok ih =>
      rename_i b c' n'
      rcases ih with ⟨hbv, hbd⟩ | hgle
      · by_cases hbq : b ∈ st.queue
        · right
          have hgb : dmap goal ≤ dmap b := by
            rw [hq] at hbq
            rcases List.mem_cons.mp hbq with rfl | hbq'
            · exact le_refl _
            · have hps := H.qsorted
              rw [hq] at hps
              exact (List.pairwise_cons.mp hps).1 b hbq'
          omega
        · obtain ⟨h1, h2⟩ := H.closure b hbv hbq c' hadj hok
          exact Or.inl ⟨h1, by omega⟩
      · exact Or.inr (by omega)

/-- When the queue empties without dequeuing the goal, the goal is not
reachable at all. -/
lemma BfsInv.empty_unreachable {g : SGrid} {start goal : Coord} {st : BfsSt}
    {dmap} (H : BfsInv g start goal st dmap) (hq : st.queue = []) :
    ∀ n, ¬ ReachN g.ok start goal n := by
  have hvis : ∀ n c, ReachN g.ok start c n → c ∈ st.visited := by
    intro n c h
    induction h with
    | refl => exact H.toBfsCore.start_mem
    | step hr hadj hok ih =>
        exact (H.closure _ ih (by rw [hq]; exact List.not_mem_nil _) _ hadj hok).1
  intro n hr
  have h1 := H.goalq (hvis n goal hr)
  rw [hq] at h1
  exact absurd h1 (List.not_mem_nil _)

/-- Unfolding: empty queue terminates the loop unfound at any fuel. -/
lemma bfsLoop_nil {g : SGrid} {goal : Coord} {fuel : Nat} {st : BfsSt}
    (hq : st.queue = []) : bfsLoop g goal fuel st = (false, st) := by
  conv_lhs => rw [bfsLoop]
  rw [hq]

/-- Unfolding: dequeuing the goal breaks the loop with `found = true`. -/
lemma bfsLoop_found {g : SGrid} {goal : Coord} {fuel : Nat} {st : BfsSt}
    {rest : List Coord} (hq : st.queue = goal :: rest) :
    bfsLoop g goal (fuel + 1) st = (true, st) := by
  conv_lhs => rw [bfsLoop]
  rw [hq]
  simp

/-- Unfolding: dequeuing a non-goal head expands it and continues. -/
lemma bfsLoop_cons {g : SGrid} {goal : Coord} {fuel : Nat} {st : BfsSt}
    {cur : Coord} {rest : List Coord} (hq : st.queue = cur :: rest)
    (hg : ¬ cur = goal) :
    bfsLoop g goal (fuel + 1) st =
      bfsLoop g goal fuel (bfsStep g cur { st with queue := rest }) := by
  conv_lhs => rw [bfsLoop]
  rw [hq]
  simp [hg]

/-- The main loop lemma: with adequate fuel, `bfsLoop` finds the goal iff it
is reachable, and on success the final state satisfies the invariant with the
goal at the head of the queue and a depth label that is minimal among all
walks. -/
lemma bfsLoop_spec (g : SGrid) (start goal : Coord) :
    ∀ fuel (st : BfsSt) (dmap : Coord → Nat), BfsInv g start goal st dmap →
      g.width * g.height + 1 - st.visited.length + st.queue.length ≤ fuel →
      (∀ n, ReachN g.ok start goal n → (bfsLoop g goal fuel st).1 = true) ∧
      ((bfsLoop g goal fuel st).1 = true →
        ∃ dmap', BfsInv g start goal (bfsLoop g goal fuel st).2 dmap' ∧
          (∃ rest, (bfsLoop g goal fuel st).2.queue = goal :: rest) ∧
          (∀ m, ReachN g.ok start goal m → dmap' goal ≤ m)) := by
  intro fuel
  induction fuel with
  | zero =>
      intro st dmap hInv hfuel
      have hq : st.queue = [] := by
        have := List.length_eq_zero.mp (by omega : st.queue.length = 0)
        exact this
      constructor
      · intro n hr
        exact absurd hr (hInv.empty_unreachable hq n)
      · intro hfound
        rw [bfsLoop_nil hq] at hfound
        exact absurd hfound (by simp)
  | succ fuel ih =>
      intro st dmap hInv hfuel
      cases hq : st.queue with
      | nil =>
          constructor
          · intro n hr
            exact absurd hr (hInv.empty_unreachable hq n)
          · intro hfound
            rw [bfsLoop_nil hq] at hfound
            exact absurd hfound (by simp)
      | cons cur rest =>
          by_cases hg : cur = goal
          · have hq' : st.queue = goal :: rest := by rw [hq, hg]
            rw [bfsLoop_found hq']
            refine ⟨fun _ _ => rfl, fun _ => ⟨dmap, hInv, ⟨rest, hq'⟩, ?_⟩⟩
            intro m hm
            rcases hInv.min_at_head hq' m goal hm with ⟨_, h2⟩ | h2 <;> exact h2
          · obtain ⟨dmap2, hMid2⟩ := ((hInv.toMid hq hg).fold (fun d hd => hd))
            have hInv2 := hMid2.toInv
            have hlen := bfsStep_len g cur { st with queue := rest }
            have hv2 := visited_len_le g start
              (bfsStep g cur { st with queue := rest }).visited hInv2.vnd hInv2.vok
            have hql : st.queue.length = rest.length + 1 := by
              rw [hq]
              simp
            have hfuel2 : g.width * g.height + 1 -
                (bfsStep g cur { st with queue := rest }).visited.length +
                (bfsStep g cur { st with queue := rest }).queue.length ≤ fuel := by
              have e1 : ({ st with queue := rest } : BfsSt).queue.length = rest.length := rfl
              have e2 : ({ st with queue := rest } : BfsSt).visited.length =
                st.visited.length := rfl
              rw [e1, e2] at hlen
              omega
            have hrec := ih (bfsStep g cur { st with queue := rest }) dmap2 hInv2 hfuel2
            rw [bfsLoop_cons hq hg]
            exact hrec

/-- Correctness of the reconstruction loop: from any visited cell it appends
the parent chain (cell first, start last), whose length is the recorded depth
plus one and whose reversed steps are walkable grid steps. -/
lemma reconLoop_spec {g : SGrid} {start goal : Coord} {st : BfsSt} {dmap}
    (H : BfsInv g start goal st dmap) :
    ∀ k c acc fuel, c ∈ st.visited → dmap c = k → k + 1 ≤ fuel →
      ∃ L, reconLoop st.parents fuel (some c) acc = acc ++ L ∧
        L.length = k + 1 ∧ L.head? = some c ∧ L.getLast? = some start ∧
        List.Chain' (fun x y => adj4 y x ∧ g.ok x = true) L := by
  intro k
  induction k with
  | zero =>
      intro c acc fuel hc hd hfuel
      have hsome : (pget st.parents c).isSome = true := (H.pkeys c).mpr hc
      match hv : pget st.parents c with
      | some none =>
          have hcs : c = start := H.pnull c hv
          match fuel, hfuel with
          | fuel + 1, _ =>
              refine ⟨[c], ?_, by simp, by simp, by rw [hcs]; simp,
                List.chain'_singleton _⟩
              have hj : (some (none : Option Coord)).join = (none : Option Coord) := rfl
              rw [show reconLoop st.parents (fuel + 1) (some c) acc =
                reconLoop st.parents fuel (pget st.parents c).join (acc ++ [c]) from rfl]
              rw [hv, hj]
              cases fuel <;> rfl
      | some (some p) =>
          exfalso
          have := H.dparent c p hv
          omega
      | none => rw [hv] at hsome; exact absurd hsome (by simp)
  | succ k ihk =>
      intro c acc fuel hc hd hfuel
      have hsome : (pget st.parents c).isSome = true := (H.pkeys c).mpr hc
      match hv : pget st.parents c with
      | some none =>
          exfalso
          have hcs := H.pnull c hv
          rw [hcs, H.d0] at hd
          omega
      | some (some p) =>
          obtain ⟨hcs, hpv, hadj, hok⟩ := H.pstep c p hv
          have hdp : dmap c = dmap p + 1 := H.dparent c p hv
          have hdpk : dmap p = k := by omega
          match fuel, hfuel with
          | fuel + 1, hfuel =>
              obtain ⟨L', hL', hlen', hhead', hlast', hchain'⟩ :=
                ihk p (acc ++ [c]) fuel hpv hdpk (by omega)
              refine ⟨c :: L', ?_, by simp [hlen'], by simp, ?_, ?_⟩
              · have hj : (some (some p)).join = some p := rfl
                rw [show reconLoop st.parents (fuel + 1) (some c) acc =
                  reconLoop st.parents fuel (pget st.parents c).join (acc ++ [c]) from rfl]
                rw [hv, hj, hL']
                simp
              · cases hL'' : L' with
                | nil => rw [hL''] at hlen'; simp at hlen'
                | cons a t =>
                    rw [← hL'', show (c :: L').getLast? = L'.getLast? from by
                      rw [hL'']; exact List.getLast?_cons_cons]
                    exact hlast'
              · cases hL'' : L' with
                | nil => rw [hL''] at hlen'; simp at hlen'
                | cons a t =>
                    have ha : a = p := by
                      rw [hL''] at hhead'
                      exact Option.some.inj hhead'
                    rw [hL''] at hchain'
                    rw [List.chain'_cons]
                    exact ⟨by rw [ha]; exact ⟨hadj, hok⟩, hchain'⟩
      | none => rw [hv] at hsome; exact absurd hsome (by simp)

/-- Correctness of `recon` at the goal cell. -/
lemma recon_spec {g : SGrid} {start goal : Coord} {st : BfsSt} {dmap}
    (H : BfsInv g start goal st dmap) (hv : goal ∈ st.visited) :
    (recon st.parents goal).length = dmap goal + 1 ∧
    (recon st.parents goal).head? = some start ∧
    (recon st.parents goal).getLast? = some goal ∧
    List.Chain' (fun a b => adj4 a b ∧ g.ok b = true) (recon st.parents goal) := by
  have hb := H.dbound goal hv
  have hfuel : dmap goal + 1 ≤ st.parents.length + 1 := by rw [H.plen]; omega
  obtain ⟨L, hL, hlen, hhead, hlast, hchain⟩ :=
    reconLoop_spec H (dmap goal) goal [] (st.parents.length + 1) hv rfl hfuel
  unfold recon
  rw [hL]
  simp only [List.nil_append]
  refine ⟨by simp [hlen], ?_, ?_, ?_⟩
  · rw [List.head?_reverse]
    exact hlast
  · rw [List.getLast?_reverse]
    exact hhead
  · rw [List.chain'_reverse]
    convert hchain using 2

/-- The initial BFS state satisfies the invariant with the all-zero labels. -/
lemma bfsInit_inv (g : SGrid) (start goal : Coord) :
    BfsInv g start goal (bfsInit start) (fun _ => 0) := by
  have hv : (bfsInit start).visited = [start] := rfl
  have hq : (bfsInit start).queue = [start] := rfl
  have hp : ∀ c, pget (bfsInit start).parents c =
      if start = c then some none else none := by
    intro c
    rw [show (bfsInit start).parents = [(start, none)] from rfl, pget_cons, pget_nil]
  refine
    { vnd := by rw [hv]; exact List.nodup_singleton _
      vok := ?_
      qsub := fun c hc => hc
      qnd := by rw [hq]; exact List.nodup_singleton _
      p0 := by rw [hp]; simp
      pkeys := ?_
      pnull := ?_
      pstep := ?_
      d0 := rfl
      dparent := ?_
      dreach := ?_
      dbound := ?_
      plen := rfl
      qsorted := by rw [hq]; exact List.pairwise_singleton _ _
      qband := fun a _ b _ => by omega
      vband := fun a _ b _ => by omega
      goalq := fun h => h
      closure := ?_ }
  · intro c hc
    rw [hv] at hc
    exact Or.inl (List.mem_singleton.mp hc)
  · intro c
    rw [hp, hv]
    by_cases h : start = c
    · rw [if_pos h]
      simp [h.symm]
    · rw [if_neg h]
      simp
      exact fun he => h he.symm
  · intro c hc
    rw [hp] at hc
    by_cases h : start = c
    · exact h.symm
    · rw [if_neg h] at hc
      exact absurd hc (by simp)
  · intro c p hc
    rw [hp] at hc
    by_cases h : start = c
    · rw [if_pos h] at hc
      exact absurd hc (by simp)
    · rw [if_neg h] at hc
      exact absurd hc (by simp)
  · intro c p hc
    rw [hp] at hc
    by_cases h : start = c
    · rw [if_pos h] at hc
      exact absurd hc (by simp)
    · rw [if_neg h] at hc
      exact absurd hc (by simp)
  · intro c hc
    rw [hv] at hc
    rw [List.mem_singleton.mp hc]
    exact ReachN.refl start
  · intro c hc
    rw [hv] at hc
    rw [hv]
    simp
  · intro c hc hcq
    rw [hv] at hc
    rw [hq] at hcq
    exact absurd hc hcq

/-- Reducing `findPathIdx` when the BFS found the goal. -/
lemma findPathIdx_eq_of_found {g : SGrid} {start goal : Coord}
    (h : (bfsRun g start goal).1 = true) :
    findPathIdx g start goal = some (recon (bfsRun g start goal).2.parents goal) := by
  unfold findPathIdx
  rw [show bfsRun g start goal = (true, (bfsRun g start goal).2) from
    Prod.ext h rfl]

/-- Full correctness of the `_executeMoveTo` path computation: for any
reachable goal it returns a walkable path from start to goal of minimal
length. -/
lemma findPathIdx_spec (g : SGrid) (start goal : Coord)
    (hreach : Reachable g.ok start goal) :
    ∃ path, findPathIdx g start goal = some path ∧
      path.head? = some start ∧ path.getLast? = some goal ∧
      List.Chain' (fun a b => adj4 a b ∧ g.ok b = true) path ∧
      ReachN g.ok start goal (path.length - 1) ∧
      (∀ m, ReachN g.ok start goal m → path.length - 1 ≤ m) := by
  obtain ⟨n, hn⟩ := hreach
  have hInv0 := bfsInit_inv g start goal
  have hfuel0 : g.width * g.height + 1 - (bfsInit start).visited.length +
      (bfsInit start).queue.length ≤ g.width * g.height + 2 := by
    rw [show (bfsInit start).visited = [start] from rfl,
      show (bfsInit start).queue = [start] from rfl]
    simp
  obtain ⟨h1, h2⟩ := bfsLoop_spec g start goal (g.width * g.height + 2)
    (bfsInit start) (fun _ => 0) hInv0 hfuel0
  have hrw : bfsLoop g goal (g.width * g.height + 2) (bfsInit start) =
      bfsRun g start goal := rfl
  rw [hrw] at h1 h2
  have hfound : (bfsRun g start goal).1 = true := h1 n hn
  obtain ⟨dmap', hInv', ⟨rest, hqr⟩, hmin⟩ := h2 hfound
  have hgv : goal ∈ (bfsRun g start goal).2.visited :=
    hInv'.qsub goal (by rw [hqr]; exact List.mem_cons_self _ _)
  obtain ⟨hlen, hhead, hlast, hchain⟩ := recon_spec hInv' hgv
  refine ⟨recon (bfsRun g start goal).2.parents goal,
    findPathIdx_eq_of_found hfound, hhead, hlast, hchain, ?_, ?_⟩
  · rw [hlen]
    simpa using hInv'.dreach goal hgv
  · intro m hm
    rw [hlen]
    simpa using hmin m hm

/-- Completeness: a `none` answer means the goal is unreachable. -/
lemma findPathIdx_none (g : SGrid) (start goal : Coord)
    (h : findPathIdx g start goal = none) : ¬ Reachable g.ok start goal := by
  intro hr
  obtain ⟨path, hp, _⟩ := findPathIdx_spec g start goal hr
  rw [h] at hp
  exact absurd hp (by simp)

/-! ## Frame and inversion lemmas for the scheduler embedding -/

lemma stepCommit_queue (S : PState) (next : Coord) :
    (stepCommit S next).moveQueue = S.moveQueue := rfl

lemma stepCommit_isMoving (S : PState) (next : Coord) :
    (stepCommit S next).isMoving = S.isMoving := rfl

lemma stepCommit_interrupted (S : PState) (next : Coord) :
    (stepCommit S next).interrupted = S.interrupted := rfl

lemma stepCommit_completedLog (S : PState) (next : Coord) :
    (stepCommit S next).completedLog = S.completedLog := rfl

lemma stepCommit_trace (S : PState) (next : Coord) :
    (stepCommit S next).trace = S.trace ++ [next] := rfl

lemma stepCommit_placed (S : PState) (next : Coord) :
    (stepCommit S next).placed = some next := rfl

/-- Case analysis of `_executeMoveTo`'s synchronous prefix: either some guard
fired and the state is returned untouched, or the first step of a computed
path was committed and the loop suspended. -/
lemma execStart_cases (g : SGrid) (S : PState) (d : Int × Int) :
    execStart g S d = .ret S ∨
      ∃ path c, execStart g S d = .sleep (stepCommit S c) path 1 ∧
        S.interrupted = false ∧ path[1]? = some c := by
  unfold execStart
  split
  · exact Or.inl rfl
  · rename_i hb
    cases hp : S.placed with
    | none => exact Or.inl rfl
    | some start =>
        dsimp only
        by_cases h2 : start = (d.1.toNat, d.2.toNat)
        · rw [if_pos h2]
          exact Or.inl rfl
        · rw [if_neg h2]
          by_cases h3 : (!g.land (d.1.toNat, d.2.toNat).1 (d.1.toNat, d.2.toNat).2) = true
          · rw [if_pos h3]
            exact Or.inl rfl
          · rw [if_neg h3]
            cases hf : findPathIdx g start (d.1.toNat, d.2.toNat) with
            | none => exact Or.inl rfl
            | some path =>
                dsimp only
                by_cases h4 : path.length ≤ 1
                · rw [if_pos h4]
                  exact Or.inl rfl
                · rw [if_neg h4]
                  by_cases h5 : S.interrupted = true
                  · rw [if_pos h5]
                    exact Or.inl rfl
                  · rw [if_neg h5]
                    cases hc : path[1]? with
                    | none => exact Or.inl rfl
                    | some c =>
                        dsimp only
                        exact Or.inr ⟨path, c, rfl,
                          Bool.not_eq_true _ ▸ h5, hc⟩

/-- Every `return` inside `_executeMoveTo`'s synchronous prefix leaves the
state untouched. -/
lemma execStart_ret {g : SGrid} {S : PState} {d : Int × Int} {S' : PState}
    (h : execStart g S d = .ret S') : S' = S := by
  rcases execStart_cases g S d with he | ⟨path, c, he, _, _⟩ <;> rw [he] at h
  · cases h
    rfl
  · cases h

/-- A suspension inside `_executeMoveTo`'s synchronous prefix commits exactly
one step and requires the interrupt flag to be down. -/
lemma execStart_sleep {g : SGrid} {S : PState} {d : Int × Int} {S' : PState}
    {path : List Coord} {i : Nat} (h : execStart g S d = .sleep S' path i) :
    (∃ c, S' = stepCommit S c) ∧ S.interrupted = false ∧ i = 1 := by
  rcases execStart_cases g S d with he | ⟨path', c, he, hint, _⟩ <;> rw [he] at h
  · cases h
  · cases h
    exact ⟨⟨c, rfl⟩, hint, rfl⟩

lemma execResume_ret {S : PState} {path : List Coord} {i : Nat} {S' : PState}
    (h : execResume S path i = .ret S') : S' = S := by
  unfold execResume at h
  split at h
  · split at h
    · cases h
      rfl
    · cases h
  · cases h
    rfl

lemma execResume_sleep {S : PState} {path : List Coord} {i : Nat} {S' : PState}
    {p : List Coord} {j : Nat} (h : execResume S path i = .sleep S' p j) :
    ∃ (hj : i + 1 < path.length), S' = stepCommit S (path.get ⟨i + 1, hj⟩) ∧
      p = path ∧ j = i + 1 ∧ S.interrupted = false := by
  unfold execResume at h
  split at h
  · split at h
    · cases h
    · cases h
      rename_i hj hint
      exact ⟨hj, rfl, rfl, rfl, by simpa using hint⟩
  · cases h

lemma execResume_of_interrupted {S : PState} {path : List Coord} {i : Nat}
    (hI : S.interrupted = true) : execResume S path i = .ret S := by
  unfold execResume
  split
  · simp [hI]
  · rfl

lemma execResume_of_last {S : PState} {path : List Coord} {i : Nat}
    (h : ¬ i + 1 < path.length) : execResume S path i = .ret S := by
  unfold execResume
  rw [dif_neg h]

lemma execResume_of_step {S : PState} {path : List Coord} {i : Nat}
    (hlt : i + 1 < path.length) (hI : S.interrupted = false) :
    execResume S path i = .sleep (stepCommit S (path.get ⟨i + 1, hlt⟩)) path (i + 1) := by
  unfold execResume
  rw [dif_pos hlt, if_neg (by simp [hI])]

lemma procGo_nil (g : SGrid) (S : PState) : procGo g [] S = exitFin S := rfl

lemma procGo_cons_interrupted {g : SGrid} {d : Int × Int} {ds : List (Int × Int)}
    {S : PState} (hI : S.interrupted = true) :
    procGo g (d :: ds) S = exitFin S := by
  unfold procGo
  rw [if_pos hI]

lemma procGo_cons_sleep {g : SGrid} {d : Int × Int} {ds : List (Int × Int)}
    {S S' : PState} {path : List Coord} {i : Nat}
    (hI : S.interrupted = false) (h : execStart g S d = .sleep S' path i) :
    procGo g (d :: ds) S = ⟨S', some (d, path, i), false⟩ := by
  unfold procGo
  rw [if_neg (by simp [hI]), h]

lemma procGo_cons_ret {g : SGrid} {d : Int × Int} {ds : List (Int × Int)}
    {S S' : PState} (hI : S.interrupted = false)
    (h : execStart g S d = .ret S') (hI' : S'.interrupted = false) :
    procGo g (d :: ds) S = procGo g ds (shiftS S') := by
  conv_lhs => rw [procGo]
  rw [if_neg (by simp [hI]), h]
  dsimp only
  rw [if_neg (by simp [hI'])]

/-! ## Lemmas for preemption (claim C3) -/

lemma priorityCore_isMoving (S : PState) (d : Int × Int) :
    (priorityCore S d).isMoving = S.isMoving := rfl

lemma mstep_priority_moving {g : SGrid} {c : Conf} {d : Int × Int}
    (hM : c.S.isMoving = true) :
    mstep g c (.priority d) = { c with S := priorityCore c.S d } := by
  unfold mstep
  dsimp only
  rw [if_pos (show (priorityCore c.S d).isMoving = true from hM)]

lemma mstep_tick_interrupted {g : SGrid} {c : Conf} {d0 : Int × Int}
    {path : List Coord} {i : Nat} (hT : c.task = some (d0, path, i))
    (hI : c.S.interrupted = true) :
    mstep g c .tick =
      { S := (exitFin c.S).S, task := none,
        pending := c.pending + (if (exitFin c.S).restart then 1 else 0) } := by
  unfold mstep
  rw [hT]
  dsimp only
  rw [execResume_of_interrupted hI]
  dsimp only
  rw [if_pos hI]

/-- Claim C3: immediately after a `moveToPriority dest` call the pending
queue holds exactly `[dest]`, for every prior queue and scheduler state (the
synchronous part of the call never reaches a `shift()`); and when the call
preempts a scheduler that is mid-traversal, the interrupted loop exits at its
next checkpoint without dequeuing, still leaving exactly `[dest]`. -/
theorem claim_C3_preempt_queue (g : SGrid) (S : PState) (d : Int × Int)
    (c : Conf) (ctx : (Int × Int) × List Coord × Nat)
    (hM : c.S.isMoving = true) (hT : c.task = some ctx) :
    (prioritySyncState g S d).moveQueue = [d] ∧
    (mstep g c (.priority d)).S.moveQueue = [d] ∧
    (mstep g (mstep g c (.priority d)) .tick).S.moveQueue = [d] ∧
    (mstep g (mstep g c (.priority d)) .tick).task = none ∧
    (mstep g (mstep g c (.priority d)) .tick).S.trace = c.S.trace := by
  obtain ⟨d0, path, i⟩ := ctx
  have hsync : (prioritySyncState g S d).moveQueue = [d] := by
    unfold prioritySyncState
    dsimp only
    by_cases hm : (priorityCore S d).isMoving = true
    · rw [if_pos hm]
      rfl
    · rw [if_neg hm]
      rcases execStart_cases g (procEntry (priorityCore S d)) d with he | ⟨p, cc, he, _, _⟩
      · rw [he]
        rfl
      · rw [he]
        rfl
  have h1 : mstep g c (.priority d) = { c with S := priorityCore c.S d } :=
    mstep_priority_moving hM
  have h2 : mstep g (mstep g c (.priority d)) .tick =
      { S := (exitFin (priorityCore c.S d)).S, task := none,
        pending := c.pending +
          (if (exitFin (priorityCore c.S d)).restart then 1 else 0) } := by
    rw [h1]
    exact mstep_tick_interrupted
      (show ({ c with S := priorityCore c.S d } : Conf).task = some (d0, path, i) from hT) rfl
  refine ⟨hsync, by rw [h1]; rfl, ?_, ?_, ?_⟩
  · rw [h2]
    rfl
  · rw [h2]
  · rw [h2]
    rfl

/-- Witness for claim C3 at a concrete mid-traversal configuration. -/
theorem claim_C3_preempt_queue_witness :
    confMovingW.S.isMoving = true ∧ confMovingW.task = some ((1, 0), [(0, 0), (1, 0)], 1) ∧
    ((prioritySyncState gridW stateW (0, 0)).moveQueue = [(0, 0)] ∧
     (mstep gridW confMovingW (.priority (0, 0))).S.moveQueue = [(0, 0)] ∧
     (mstep gridW (mstep gridW confMovingW (.priority (0, 0))) .tick).S.moveQueue = [(0, 0)] ∧
     (mstep gridW (mstep gridW confMovingW (.priority (0, 0))) .tick).task = none ∧
     (mstep gridW (mstep gridW confMovingW (.priority (0, 0))) .tick).S.trace = confMovingW.S.trace) :=
  ⟨rfl, rfl, claim_C3_preempt_queue gridW stateW (0, 0) confMovingW _ rfl rfl⟩

/-! ## Lemmas for stop-all (claim C4) -/

lemma mstep_stop (g : SGrid) (c : Conf) :
    mstep g c .stop = { c with S := stopCore c.S } := rfl

lemma mstep_tick_none {g : SGrid} {c : Conf} (hT : c.task = none) :
    mstep g c .tick = c := by
  unfold mstep
  rw [hT]

lemma mstep_restart_zero {g : SGrid} {c : Conf} (hp : c.pending = 0) :
    mstep g c .restart = c := by
  unfold mstep
  rw [if_pos hp]

lemma mstep_restart_pos {g : SGrid} {c : Conf} (hp : c.pending ≠ 0) :
    mstep g c .restart = invokeProcess g { c with pending := c.pending - 1 } := by
  unfold mstep
  rw [if_neg hp]

lemma mrun_nil (g : SGrid) (c : Conf) : mrun g c [] = c := rfl

lemma mrun_cons (g : SGrid) (c : Conf) (e : MEv) (es : List MEv) :
    mrun g c (e :: es) = mrun g (mstep g c e) es := rfl

lemma mrun_append (g : SGrid) (c : Conf) (a b : List MEv) :
    mrun g c (a ++ b) = mrun g (mrun g c a) b := by
  induction a generalizing c with
  | nil => rfl
  | cons e es ih => rw [List.cons_append, mrun_cons, mrun_cons, ih]

/-- `_processMoveQueue` invoked with an empty queue and an idle guard: it
only clears the two flags. -/
lemma invokeProcess_empty {g : SGrid} (S : PState)
    (task : Option ((Int × Int) × List Coord × Nat)) (pending : Nat)
    (hq : S.moveQueue = []) (hm : S.isMoving = false) :
    invokeProcess g ⟨S, task, pending⟩ =
      ⟨{ S with isMoving := false, interrupted := false }, none, pending⟩ := by
  unfold invokeProcess
  rw [if_neg (by simp [hm])]
  have hq' : (procEntry S).moveQueue = [] := hq
  rw [show (procEntry (Conf.mk S task pending).S).moveQueue = [] from hq', procGo_nil]
  simp [exitFin, procEntry]

/-- Timer events preserve the stopped regime. -/
lemma stoppedFrom_step (g : SGrid) {c0 c : Conf} (h : StoppedFrom c0 c)
    {e : MEv} (he : e = .tick ∨ e = .restart) :
    StoppedFrom c0 (mstep g c e) := by
  obtain ⟨hq, htr, hx, hy, hpl, hocc, hint⟩ := h
  rcases he with rfl | rfl
  · cases hT : c.task with
    | none => rw [mstep_tick_none hT]; exact ⟨hq, htr, hx, hy, hpl, hocc, hint⟩
    | some ctx =>
        obtain ⟨d0, path, i⟩ := ctx
        have hI : c.S.interrupted = true := hint (by rw [hT]; rfl)
        rw [mstep_tick_interrupted hT hI]
        exact ⟨hq, htr, hx, hy, hpl, hocc, by intro h'; exact absurd h' (by simp)⟩
  · by_cases hp : c.pending = 0
    · rw [mstep_restart_zero hp]
      exact ⟨hq, htr, hx, hy, hpl, hocc, hint⟩
    · rw [mstep_restart_pos hp]
      by_cases hm : c.S.isMoving = true
      · rw [show invokeProcess g { c with pending := c.pending - 1 } =
            { c with pending := c.pending - 1 } from by
          unfold invokeProcess; rw [if_pos hm]]
        exact ⟨hq, htr, hx, hy, hpl, hocc, hint⟩
      · rw [show ({ c with pending := c.pending - 1 } : Conf) =
            ⟨c.S, c.task, c.pending - 1⟩ from rfl,
          invokeProcess_empty c.S c.task (c.pending - 1) hq (by simpa using hm)]
        exact ⟨hq, htr, hx, hy, hpl, hocc, by intro h'; exact absurd h' (by simp)⟩

lemma stoppedFrom_run (g : SGrid) {c0 c : Conf} (h : StoppedFrom c0 c)
    {evs : List MEv} (he : OnlyTimer evs) : StoppedFrom c0 (mrun g c evs) := by
  induction evs generalizing c with
  | nil => exact h
  | cons e es ih =>
      rw [mrun_cons]
      exact ih (stoppedFrom_step g h (he e (List.mem_cons_self _ _)))
        (fun e' he' => he e' (List.mem_cons_of_mem _ he'))

/-- Restart firings drain the pending counter on an idle, empty-queue
configuration without doing anything else. -/
lemma restarts_drain (g : SGrid) :
    ∀ (k : Nat) (c : Conf), c.task = none → c.S.isMoving = false →
      c.S.moveQueue = [] →
      (mrun g c (List.replicate k .restart)).task = none ∧
      (mrun g c (List.replicate k .restart)).pending = c.pending - k ∧
      (mrun g c (List.replicate k .restart)).S.moveQueue = [] ∧
      (mrun g c (List.replicate k .restart)).S.isMoving = false ∧
      (mrun g c (List.replicate k .restart)).S.trace = c.S.trace := by
  intro k
  induction k with
  | zero =>
      intro c h1 h2 h3
      exact ⟨h1, by show c.pending = c.pending - 0; omega, h3, h2, rfl⟩
  | succ k ih =>
      intro c h1 h2 h3
      rw [List.replicate_succ, mrun_cons]
      by_cases hp : c.pending = 0
      · rw [mstep_restart_zero hp]
        obtain ⟨a1, a2, a3, a4, a5⟩ := ih c h1 h2 h3
        exact ⟨a1, by omega, a3, a4, a5⟩
      · rw [mstep_restart_pos hp,
          show ({ c with pending := c.pending - 1 } : Conf) =
            ⟨c.S, c.task, c.pending - 1⟩ from rfl,
          invokeProcess_empty c.S c.task (c.pending - 1) h3 h2]
        obtain ⟨a1, a2, a3, a4, a5⟩ :=
          ih ⟨{ c.S with isMoving := false, interrupted := false }, none, c.pending - 1⟩
            rfl rfl h3
        exact ⟨a1, by rw [a2]; show c.pending - 1 - k = c.pending - (k + 1); omega,
          a3, a4, a5⟩

/-- After `stopAllMovement`, a tick (ending any in-flight traversal) and the
scheduled restarts reach a quiescent idle scheduler with an empty queue and
an unchanged step history. -/
lemma stop_liveness (g : SGrid) (c : Conf)
    (hco : c.task = none → c.S.isMoving = false) :
    ∃ evs, OnlyTimer evs ∧ Quiescent (mrun g (mstep g c .stop) evs) ∧
      (mrun g (mstep g c .stop) evs).S.moveQueue = [] ∧
      (mrun g (mstep g c .stop) evs).S.trace = c.S.trace := by
  have hstop : mstep g c .stop = ⟨stopCore c.S, c.task, c.pending⟩ := rfl
  rw [hstop]
  cases hT : c.task with
  | none =>
      refine ⟨.tick :: List.replicate c.pending .restart, ?_, ?_⟩
      · intro e he
        rcases List.mem_cons.mp he with rfl | he'
        · exact Or.inl rfl
        · exact Or.inr (List.eq_of_mem_replicate he')
      · rw [mrun_cons, mstep_tick_none (c := ⟨stopCore c.S, none, c.pending⟩) rfl]
        obtain ⟨a1, a2, a3, a4, a5⟩ := restarts_drain g c.pending
          ⟨stopCore c.S, none, c.pending⟩ rfl (hco hT) rfl
        refine ⟨⟨a1, ?_, a4⟩, a3, ?_⟩
        · rw [a2]
          show c.pending - c.pending = 0
          omega
        · exact a5
  | some ctx =>
      obtain ⟨d0, path, i⟩ := ctx
      have h2 := mstep_tick_interrupted (g := g)
        (c := ⟨stopCore c.S, some (d0, path, i), c.pending⟩) rfl rfl
      refine ⟨.tick :: List.replicate (c.pending + 1) .restart, ?_, ?_⟩
      · intro e he
        rcases List.mem_cons.mp he with rfl | he'
        · exact Or.inl rfl
        · exact Or.inr (List.eq_of_mem_replicate he')
      · rw [mrun_cons, h2]
        obtain ⟨a1, a2, a3, a4, a5⟩ := restarts_drain g (c.pending + 1)
          ⟨(exitFin (stopCore c.S)).S, none,
            c.pending + if (exitFin (stopCore c.S)).restart then 1 else 0⟩ rfl rfl rfl
        refine ⟨⟨a1, ?_, a4⟩, a3, ?_⟩
        · rw [a2]
          show c.pending + 1 - (c.pending + 1) = 0
          omega
        · exact a5

/-- Claim C4: after `stopAllMovement` the pending queue is empty at once; no
further step is ever committed toward any former destination (the position,
occupancy and `PositionChanged` history stay frozen under all subsequent
timer events), and after the in-flight step's timer and the scheduled
restarts fire, the scheduler is idle (`isMoving = false`) with an empty
queue. -/
theorem claim_C4_stop_all (g : SGrid) (c : Conf)
    (hco : c.task = none → c.S.isMoving = false) :
    (mstep g c .stop).S.moveQueue = [] ∧
    (∀ evs, OnlyTimer evs →
      StoppedFrom (mstep g c .stop) (mrun g (mstep g c .stop) evs)) ∧
    (∃ evs, OnlyTimer evs ∧ Quiescent (mrun g (mstep g c .stop) evs) ∧
      (mrun g (mstep g c .stop) evs).S.moveQueue = [] ∧
      (mrun g (mstep g c .stop) evs).S.trace = c.S.trace) := by
  have hbase : StoppedFrom (mstep g c .stop) (mstep g c .stop) :=
    ⟨rfl, rfl, rfl, rfl, rfl, rfl, fun _ => rfl⟩
  refine ⟨rfl, ?_, ?_⟩
  · exact fun evs he => stoppedFrom_run g hbase he
  · exact stop_liveness g c hco

/-- Witness for claim C4 at a concrete mid-traversal configuration. -/
theorem claim_C4_stop_all_witness :
    (confMovingW.task = none → confMovingW.S.isMoving = false) ∧
    ((mstep gridW confMovingW .stop).S.moveQueue = [] ∧
     (∀ evs, OnlyTimer evs →
       StoppedFrom (mstep gridW confMovingW .stop)
         (mrun gridW (mstep gridW confMovingW .stop) evs)) ∧
     (∃ evs, OnlyTimer evs ∧
       Quiescent (mrun gridW (mstep gridW confMovingW .stop) evs) ∧
       (mrun gridW (mstep gridW confMovingW .stop) evs).S.moveQueue = [] ∧
       (mrun gridW (mstep gridW confMovingW .stop) evs).S.trace = confMovingW.S.trace)) :=
  by
  refine ⟨?_, ?_⟩
  · intro h
    simp [confMovingW] at h
  · exact claim_C4_stop_all gridW confMovingW (by intro h; simp [confMovingW] at h)

/-! ## Occupancy invariant (claim C8) -/

lemma occInv_of_fields {S S' : PState} (h : OccInv S)
    (hpl : S'.placed = S.placed) (hocc : S'.occ = S.occ)
    (hx : S'.x = S.x) (hy : S'.y = S.y) : OccInv S' := by
  obtain ⟨p, h1, h2, h3, h4⟩ := h
  exact ⟨p, by rw [hpl, h1], by rw [hocc, h2], by rw [hx, h3], by rw [hy, h4]⟩

/-- A committed step moves the single occupancy marker and the recorded
position together: afterwards the player occupies exactly the target cell
and `x`, `y`, `_placedCell` all equal it. -/
lemma stepCommit_occInv {S : PState} (h : OccInv S) (next : Coord) :
    (stepCommit S next).placed = some next ∧ (stepCommit S next).occ = [next] ∧
    (stepCommit S next).x = (next.1 : Int) ∧ (stepCommit S next).y = (next.2 : Int) := by
  obtain ⟨p, hpl, hocc, hx, hy⟩ := h
  refine ⟨rfl, ?_, rfl, rfl⟩
  show (let occ1 := match S.placed with
          | some p => if p ∈ S.occ then S.occ.filter (fun c => c != p) else S.occ
          | none => S.occ
        let occ2 := if next ∈ occ1 then occ1 else next :: occ1
        occ2) = [next]
  rw [hpl, hocc]
  dsimp only
  rw [if_pos (List.mem_singleton_self p)]
  have hfil : [p].filter (fun c => c != p) = [] := by simp
  rw [hfil]
  rw [if_neg (List.not_mem_nil next)]

lemma stepCommit_occInv' {S : PState} (h : OccInv S) (next : Coord) :
    OccInv (stepCommit S next) := by
  obtain ⟨h1, h2, h3, h4⟩ := stepCommit_occInv h next
  exact ⟨next, h1, h2, h3, h4⟩

lemma shiftS_occInv {S : PState} (h : OccInv S) : OccInv (shiftS S) := by
  unfold shiftS
  cases S.moveQueue with
  | nil => exact h
  | cons d rest => exact occInv_of_fields h rfl rfl rfl rfl

lemma procGo_occInv (g : SGrid) :
    ∀ (ds : List (Int × Int)) (S : PState), OccInv S → OccInv (procGo g ds S).S := by
  intro ds
  induction ds with
  | nil =>
      intro S h
      exact occInv_of_fields h rfl rfl rfl rfl
  | cons d ds ih =>
      intro S h
      by_cases hI : S.interrupted = true
      · rw [procGo_cons_interrupted hI]
        exact occInv_of_fields h rfl rfl rfl rfl
      · have hI' : S.interrupted = false := by simpa using hI
        rcases execStart_cases g S d with he | ⟨path, cc, he, _, _⟩
        · rw [procGo_cons_ret hI' he hI']
          exact ih (shiftS S) (shiftS_occInv h)
        · rw [procGo_cons_sleep hI' he]
          exact stepCommit_occInv' h cc

lemma invokeProcess_occInv {g : SGrid} {c : Conf} (h : OccInv c.S) :
    OccInv (invokeProcess g c).S := by
  unfold invokeProcess
  by_cases hm : c.S.isMoving = true
  · rw [if_pos hm]
    exact h
  · rw [if_neg hm]
    exact procGo_occInv g _ _ (occInv_of_fields h rfl rfl rfl rfl)

lemma mstep_occInv (g : SGrid) (c : Conf) (e : MEv) (h : OccInv c.S) :
    OccInv (mstep g c e).S := by
  cases e with
  | moveTo d =>
      exact invokeProcess_occInv (occInv_of_fields h rfl rfl rfl rfl)
  | priority d =>
      show OccInv (mstep g c (.priority d)).S
      unfold mstep
      dsimp only
      by_cases hm : (priorityCore c.S d).isMoving = true
      · rw [if_pos hm]
        exact occInv_of_fields h rfl rfl rfl rfl
      · rw [if_neg hm]
        exact invokeProcess_occInv (occInv_of_fields h rfl rfl rfl rfl)
  | stop => exact occInv_of_fields h rfl rfl rfl rfl
  | tick =>
      show OccInv (mstep g c .tick).S
      unfold mstep
      cases hT : c.task with
      | none => exact h
      | some ctx =>
          obtain ⟨d0, path, i⟩ := ctx
          dsimp only
          by_cases hlt : i + 1 < path.length
          · by_cases hI : c.S.interrupted = true
            · rw [execResume_of_interrupted hI]
              dsimp only
              rw [if_pos hI]
              exact occInv_of_fields h rfl rfl rfl rfl
            · have hI' : c.S.interrupted = false := by simpa using hI
              rw [execResume_of_step hlt hI']
              dsimp only
              exact stepCommit_occInv' h _
          · rw [execResume_of_last hlt]
            dsimp only
            by_cases hI : c.S.interrupted = true
            · rw [if_pos hI]
              exact occInv_of_fields h rfl rfl rfl rfl
            · rw [if_neg hI]
              exact procGo_occInv g _ _ (shiftS_occInv h)
  | restart =>
      by_cases hp : c.pending = 0
      · rw [mstep_restart_zero hp]
        exact h
      · rw [mstep_restart_pos hp]
        exact invokeProcess_occInv h

lemma mrun_occInv (g : SGrid) (c : Conf) (evs : List MEv) (h : OccInv c.S) :
    OccInv (mrun g c evs).S := by
  induction evs generalizing c with
  | nil => exact h
  | cons e es ih =>
      rw [mrun_cons]
      exact ih _ (mstep_occInv g c e h)

/-- Claim C8: from any configuration where the player occupies exactly one
cell with matching recorded position, every sequence of events and timer
firings preserves that invariant at every macrotask boundary (the only
observable instants); moreover each movement step updates occupancy and
position together, atomically before the per-step delay: right after the
commit the player occupies exactly the target cell and `x`, `y`,
`_placedCell` all equal it. -/
theorem claim_C8_occupancy (g : SGrid) (c : Conf) (evs : List MEv)
    (h : OccInv c.S) :
    OccInv (mrun g c evs).S ∧
    (∀ S next, OccInv S →
      (stepCommit S next).placed = some next ∧ (stepCommit S next).occ = [next] ∧
      (stepCommit S next).x = (next.1 : Int) ∧
      (stepCommit S next).y = (next.2 : Int)) :=
  ⟨mrun_occInv g c evs h, fun _ next hS => stepCommit_occInv hS next⟩

/-- Witness for claim C8 on a short concrete run with a preemption. -/
theorem claim_C8_occupancy_witness :
    OccInv (initConf (0, 0)).S ∧
    (OccInv (mrun gridW3 (initConf (0, 0))
        [.moveTo (2, 0), .priority (0, 0), .tick, .restart, .tick]).S ∧
     (∀ S next, OccInv S →
       (stepCommit S next).placed = some next ∧ (stepCommit S next).occ = [next] ∧
       (stepCommit S next).x = (next.1 : Int) ∧
       (stepCommit S next).y = (next.2 : Int))) :=
  ⟨⟨(0, 0), rfl, rfl, rfl, rfl⟩,
   claim_C8_occupancy gridW3 (initConf (0, 0))
     [.moveTo (2, 0), .priority (0, 0), .tick, .restart, .tick]
     ⟨(0, 0), rfl, rfl, rfl, rfl⟩⟩

/-! ## Spatial and placement errors (claim C9) -/

lemma shiftS_cons {S : PState} {d : Int × Int} {rest : List (Int × Int)}
    (h : S.moveQueue = d :: rest) :
    shiftS S = { S with
        moveQueue := rest,
        completedLog := S.completedLog ++ [d] } := by
  unfold shiftS
  rw [h]

/-- `_executeMoveTo` on an out-of-bounds destination or an unplaced player
returns immediately, leaving the state untouched. -/
lemma execStart_bad (g : SGrid) (S : PState) (d : Int × Int)
    (hbad : (d.1 < 0 ∨ (g.width : Int) ≤ d.1 ∨ d.2 < 0 ∨ (g.height : Int) ≤ d.2) ∨
      S.placed = none) :
    execStart g S d = .ret S := by
  unfold execStart
  by_cases hb : (d.1 < 0 ∨ (g.width : Int) ≤ d.1 ∨ d.2 < 0 ∨ (g.height : Int) ≤ d.2)
  · rw [if_pos hb]
  · rw [if_neg hb]
    rcases hbad with hbad | hbad
    · exact absurd hbad hb
    · rw [hbad]

/-- Claim C9 (amended): `moveTo` performs no validation — the destination is
appended to the queue unconditionally and the call reports nothing
synchronously; an out-of-bounds destination, or any destination given to an
unplaced player, is detected only inside `_executeMoveTo` once it reaches the
head of the queue, where the call silently returns and the loop pops the
destination and continues — absorbed by the scheduler loop exactly like a
pathing failure (no committed step, no position change, queue drained). -/
theorem claim_C9_silent_absorb (g : SGrid) (c : Conf) (d : Int × Int)
    (hq : c.S.moveQueue = []) (hm : c.S.isMoving = false)
    (hp : c.pending = 0)
    (hbad : (d.1 < 0 ∨ (g.width : Int) ≤ d.1 ∨ d.2 < 0 ∨ (g.height : Int) ≤ d.2) ∨
      c.S.placed = none) :
    (moveToCore c.S d).moveQueue = c.S.moveQueue ++ [d] ∧
    (mstep g c (.moveTo d)).S.moveQueue = [] ∧
    (mstep g c (.moveTo d)).S.trace = c.S.trace ∧
    (mstep g c (.moveTo d)).S.placed = c.S.placed ∧
    (mstep g c (.moveTo d)).S.completedLog = c.S.completedLog ++ [d] ∧
    Quiescent (mstep g c (.moveTo d)) := by
  have hmst : mstep g c (.moveTo d) =
      invokeProcess g ⟨moveToCore c.S d, c.task, c.pending⟩ := rfl
  have hqd : (procEntry (moveToCore c.S d)).moveQueue = [d] := by
    show c.S.moveQueue ++ [d] = [d]
    rw [hq]
    rfl
  have hexec : execStart g (procEntry (moveToCore c.S d)) d =
      .ret (procEntry (moveToCore c.S d)) :=
    execStart_bad g _ d (by
      rcases hbad with hb | hb
      · exact Or.inl hb
      · exact Or.inr (show c.S.placed = none from hb))
  have hshift : shiftS (procEntry (moveToCore c.S d)) =
      { procEntry (moveToCore c.S d) with
          moveQueue := ([] : List (Int × Int)),
          completedLog := (procEntry (moveToCore c.S d)).completedLog ++ [d] } :=
    shiftS_cons hqd
  have hproc : procGo g [d] (procEntry (moveToCore c.S d)) =
      exitFin (shiftS (procEntry (moveToCore c.S d))) := by
    rw [procGo_cons_ret rfl hexec rfl]
    rw [hshift]
    rfl
  have hout : invokeProcess g ⟨moveToCore c.S d, c.task, c.pending⟩ =
      ⟨(exitFin (shiftS (procEntry (moveToCore c.S d)))).S, none, c.pending⟩ := by
    unfold invokeProcess
    dsimp only
    rw [if_neg (show ¬ (moveToCore c.S d).isMoving = true from by
      show ¬ c.S.isMoving = true
      simp [hm])]
    rw [hqd, hproc, hshift]
    simp [exitFin, procEntry]
  rw [hmst, hout]
  refine ⟨by rfl, ?_, ?_, ?_, ?_, ?_⟩
  · rw [hshift]
    rfl
  · rw [hshift]
    rfl
  · rw [hshift]
    rfl
  · rw [hshift]
    show (procEntry (moveToCore c.S d)).completedLog ++ [d] = c.S.completedLog ++ [d]
    rfl
  · exact ⟨rfl, hp, by rw [hshift]; rfl⟩

/-- Witness for claim C9's amended statement: an out-of-bounds destination on
a placed, idle player, and an in-bounds destination on an unplaced player. -/
theorem claim_C9_silent_absorb_witness :
    ((5 : Int) < 0 ∨ (gridW.width : Int) ≤ 5 ∨ (5 : Int) < 0 ∨
        (gridW.height : Int) ≤ 5 ∨ (initConf (0, 0)).S.placed = none) ∧
    ((moveToCore (initConf (0, 0)).S (5, 5)).moveQueue =
        (initConf (0, 0)).S.moveQueue ++ [(5, 5)] ∧
     (mstep gridW (initConf (0, 0)) (.moveTo (5, 5))).S.moveQueue = [] ∧
     (mstep gridW (initConf (0, 0)) (.moveTo (5, 5))).S.trace = (initConf (0, 0)).S.trace ∧
     (mstep gridW (initConf (0, 0)) (.moveTo (5, 5))).S.placed = (initConf (0, 0)).S.placed ∧
     (mstep gridW (initConf (0, 0)) (.moveTo (5, 5))).S.completedLog =
        (initConf (0, 0)).S.completedLog ++ [(5, 5)] ∧
     Quiescent (mstep gridW (initConf (0, 0)) (.moveTo (5, 5)))) :=
  ⟨by right; left; decide,
   claim_C9_silent_absorb gridW (initConf (0, 0)) (5, 5) rfl rfl rfl
     (Or.inl (by right; left; decide))⟩

/-- Counterexample to claim C9 as stated: the spec-modelled synchronous
`enqueueDestination` rejects the out-of-bounds destination `(5,5)` with
`OutOfBounds`, but the source's `moveTo` happily appends it to the queue (no
synchronous report), and the scheduler loop then silently pops it. -/
theorem claim_C9_counterexample :
    moveToSpec gridW (initConf (0, 0)).S (5, 5) = .error .outOfBounds ∧
    (moveToCore (initConf (0, 0)).S (5, 5)).moveQueue = [(5, 5)] ∧
    (mrun gridW (initConf (0, 0)) [.moveTo (5, 5)]).S.moveQueue = [] ∧
    (mrun gridW (initConf (0, 0)) [.moveTo (5, 5)]).S.trace = [] ∧
    (mrun gridW (initConf (0, 0)) [.moveTo (5, 5)]).S.completedLog = [(5, 5)] := by
  refine ⟨?_, rfl, ?_, ?_, ?_⟩
  · rfl
  · rfl
  · rfl
  · rfl

/-! ## Starting and finishing traversals (claims C7 and C10) -/

lemma two_le_length_of_head_last {path : List Coord} {a t : Coord}
    (hh : path.head? = some a) (hl : path.getLast? = some t) (hne : a ≠ t) :
    1 < path.length := by
  cases path with
  | nil => cases hh
  | cons x l =>
      cases l with
      | nil =>
          cases hh
          cases hl
          exact absurd rfl hne
      | cons y m => simp

/-- The last element of a list through `getLast?` and `get`. -/
lemma getLast_eq_get {l : List Coord} {t : Coord} (h : l.getLast? = some t)
    (hl : l.length - 1 < l.length) : l.get ⟨l.length - 1, hl⟩ = t := by
  rw [List.getLast?_eq_getElem?] at h
  have := List.getElem?_eq_getElem hl
  rw [this] at h
  exact Option.some.inj h

/-- If a list ends with `t`, prefixing it preserves order witnesses: `t`
followed by anything embedded in `Δ` embeds in the list followed by `Δ`. -/
lemma sublist_endsWith_append {l Δ : List Coord} {t : Coord} {ts : List Coord}
    (hend : l.getLast? = some t) (hsub : ts.Sublist Δ) :
    (t :: ts).Sublist (l ++ Δ) := by
  obtain ⟨l', rfl⟩ : ∃ l', l = l' ++ [t] := by
    cases hx : l.getLast? with
    | none => rw [hx] at hend; cases hend
    | some y =>
        rw [hx] at hend
        cases hend
        exact ⟨l.dropLast, (List.dropLast_append_getLast? _ hx).symm⟩
  rw [List.append_assoc]
  exact (hsub.cons₂ t).trans (List.sublist_append_right l' (t :: Δ))

/-- `getLastD` distributes over append. -/
lemma getLastD_append (l1 l2 : List Coord) (d : Coord) :
    (l1 ++ l2).getLastD d = l2.getLastD (l1.getLastD d) := by
  induction l1 generalizing d with
  | nil => rfl
  | cons x xs ih => rw [List.cons_append, List.getLastD_cons, ih, List.getLastD_cons]

lemma getLastD_concat' (l : List Coord) (t d : Coord) :
    (l ++ [t]).getLastD d = t := by
  rw [getLastD_append]
  rfl

/-- A destination chain extended by one further valid destination. -/
lemma destChain_append_one {g : SGrid} {a : Coord} {ds : List Coord} {t : Coord}
    (h : DestChain g a ds) (hgd : GoodDest g (ds.getLastD a) t) :
    DestChain g a (ds ++ [t]) := by
  induction ds generalizing a with
  | nil => exact ⟨hgd, trivial⟩
  | cons b bs ih =>
      obtain ⟨h1, h2⟩ := h
      rw [List.getLastD_cons] at hgd
      exact ⟨h1, ih h2 hgd⟩

/-- The tail half of a destination chain, re-anchored at the prefix's end. -/
lemma destChain_split {g : SGrid} {a : Coord} (xs : List Coord) {ys : List Coord}
    (h : DestChain g a (xs ++ ys)) : DestChain g (xs.getLastD a) ys := by
  induction xs generalizing a with
  | nil => exact h
  | cons b bs ih =>
      obtain ⟨_, h2⟩ := h
      rw [List.getLastD_cons]
      exact ih h2

/-- `_executeMoveTo` on a valid, distinct, reachable destination: every guard
passes, the BFS produces a shortest path of length at least 2, and the
animation loop commits its first step and suspends at the sleep. -/
lemma execStart_good {g : SGrid} {S : PState} {a t : Coord}
    (hpl : S.placed = some a) (hI : S.interrupted = false)
    (hgd : GoodDest g a t) :
    ∃ path, ∃ h1 : 1 < path.length,
      findPathIdx g a t = some path ∧ path.head? = some a ∧
      path.getLast? = some t ∧
      execStart g S (ic t) = .sleep (stepCommit S (path.get ⟨1, h1⟩)) path 1 := by
  obtain ⟨hw1, hw2, hland, hne, hreach⟩ := hgd
  obtain ⟨path, hfp, hhead, hlast, hchain, hrn, hmin⟩ := findPathIdx_spec g a t hreach
  have h1 : 1 < path.length := two_le_length_of_head_last hhead hlast hne.symm
  refine ⟨path, h1, hfp, hhead, hlast, ?_⟩
  unfold execStart
  have hb : ¬ ((ic t).1 < 0 ∨ (g.width : Int) ≤ (ic t).1 ∨ (ic t).2 < 0 ∨
      (g.height : Int) ≤ (ic t).2) := by
    simp only [ic]
    omega
  rw [if_neg hb, hpl]
  dsimp only
  simp only [show (ic t).1 = (t.1 : Int) from rfl, show (ic t).2 = (t.2 : Int) from rfl,
    Int.toNat_natCast, Prod.mk.eta]
  rw [if_neg hne.symm, if_neg (by simp [hland]), hfp]
  dsimp only
  rw [if_neg (by omega : ¬ path.length ≤ 1), if_neg (by simp [hI]),
    List.getElem?_eq_getElem h1]
  rfl

/-- Starting the head of the queue on a valid destination: the loop iteration
suspends inside `_executeMoveTo` with the first path step committed, never
reaching the `shift()`. -/
lemma procGo_start {g : SGrid} {S : PState} {a t : Coord} (rest : List (Int × Int))
    (hpl : S.placed = some a) (hI : S.interrupted = false) (hgd : GoodDest g a t) :
    ∃ path, ∃ h1 : 1 < path.length,
      path.getLast? = some t ∧
      procGo g (ic t :: rest) S =
        ⟨stepCommit S (path.get ⟨1, h1⟩), some (ic t, path, 1), false⟩ := by
  obtain ⟨path, h1, _, _, hlast, hex⟩ := execStart_good hpl hI hgd
  exact ⟨path, h1, hlast, procGo_cons_sleep hI hex⟩

/-- A processor invocation on an idle scheduler whose queue head is a valid
destination: the loop enters (clearing the interrupt flag), commits the first
step of the head's path, and suspends. -/
lemma invoke_start {g : SGrid} {S : PState} {a t : Coord} {rest : List (Int × Int)}
    (task : Option ((Int × Int) × List Coord × Nat)) (pending : Nat)
    (hm : S.isMoving = false) (hpl : S.placed = some a)
    (hq : S.moveQueue = ic t :: rest) (hgd : GoodDest g a t) :
    ∃ path, ∃ h1 : 1 < path.length,
      path.getLast? = some t ∧
      invokeProcess g ⟨S, task, pending⟩ =
        ⟨stepCommit (procEntry S) (path.get ⟨1, h1⟩), some (ic t, path, 1), pending⟩ := by
  have hpl' : (procEntry S).placed = some a := hpl
  have hI' : (procEntry S).interrupted = false := rfl
  obtain ⟨path, h1, hlast, hproc⟩ := procGo_start rest hpl' hI' hgd
  refine ⟨path, h1, hlast, ?_⟩
  unfold invokeProcess
  rw [if_neg (show ¬ (Conf.mk S task pending).S.isMoving = true by simp [hm])]
  have hq' : (procEntry S).moveQueue = ic t :: rest := hq
  rw [show (procEntry (Conf.mk S task pending).S).moveQueue = ic t :: rest from hq']
  rw [show procEntry (Conf.mk S task pending).S = procEntry S from rfl, hproc]
  simp

/-- A timer tick mid-path: the next step is committed atomically and the
traversal sleeps again. -/
lemma tick_mid {g : SGrid} {c : Conf} {dp : Int × Int} {path : List Coord} {i : Nat}
    (hT : c.task = some (dp, path, i)) (hI : c.S.interrupted = false)
    (hlt : i + 1 < path.length) :
    mstep g c .tick =
      { c with S := stepCommit c.S (path.get ⟨i + 1, hlt⟩),
               task := some (dp, path, i + 1) } := by
  unfold mstep
  rw [hT]
  dsimp only
  rw [execResume_of_step hlt hI]

/-- A timer tick at the last committed index: `_executeMoveTo` returns, the
loop pops the finished destination, and control continues through the rest of
the queue. -/
lemma tick_last {g : SGrid} {c : Conf} {dp : Int × Int} {path : List Coord} {i : Nat}
    (hT : c.task = some (dp, path, i)) (hI : c.S.interrupted = false)
    (hge : ¬ i + 1 < path.length) :
    mstep g c .tick =
      { S := (procGo g (shiftS c.S).moveQueue (shiftS c.S)).S,
        task := (procGo g (shiftS c.S).moveQueue (shiftS c.S)).task,
        pending := c.pending +
          (if (procGo g (shiftS c.S).moveQueue (shiftS c.S)).restart then 1 else 0) } := by
  unfold mstep
  rw [hT]
  dsimp only
  rw [execResume_of_last hge]
  dsimp only
  rw [if_neg (by simp [hI])]

/-- `shift()` leaves every field but the queue and the completion log
unchanged. -/
lemma shiftS_placed (S : PState) : (shiftS S).placed = S.placed := by
  unfold shiftS
  cases S.moveQueue <;> rfl

lemma shiftS_interrupted (S : PState) : (shiftS S).interrupted = S.interrupted := by
  unfold shiftS
  cases S.moveQueue <;> rfl

lemma shiftS_isMoving (S : PState) : (shiftS S).isMoving = S.isMoving := by
  unfold shiftS
  cases S.moveQueue <;> rfl

lemma shiftS_trace (S : PState) : (shiftS S).trace = S.trace := by
  unfold shiftS
  cases S.moveQueue <;> rfl

lemma shiftS_queue {S : PState} {d : Int × Int} {rest : List (Int × Int)}
    (h : S.moveQueue = d :: rest) : (shiftS S).moveQueue = rest := by
  unfold shiftS
  rw [h]

lemma shiftS_log {S : PState} {d : Int × Int} {rest : List (Int × Int)}
    (h : S.moveQueue = d :: rest) :
    (shiftS S).completedLog = S.completedLog ++ [d] := by
  unfold shiftS
  rw [h]

/-- A timer tick at the end of a traversal, under the run invariant: the
finished destination is popped and logged, the next queued destination (if
any) is started, and the run invariant advances by one completed
destination. -/
lemma tick_complete {g : SGrid} {p0 : Coord} {done : List Coord} {t : Coord}
    {pend' : List Coord} {c : Conf} {path : List Coord} {i : Nat}
    (hi : i < path.length)
    (hp : c.pending = 0) (hI : c.S.interrupted = false)
    (hlog : c.S.completedLog = done.map ic)
    (hq : c.S.moveQueue = (t :: pend').map ic)
    (hch : DestChain g (done.getLastD p0) (t :: pend'))
    (hT : c.task = some (ic t, path, i)) (hmov : c.S.isMoving = true)
    (h1i : 1 ≤ i) (hlast : path.getLast? = some t)
    (hpl : c.S.placed = some (path.get ⟨i, hi⟩))
    (hge : ¬ i + 1 < path.length)
    (τ : List Coord) (htr : c.S.trace = τ ++ [path.get ⟨i, hi⟩])
    (hsub : done.Sublist τ) :
    RunInv g p0 (done ++ [t]) pend' (mstep g c .tick) := by
  have hit : path.get ⟨i, hi⟩ = t := by
    have hie : i = path.length - 1 := by omega
    subst hie
    exact getLast_eq_get hlast hi
  obtain ⟨hgdt, hch'⟩ := hch
  have hqc : c.S.moveQueue = ic t :: pend'.map ic := by rw [hq]; rfl
  have hstep := tick_last (g := g) hT hI hge
  have hq1 : (shiftS c.S).moveQueue = pend'.map ic := shiftS_queue hqc
  have hlog1 : (shiftS c.S).completedLog = (done ++ [t]).map ic := by
    rw [shiftS_log hqc, hlog]
    simp
  have hI1 : (shiftS c.S).interrupted = false := by rw [shiftS_interrupted]; exact hI
  have hsubt : (done ++ [t]).Sublist c.S.trace := by
    rw [htr, hit]
    exact hsub.append (List.Sublist.refl [t])
  cases pend' with
  | nil =>
      rw [show (List.map ic [] : List (Int × Int)) = [] from rfl] at hq1
      rw [hq1, procGo_nil] at hstep
      rw [hstep]
      refine ⟨by simp [exitFin, hp, hI1], by simp [exitFin], ?_, ?_, trivial,
        .inl ⟨rfl, by simp [exitFin], rfl, ?_, ?_⟩⟩
      · show (exitFin (shiftS c.S)).S.completedLog = (done ++ [t]).map ic
        rw [show (exitFin (shiftS c.S)).S.completedLog =
          (shiftS c.S).completedLog from rfl, hlog1]
      · show (exitFin (shiftS c.S)).S.moveQueue = List.map ic []
        rw [show (exitFin (shiftS c.S)).S.moveQueue =
          (shiftS c.S).moveQueue from rfl, hq1]
        rfl
      · show (exitFin (shiftS c.S)).S.placed = some ((done ++ [t]).getLastD p0)
        rw [show (exitFin (shiftS c.S)).S.placed = (shiftS c.S).placed from rfl,
          shiftS_placed, hpl, hit, getLastD_concat']
      · show (done ++ [t]).Sublist (exitFin (shiftS c.S)).S.trace
        rw [show (exitFin (shiftS c.S)).S.trace = (shiftS c.S).trace from rfl,
          shiftS_trace]
        exact hsubt
  | cons t2 pend2 =>
      obtain ⟨hgd2, hch2⟩ := hch'
      have hplS : (shiftS c.S).placed = some t := by
        rw [shiftS_placed, hpl, hit]
      obtain ⟨path2, h12, hlast2, hproc2⟩ :=
        procGo_start (g := g) (pend2.map ic) hplS hI1 hgd2
      rw [show ((t2 :: pend2).map ic : List (Int × Int)) = ic t2 :: pend2.map ic from
        rfl] at hq1
      rw [hq1, hproc2] at hstep
      rw [hstep]
      refine ⟨by simp [hp], ?_, ?_, ?_, ?_, .inr ?_⟩
      · show (stepCommit (shiftS c.S) _).interrupted = false
        rw [stepCommit_interrupted]
        exact hI1
      · show (stepCommit (shiftS c.S) _).completedLog = (done ++ [t]).map ic
        rw [stepCommit_completedLog, hlog1]
      · show (stepCommit (shiftS c.S) _).moveQueue = (t2 :: pend2).map ic
        rw [stepCommit_queue, hq1]
        rfl
      · show DestChain g ((done ++ [t]).getLastD p0) (t2 :: pend2)
        rw [getLastD_concat']
        exact ⟨hgd2, hch2⟩
      · refine ⟨t2, pend2, path2, 1, h12, rfl, rfl, ?_, le_refl 1, hlast2,
          stepCommit_placed _ _, ⟨(shiftS c.S).trace, stepCommit_trace _ _, ?_⟩⟩
        · show (stepCommit (shiftS c.S) _).isMoving = true
          rw [stepCommit_isMoving, shiftS_isMoving]
          exact hmov
        · rw [shiftS_trace]
          exact hsubt

/-- A timer tick preserves the run invariant, possibly completing the head
destination. -/
lemma runInv_tick {g : SGrid} {p0 : Coord} {done pend : List Coord} {c : Conf}
    (h : RunInv g p0 done pend c) :
    RunInv g p0 done pend (mstep g c .tick) ∨
    ∃ t pend', pend = t :: pend' ∧
      RunInv g p0 (done ++ [t]) pend' (mstep g c .tick) := by
  obtain ⟨hp, hI, hlog, hq, hch, hcase⟩ := h
  rcases hcase with ⟨hT, hmov, hpe, hpl, hsub⟩ | hB
  · left
    rw [mstep_tick_none hT]
    exact ⟨hp, hI, hlog, hq, hch, .inl ⟨hT, hmov, hpe, hpl, hsub⟩⟩
  · obtain ⟨t, pend', path, i, hi, hpe, hT, hmov, h1i, hlast, hpl, τ, htr, hsub⟩ := hB
    subst hpe
    by_cases hlt : i + 1 < path.length
    · left
      rw [tick_mid hT hI hlt]
      refine ⟨hp, ?_, ?_, ?_, hch, .inr ⟨t, pend', path, i + 1, hlt, rfl, rfl, ?_,
        by omega, hlast, stepCommit_placed _ _,
        ⟨c.S.trace, stepCommit_trace _ _, ?_⟩⟩⟩
      · show (stepCommit c.S _).interrupted = false
        rw [stepCommit_interrupted]
        exact hI
      · show (stepCommit c.S _).completedLog = done.map ic
        rw [stepCommit_completedLog]
        exact hlog
      · show (stepCommit c.S _).moveQueue = (t :: pend').map ic
        rw [stepCommit_queue]
        exact hq
      · show (stepCommit c.S _).isMoving = true
        rw [stepCommit_isMoving]
        exact hmov
      · rw [htr]
        exact hsub.trans (List.sublist_append_left τ [path.get ⟨i, hi⟩])
    · right
      exact ⟨t, pend', rfl,
        tick_complete hi hp hI hlog hq hch hT hmov h1i hlast hpl hlt τ htr hsub⟩

/-- A `moveTo` call preserves the run invariant, appending the new
destination to the pending list. -/
lemma runInv_moveTo {g : SGrid} {p0 : Coord} {done pend : List Coord} {c : Conf}
    {t : Coord} (h : RunInv g p0 done pend c)
    (hgd : GoodDest g (pend.getLastD (done.getLastD p0)) t) :
    RunInv g p0 done (pend ++ [t]) (mstep g c (.moveTo (ic t))) := by
  obtain ⟨hp, hI, hlog, hq, hch, hcase⟩ := h
  have hch2 : DestChain g (done.getLastD p0) (pend ++ [t]) :=
    destChain_append_one hch hgd
  rcases hcase with ⟨hT, hmov, hpe, hpl, hsub⟩ | hB
  · subst hpe
    have hgd0 : GoodDest g (done.getLastD p0) t := hgd
    have hq1 : (moveToCore c.S (ic t)).moveQueue = ic t :: [] := by
      show c.S.moveQueue ++ [ic t] = ic t :: []
      rw [hq]
      rfl
    have hm1 : (moveToCore c.S (ic t)).isMoving = false := hmov
    have hpl1 : (moveToCore c.S (ic t)).placed = some (done.getLastD p0) := hpl
    obtain ⟨path, h1, hlast, hinv⟩ :=
      invoke_start (g := g) c.task c.pending hm1 hpl1 hq1 hgd0
    have hstep : mstep g c (.moveTo (ic t)) =
        invokeProcess g ⟨moveToCore c.S (ic t), c.task, c.pending⟩ := rfl
    rw [hstep, hinv]
    refine ⟨by simp [hp], ?_, ?_, ?_, by simpa using hch2, .inr ⟨t, [], path, 1, h1,
      rfl, rfl, ?_, le_refl 1, hlast, stepCommit_placed _ _,
      ⟨c.S.trace, ?_, hsub.trans ?_⟩⟩⟩
    · show (stepCommit (procEntry (moveToCore c.S (ic t))) _).interrupted = false
      rw [stepCommit_interrupted]
      rfl
    · show (stepCommit (procEntry (moveToCore c.S (ic t))) _).completedLog =
        done.map ic
      rw [stepCommit_completedLog]
      exact hlog
    · show (stepCommit (procEntry (moveToCore c.S (ic t))) _).moveQueue =
        ([] ++ [t]).map ic
      rw [stepCommit_queue]
      rw [show (procEntry (moveToCore c.S (ic t))).moveQueue =
        (moveToCore c.S (ic t)).moveQueue from rfl, hq1]
      rfl
    · show (stepCommit (procEntry (moveToCore c.S (ic t))) _).isMoving = true
      rw [stepCommit_isMoving]
      rfl
    · show (stepCommit (procEntry (moveToCore c.S (ic t))) _).trace =
        c.S.trace ++ [path.get ⟨1, h1⟩]
      rw [stepCommit_trace]
      rfl
    · exact List.Sublist.refl _
  · obtain ⟨th, pend', path, i, hi, hpe, hT, hmov, h1i, hlast, hpl, τ, htr, hsub⟩ := hB
    subst hpe
    have hstep : mstep g c (.moveTo (ic t)) =
        invokeProcess g ⟨moveToCore c.S (ic t), c.task, c.pending⟩ := rfl
    have hinv : invokeProcess g ⟨moveToCore c.S (ic t), c.task, c.pending⟩ =
        ⟨moveToCore c.S (ic t), c.task, c.pending⟩ := by
      unfold invokeProcess
      rw [if_pos (show (Conf.mk (moveToCore c.S (ic t)) c.task c.pending).S.isMoving =
        true from hmov)]
    rw [hstep, hinv]
    refine ⟨hp, hI, hlog, ?_, hch2, .inr ⟨th, pend' ++ [t], path, i, hi, rfl, hT,
      hmov, h1i, hlast, hpl, ⟨τ, htr, hsub⟩⟩⟩
    show c.S.moveQueue ++ [ic t] = ((th :: pend') ++ [t]).map ic
    rw [hq]
    simp

/-- Field-level view of a mid-path tick. -/
lemma tick_mid_fields {g : SGrid} {c : Conf} {dp : Int × Int} {path : List Coord}
    {i : Nat} (hT : c.task = some (dp, path, i)) (hI : c.S.interrupted = false)
    (hlt : i + 1 < path.length) :
    (mstep g c .tick).pending = c.pending ∧
    (mstep g c .tick).S.interrupted = false ∧
    (mstep g c .tick).S.completedLog = c.S.completedLog ∧
    (mstep g c .tick).S.moveQueue = c.S.moveQueue ∧
    (mstep g c .tick).task = some (dp, path, i + 1) ∧
    (mstep g c .tick).S.isMoving = c.S.isMoving ∧
    (mstep g c .tick).S.placed = some (path.get ⟨i + 1, hlt⟩) ∧
    (mstep g c .tick).S.trace = c.S.trace ++ [path.get ⟨i + 1, hlt⟩] := by
  rw [tick_mid hT hI hlt]
  refine ⟨rfl, ?_, ?_, ?_, rfl, ?_, ?_, ?_⟩
  · show (stepCommit c.S _).interrupted = false
    rw [stepCommit_interrupted]
    exact hI
  · show (stepCommit c.S _).completedLog = c.S.completedLog
    rw [stepCommit_completedLog]
  · show (stepCommit c.S _).moveQueue = c.S.moveQueue
    rw [stepCommit_queue]
  · show (stepCommit c.S _).isMoving = c.S.isMoving
    rw [stepCommit_isMoving]
  · exact stepCommit_placed _ _
  · exact stepCommit_trace _ _

/-- Timer ticks alone drain the pending queue: every queued destination is
traversed step by step and completed in order, and the machine ends idle at
the last one. -/
lemma drain_ticks (g : SGrid) (p0 : Coord) :
    ∀ (pend done : List Coord) (c : Conf), RunInv g p0 done pend c →
      ∃ k, RunInv g p0 (done ++ pend) [] (mrun g c (List.replicate k .tick)) := by
  intro pend
  induction pend with
  | nil =>
      intro done c h
      exact ⟨0, by simpa using h⟩
  | cons t pend' ih =>
      intro done c h
      obtain ⟨hp, hI, hlog, hq, hch, hcase⟩ := h
      rcases hcase with ⟨_, _, hpe, _, _⟩ | hB
      · cases hpe
      obtain ⟨th, pend2, path, i, hi, hpe, hT, hmov, h1i, hlast, hpl, τ, htr, hsub⟩ := hB
      injection hpe with h1 h2
      rw [← h1] at hT
      rw [← h1] at hlast
      have inner : ∀ (n : Nat) (c : Conf) (i : Nat) (hi : i < path.length)
          (τ : List Coord),
          n = path.length - 1 - i →
          c.pending = 0 → c.S.interrupted = false →
          c.S.completedLog = done.map ic →
          c.S.moveQueue = (t :: pend').map ic →
          c.task = some (ic t, path, i) → c.S.isMoving = true →
          1 ≤ i →
          c.S.placed = some (path.get ⟨i, hi⟩) →
          c.S.trace = τ ++ [path.get ⟨i, hi⟩] →
          done.Sublist τ →
          ∃ m, RunInv g p0 (done ++ [t]) pend'
            (mrun g c (List.replicate m .tick)) := by
        intro n
        induction n with
        | zero =>
            intro c i hi τ hn hp hI hlog hq hT hmov h1i hpl htr hsub
            have hge : ¬ i + 1 < path.length := by omega
            exact ⟨1, tick_complete hi hp hI hlog hq hch hT hmov h1i hlast hpl hge
              τ htr hsub⟩
        | succ n ihn =>
            intro c i hi τ hn hp hI hlog hq hT hmov h1i hpl htr hsub
            have hlt : i + 1 < path.length := by omega
            obtain ⟨f1, f2, f3, f4, f5, f6, f7, f8⟩ := tick_mid_fields (g := g) hT hI hlt
            obtain ⟨m, hm⟩ := ihn (mstep g c .tick) (i + 1) hlt
              (τ ++ [path.get ⟨i, hi⟩]) (by omega) (by rw [f1]; exact hp) f2
              (by rw [f3]; exact hlog) (by rw [f4]; exact hq) f5
              (by rw [f6]; exact hmov) (by omega) f7
              (by rw [f8, htr]) (hsub.trans (List.sublist_append_left τ _))
            exact ⟨m + 1, by rw [show m + 1 = 1 + m from by omega,
              List.replicate_add, mrun_append]; exact hm⟩
      obtain ⟨m, hm⟩ := inner (path.length - 1 - i) c i hi τ rfl hp hI hlog hq hT
        hmov h1i hpl htr hsub
      obtain ⟨k2, hk2⟩ := ih (done ++ [t]) _ hm
      refine ⟨m + k2, ?_⟩
      rw [List.replicate_add, mrun_append]
      have he : (done ++ [t]) ++ pend' = done ++ t :: pend' := by simp
      rw [he] at hk2
      exact hk2

/-- Any interleaving of `moveTo` calls and timer ticks preserves the run
invariant, consuming the announced future destinations in order. -/
lemma fifo_run (g : SGrid) (p0 : Coord) :
    ∀ (evs : List MEv) (done pend future : List Coord) (c : Conf),
      OnlyTickMove evs → movesOf evs = future.map ic →
      RunInv g p0 done pend c →
      DestChain g ((done ++ pend).getLastD p0) future →
      ∃ done' pend', done' ++ pend' = done ++ pend ++ future ∧
        RunInv g p0 done' pend' (mrun g c evs) := by
  intro evs
  induction evs with
  | nil =>
      intro done pend future c hok hmv hinv hch
      cases future with
      | nil => exact ⟨done, pend, by simp, hinv⟩
      | cons t fut => simp [movesOf] at hmv
  | cons e es iheq =>
      intro done pend future c hok hmv hinv hch
      have hoks : OnlyTickMove es := fun x hx => hok x (List.mem_cons_of_mem e hx)
      rcases hok e (List.mem_cons_self e es) with he | ⟨d, he⟩
      · subst he
        have hmv' : movesOf es = future.map ic := by simpa [movesOf] using hmv
        rcases runInv_tick (g := g) hinv with h' | ⟨t, pend2, hpe, h'⟩
        · exact iheq done pend future (mstep g c .tick) hoks hmv' h' hch
        · subst hpe
          have hch' : DestChain g (((done ++ [t]) ++ pend2).getLastD p0) future := by
            rw [show (done ++ [t]) ++ pend2 = done ++ t :: pend2 by simp]
            exact hch
          obtain ⟨done', pend', heq, hrun⟩ :=
            iheq (done ++ [t]) pend2 future (mstep g c .tick) hoks hmv' h' hch'
          refine ⟨done', pend', ?_, hrun⟩
          rw [heq]
          simp
      · subst he
        cases future with
        | nil => simp [movesOf] at hmv
        | cons t fut =>
            have hd : d = ic t ∧ movesOf es = fut.map ic := by
              rw [show movesOf (MEv.moveTo d :: es) = d :: movesOf es from rfl,
                List.map_cons] at hmv
              injection hmv with hmv1 hmv2
              exact ⟨hmv1, hmv2⟩
            obtain ⟨rfl, hmv'⟩ := hd
            obtain ⟨hgd0, hch'⟩ := hch
            rw [getLastD_append] at hgd0
            have h' := runInv_moveTo (g := g) hinv hgd0
            have hch2 : DestChain g ((done ++ (pend ++ [t])).getLastD p0) fut := by
              rw [show done ++ (pend ++ [t]) = (done ++ pend) ++ [t] by simp,
                getLastD_concat']
              exact hch'
            obtain ⟨done', pend', heq, hrun⟩ :=
              iheq done (pend ++ [t]) fut (mstep g c (.moveTo (ic t))) hoks hmv' h' hch2
            refine ⟨done', pend', ?_, hrun⟩
            rw [heq]
            simp

/-- Claim C7: destinations enqueued via `moveTo` with no intervening
preemption or stop — any interleaving of the `moveTo` calls with the sleep
timer — are completed in exactly enqueue (FIFO) order: once the timer drains
the queue, the completion log lists the destinations in enqueue order, the
player stands on the last one, and the committed position changes visit the
destinations in that same order. -/
theorem claim_C7_fifo_order (g : SGrid) (p0 : Coord) (ds : List Coord)
    (evs : List MEv) (hok : OnlyTickMove evs) (hmv : movesOf evs = ds.map ic)
    (hch : DestChain g p0 ds) :
    ∃ k,
      (mrun g (initConf p0) (evs ++ List.replicate k .tick)).S.completedLog =
        ds.map ic ∧
      (mrun g (initConf p0) (evs ++ List.replicate k .tick)).S.placed =
        some (ds.getLastD p0) ∧
      ds.Sublist (mrun g (initConf p0) (evs ++ List.replicate k .tick)).S.trace ∧
      (mrun g (initConf p0) (evs ++ List.replicate k .tick)).S.moveQueue = [] ∧
      Quiescent (mrun g (initConf p0) (evs ++ List.replicate k .tick)) := by
  have h0 : RunInv g p0 [] [] (initConf p0) := by
    exact ⟨rfl, rfl, rfl, rfl, trivial, .inl ⟨rfl, rfl, rfl, rfl, List.Sublist.refl []⟩⟩
  obtain ⟨done1, pend1, heq, hinv1⟩ :=
    fifo_run g p0 evs [] [] ds (initConf p0) hok hmv h0 (by simpa using hch)
  obtain ⟨k, hk⟩ := drain_ticks g p0 pend1 done1 _ hinv1
  have hde : done1 ++ pend1 = ds := by simpa using heq
  rw [hde] at hk
  refine ⟨k, ?_⟩
  rw [mrun_append]
  obtain ⟨hp, hI, hlog, hq, hchn, hcase⟩ := hk
  rcases hcase with ⟨hT, hmovf, _, hpl, hsub⟩ | hB
  · exact ⟨hlog, hpl, hsub, hq, hT, hp, hmovf⟩
  · obtain ⟨t, pend', path, i, hi, hpe, _⟩ := hB
    cases hpe

theorem claim_C7_fifo_order_witness :
    OnlyTickMove [MEv.moveTo (ic (1, 0)), MEv.moveTo (ic (2, 0))] ∧
    movesOf [MEv.moveTo (ic (1, 0)), MEv.moveTo (ic (2, 0))] =
      [((1 : Nat), (0 : Nat)), (2, 0)].map ic ∧
    DestChain gridW3 (0, 0) [(1, 0), (2, 0)] ∧
    ∃ k,
      (mrun gridW3 (initConf (0, 0))
          ([MEv.moveTo (ic (1, 0)), MEv.moveTo (ic (2, 0))] ++
            List.replicate k .tick)).S.completedLog =
        [((1 : Nat), (0 : Nat)), (2, 0)].map ic ∧
      (mrun gridW3 (initConf (0, 0))
          ([MEv.moveTo (ic (1, 0)), MEv.moveTo (ic (2, 0))] ++
            List.replicate k .tick)).S.placed =
        some ([((1 : Nat), (0 : Nat)), (2, 0)].getLastD (0, 0)) ∧
      List.Sublist [((1 : Nat), (0 : Nat)), (2, 0)]
        (mrun gridW3 (initConf (0, 0))
          ([MEv.moveTo (ic (1, 0)), MEv.moveTo (ic (2, 0))] ++
            List.replicate k .tick)).S.trace ∧
      (mrun gridW3 (initConf (0, 0))
          ([MEv.moveTo (ic (1, 0)), MEv.moveTo (ic (2, 0))] ++
            List.replicate k .tick)).S.moveQueue = [] ∧
      Quiescent (mrun gridW3 (initConf (0, 0))
          ([MEv.moveTo (ic (1, 0)), MEv.moveTo (ic (2, 0))] ++
            List.replicate k .tick)) := by
  have hok : OnlyTickMove [MEv.moveTo (ic (1, 0)), MEv.moveTo (ic (2, 0))] := by
    intro e he
    simp only [List.mem_cons, List.not_mem_nil, or_false] at he
    rcases he with rfl | rfl
    · exact Or.inr ⟨_, rfl⟩
    · exact Or.inr ⟨_, rfl⟩
  have hch : DestChain gridW3 (0, 0) [(1, 0), (2, 0)] := by
    refine ⟨⟨by decide, by decide, by decide, by decide,
        ⟨1, .step (.refl _) (by decide) (by decide)⟩⟩,
      ⟨by decide, by decide, by decide, by decide,
        ⟨1, .step (.refl _) (by decide) (by decide)⟩⟩, trivial⟩
  exact ⟨hok, rfl, hch,
    claim_C7_fifo_order gridW3 (0, 0) [(1, 0), (2, 0)] _ hok rfl hch⟩

/-- Claim C10: `stopAllMovement` on an idle scheduler leaves the interrupt
flag set; every `_processMoveQueue` invocation clears the flag on entry
before processing; and a destination enqueued after such a stale idle-time
stop is still traversed to completion, ending placed on it with the queue
drained. -/
theorem claim_C10_stale_stop (g : SGrid) (c : Conf) (p0 t : Coord)
    (hm : c.S.isMoving = false) (hp : c.pending = 0) (hq : c.S.moveQueue = [])
    (hpl : c.S.placed = some p0) (hlog : c.S.completedLog = [])
    (hgd : GoodDest g p0 t) :
    (mstep g c .stop).S.interrupted = true ∧
    (∀ S : PState, (procEntry S).interrupted = false) ∧
    ∃ k,
      (mrun g c (.stop :: .moveTo (ic t) ::
        List.replicate k .tick)).S.placed = some t ∧
      (mrun g c (.stop :: .moveTo (ic t) ::
        List.replicate k .tick)).S.moveQueue = [] ∧
      (mrun g c (.stop :: .moveTo (ic t) ::
        List.replicate k .tick)).S.completedLog = [ic t] ∧
      Quiescent (mrun g c (.stop :: .moveTo (ic t) ::
        List.replicate k .tick)) := by
  refine ⟨by rw [mstep_stop]; rfl, fun S => rfl, ?_⟩
  set c1 : Conf := mstep g c .stop with hc1
  have hc1e : c1 = { c with S := stopCore c.S } := mstep_stop g c
  have hq1 : (moveToCore c1.S (ic t)).moveQueue = ic t :: ([] : List (Int × Int)) := by
    rw [hc1e]
    show (stopCore c.S).moveQueue ++ [ic t] = _
    rfl
  have hm1 : (moveToCore c1.S (ic t)).isMoving = false := by
    rw [hc1e]
    exact hm
  have hpl1 : (moveToCore c1.S (ic t)).placed = some p0 := by
    rw [hc1e]
    exact hpl
  obtain ⟨path, h1, hlast, hinv⟩ :=
    invoke_start (g := g) c1.task c1.pending hm1 hpl1 hq1 hgd
  have hstep2 : mstep g c1 (.moveTo (ic t)) =
      ⟨stepCommit (procEntry (moveToCore c1.S (ic t))) (path.get ⟨1, h1⟩),
        some (ic t, path, 1), c1.pending⟩ := by
    show invokeProcess g ⟨moveToCore c1.S (ic t), c1.task, c1.pending⟩ = _
    exact hinv
  have hrinv : RunInv g p0 [] [t] (mstep g c1 (.moveTo (ic t))) := by
    rw [hstep2]
    refine ⟨?_, ?_, ?_, ?_, ⟨hgd, trivial⟩, .inr ⟨t, [], path, 1, h1, rfl, rfl, ?_,
      le_refl 1, hlast, stepCommit_placed _ _, ⟨c.S.trace, ?_, List.nil_sublist _⟩⟩⟩
    · show c1.pending = 0
      rw [hc1e]
      exact hp
    · show (stepCommit _ _).interrupted = false
      rw [stepCommit_interrupted]
      rfl
    · show (stepCommit _ _).completedLog = List.map ic []
      rw [stepCommit_completedLog]
      show (moveToCore c1.S (ic t)).completedLog = _
      rw [hc1e]
      show c.S.completedLog = _
      rw [hlog]
      rfl
    · show (stepCommit _ _).moveQueue = [t].map ic
      rw [stepCommit_queue]
      show (moveToCore c1.S (ic t)).moveQueue = [t].map ic
      rw [hq1]
      rfl
    · show (stepCommit _ _).isMoving = true
      rw [stepCommit_isMoving]
      rfl
    · show (stepCommit _ _).trace = c.S.trace ++ [path.get ⟨1, h1⟩]
      rw [stepCommit_trace]
      rw [hc1e]
      rfl
  obtain ⟨k, hk⟩ := drain_ticks g p0 [t] [] _ hrinv
  refine ⟨k, ?_⟩
  have hrw : mrun g c (.stop :: .moveTo (ic t) :: List.replicate k .tick) =
      mrun g (mstep g c1 (.moveTo (ic t))) (List.replicate k .tick) := rfl
  rw [hrw]
  obtain ⟨hp2, hI2, hlog2, hq2, hch2, hcase⟩ := hk
  rcases hcase with ⟨hT2, hmov2, _, hpl2, _⟩ | hB
  · refine ⟨?_, hq2, ?_, hT2, hp2, hmov2⟩
    · rw [hpl2]
      rfl
    · rw [hlog2]
      rfl
  · obtain ⟨t2, pend2, path2, i2, hi2, hpe, _⟩ := hB
    cases hpe

theorem claim_C10_stale_stop_witness :
    (initConf (0, 0)).S.isMoving = false ∧ (initConf (0, 0)).pending = 0 ∧
    (initConf (0, 0)).S.moveQueue = [] ∧
    (initConf (0, 0)).S.placed = some (0, 0) ∧
    (initConf (0, 0)).S.completedLog = [] ∧
    GoodDest gridW3 (0, 0) (2, 0) ∧
    ((mstep gridW3 (initConf (0, 0)) .stop).S.interrupted = true ∧
      (∀ S : PState, (procEntry S).interrupted = false) ∧
      ∃ k,
        (mrun gridW3 (initConf (0, 0)) (.stop :: .moveTo (ic (2, 0)) ::
          List.replicate k .tick)).S.placed = some (2, 0) ∧
        (mrun gridW3 (initConf (0, 0)) (.stop :: .moveTo (ic (2, 0)) ::
          List.replicate k .tick)).S.moveQueue = [] ∧
        (mrun gridW3 (initConf (0, 0)) (.stop :: .moveTo (ic (2, 0)) ::
          List.replicate k .tick)).S.completedLog = [ic (2, 0)] ∧
        Quiescent (mrun gridW3 (initConf (0, 0)) (.stop :: .moveTo (ic (2, 0)) ::
          List.replicate k .tick))) := by
  have r1 : ReachN gridW3.ok (0, 0) (1, 0) 1 := .step (.refl _) (by decide) (by decide)
  have r2 : ReachN gridW3.ok (0, 0) (2, 0) 2 := .step r1 (by decide) (by decide)
  have hgd : GoodDest gridW3 (0, 0) (2, 0) :=
    ⟨by decide, by decide, by decide, by decide, ⟨2, r2⟩⟩
  exact ⟨rfl, rfl, rfl, rfl, rfl, hgd,
    claim_C10_stale_stop gridW3 (initConf (0, 0)) (0, 0) (2, 0) rfl rfl rfl rfl rfl hgd⟩

/-! ## Unreachable destinations (claim C6) -/

/-- `_executeMoveTo` returns untouched when the BFS finds no path. -/
lemma execStart_nopath {g : SGrid} {S : PState} {a : Coord} {d : Int × Int}
    (hpl : S.placed = some a)
    (hnone : findPathIdx g a (d.1.toNat, d.2.toNat) = none) :
    execStart g S d = .ret S := by
  unfold execStart
  split
  · rfl
  · rw [hpl]
    dsimp only
    split
    · rfl
    · split
      · rfl
      · rw [hnone]

/-- The part_001 loop equation for an unreachable head: pop, notify
`no-path`, continue. -/
lemma processGo_nopath {g : TGrid} {t : TState} {target : Coord}
    {rest : List Coord} (hne : t.player ≠ target)
    (hnone : findPathT g t.player target = none) :
    processGo g (target :: rest) t =
      processGo g rest
        { t with destQueue := rest, notes := t.notes ++ [TNote.noPath target] } := by
  conv_lhs => rw [processGo]
  rw [if_neg hne, hnone]

/-- A queue of unreachable destinations is drained completely, one `no-path`
notification per destination. -/
lemma processGo_unreachable (g : TGrid) :
    ∀ (q : List Coord) (t : TState), t.destQueue = q →
      (∀ d ∈ q, t.player ≠ d ∧ findPathT g t.player d = none) →
      processGo g q t =
        { t with destQueue := [], processing := false,
                 notes := t.notes ++ q.map TNote.noPath } := by
  intro q
  induction q with
  | nil =>
      intro t hq hall
      obtain ⟨dq, p, pr, tok, ns⟩ := t
      have hdq : dq = [] := hq
      subst hdq
      simp [processGo]
  | cons d q' ih =>
      intro t hq hall
      obtain ⟨hne, hnone⟩ := hall d (List.mem_cons_self d q')
      rw [processGo_nopath hne hnone]
      have hres := ih { t with destQueue := q', notes := t.notes ++ [TNote.noPath d] }
        rfl (fun x hx => hall x (List.mem_cons_of_mem d hx))
      rw [hres]
      obtain ⟨dq, p, pr, tok, ns⟩ := t
      simp

/-- Claim C6: an unreachable head destination never stalls the queue.
Part 1: in part_001 `processQueue`, a failing `findPath` on the head pops it,
emits the `no-path` notification, and continues with the rest of the queue.
Part 2: consequently `processQueue` on a queue of unreachable destinations
drains it completely, notifying once per destination.  Part 3: in
`index.js`, when the BFS inside `_executeMoveTo` fails, the processing loop
`shift()`s the head and continues with the next queued destination. -/
theorem claim_C6_unreachable_skip :
    (∀ (g : TGrid) (t : TState) (target : Coord) (rest : List Coord),
      t.player ≠ target → findPathT g t.player target = none →
      processGo g (target :: rest) t =
        processGo g rest
          { t with destQueue := rest, notes := t.notes ++ [TNote.noPath target] }) ∧
    (∀ (g : TGrid) (t : TState) (q : List Coord), t.destQueue = q →
      t.processing = false →
      (∀ d ∈ q, t.player ≠ d ∧ findPathT g t.player d = none) →
      processQueue g t =
        { t with destQueue := [], processing := false,
                 notes := t.notes ++ q.map TNote.noPath }) ∧
    (∀ (g : SGrid) (S : PState) (a : Coord) (d : Int × Int) (ds : List (Int × Int)),
      S.interrupted = false → S.placed = some a →
      findPathIdx g a (d.1.toNat, d.2.toNat) = none →
      S.moveQueue = d :: ds →
      procGo g (d :: ds) S = procGo g ds (shiftS S) ∧
        (shiftS S).moveQueue = ds ∧
        (shiftS S).completedLog = S.completedLog ++ [d]) := by
  refine ⟨fun g t target rest hne hnone => processGo_nopath hne hnone,
    fun g t q hq hpr hall => ?_, fun g S a d ds hI hpl hnone hq => ?_⟩
  · obtain ⟨dq, p, pr, tok, ns⟩ := t
    have hdq : dq = q := hq
    subst hdq
    have hpr' : pr = false := hpr
    subst hpr'
    unfold processQueue
    rw [if_neg (by simp)]
    exact processGo_unreachable g dq ⟨dq, p, true, tok, ns⟩ rfl hall
  · have hret : execStart g S d = .ret S := execStart_nopath hpl hnone
    exact ⟨procGo_cons_ret hI hret hI, shiftS_queue hq, shiftS_log hq⟩

theorem claim_C6_unreachable_skip_witness :
    ((⟨[(0, 0), (0, 2)], (0, 1), false, 0, []⟩ : TState).destQueue =
        [(0, 0), (0, 2)] ∧
      (⟨[(0, 0), (0, 2)], (0, 1), false, 0, []⟩ : TState).processing = false ∧
      (∀ d ∈ [((0 : Nat), (0 : Nat)), (0, 2)],
        (⟨[(0, 0), (0, 2)], (0, 1), false, 0, []⟩ : TState).player ≠ d ∧
        findPathT tgridWater
          (⟨[(0, 0), (0, 2)], (0, 1), false, 0, []⟩ : TState).player d = none)) ∧
    processQueue tgridWater (⟨[(0, 0), (0, 2)], (0, 1), false, 0, []⟩ : TState) =
      { (⟨[(0, 0), (0, 2)], (0, 1), false, 0, []⟩ : TState) with
          destQueue := [], processing := false,
          notes := (⟨[(0, 0), (0, 2)], (0, 1), false, 0, []⟩ : TState).notes ++
            [(0, 0), (0, 2)].map TNote.noPath } := by
  refine ⟨⟨rfl, rfl, by decide⟩, ?_⟩
  exact claim_C6_unreachable_skip.2.1 tgridWater _ [(0, 0), (0, 2)] rfl rfl (by decide)

/-! ## Generation-token cancellation (claim C5) -/

/-- Claim C5 (amended): `clearQueue` — and hence the double-click preempt
flow — bumps the generation counter `movementToken`; `followPath` captures
the token at entry and re-checks it — and only it — before each step and
again after each sleep, aborting the remaining steps at the first divergence
and leaving the player at the last committed position; with no cancellation
it walks the whole path.  In `index.js`, the resumed animation loop checks
only the `_isInterrupted` flag (there is no generation token). -/
theorem claim_C5_token_checks :
    (∀ (t : TState) (d : Coord),
      (clearQueueCore t).movementToken = t.movementToken + 1 ∧
      (preemptT t d).movementToken = t.movementToken + 1) ∧
    (∀ (g : TGrid) (cap : Nat) (tok : Nat → Nat) (k : Nat) (c : Coord)
        (rest : List Coord) (pos : Coord),
      (tok k ≠ cap → followPathTok g cap tok k (c :: rest) pos = pos) ∧
      (tok k = cap → tok (k + 1) ≠ cap →
        followPathTok g cap tok k (c :: rest) pos = clampPos g c) ∧
      (tok k = cap → tok (k + 1) = cap →
        followPathTok g cap tok k (c :: rest) pos =
          followPathTok g cap tok (k + 2) rest (clampPos g c))) ∧
    (∀ (g : TGrid) (cap : Nat) (tok : Nat → Nat) (k : Nat) (path : List Coord)
        (pos : Coord), (∀ n, tok n = cap) →
      followPathTok g cap tok k path pos =
        path.foldl (fun _ c => clampPos g c) pos) ∧
    (∀ (S : PState) (path : List Coord) (i : Nat),
      S.interrupted = true → execResume S path i = .ret S) := by
  refine ⟨fun t d => ⟨rfl, rfl⟩, fun g cap tok k c rest pos => ⟨?_, ?_, ?_⟩,
    ?_, fun S path i hI => execResume_of_interrupted hI⟩
  · intro h
    rw [followPathTok, if_pos h]
  · intro h1 h2
    rw [followPathTok, if_neg (by simpa using h1)]
    dsimp only
    rw [if_pos h2]
  · intro h1 h2
    rw [followPathTok, if_neg (by simpa using h1)]
    dsimp only
    rw [if_neg (by simpa using h2)]
  · intro g cap tok k path
    induction path generalizing k with
    | nil => intro pos htok; rfl
    | cons c rest ih =>
        intro pos htok
        rw [followPathTok, if_neg (by simp [htok])]
        dsimp only
        rw [if_neg (by simp [htok]), ih (k + 2) (clampPos g c) htok]
        rfl

theorem claim_C5_token_checks_witness :
    (∀ m : Nat, (fun _ => (7 : Nat)) m = 7) ∧
    followPathTok tgridW 7 (fun _ => 7) 0 [(0, 0), (0, 1)] (0, 0) =
      [((0 : Nat), (0 : Nat)), (0, 1)].foldl (fun _ c => clampPos tgridW c) (0, 0) :=
  ⟨fun _ => rfl, claim_C5_token_checks.2.2.1 tgridW 7 (fun _ => 7) 0
    [(0, 0), (0, 1)] (0, 0) (fun _ => rfl)⟩

/-- Claim C5, counterexample to the original wording: the spec's per-step
cancellation check aborts when the interrupted flag is set even though the
captured token still matches the current one, while the per-step check
part_001 `followPath` actually performs consults the token alone and does
not abort in that situation. -/
theorem claim_C5_counterexample :
    specStepAborts true 5 5 = true ∧ followPathAborts 5 5 = false :=
  ⟨rfl, rfl⟩

/-! ## Shortest paths and the Manhattan bound (claim C1) -/

/-- The Manhattan distance satisfies the triangle inequality. -/
lemma manhattan_triangle (a b c : Coord) :
    manhattan a c ≤ manhattan a b + manhattan b c := by
  unfold manhattan
  omega

/-- Any walk needs at least the Manhattan distance many steps. -/
lemma manhattan_le_reach {ok : Coord → Bool} :
    ∀ {a c : Coord} {m : Nat}, ReachN ok a c m → manhattan a c ≤ m := by
  intro a c m h
  induction h with
  | refl => rw [manhattan_self]
  | step h hadj hok ih =>
      rename_i b' c' n'
      have h2 : manhattan b' c' = 1 := adj4_manhattan hadj
      have h3 := manhattan_triangle a b' c'
      omega

/-- On a grid with no walls, a walk of exactly the Manhattan distance
exists between any two in-bounds coordinates. -/
lemma reach_of_no_walls (g : SGrid) (hland : ∀ x y, g.land x y = true) :
    ∀ (n : Nat) (a c : Coord), manhattan a c = n →
      a.1 < g.width → a.2 < g.height → c.1 < g.width → c.2 < g.height →
      ReachN g.ok a c n := by
  intro n
  induction n with
  | zero =>
      intro a c hm _ _ _ _
      rw [manhattan_eq_zero hm]
      exact .refl c
  | succ n ih =>
      intro a c hm ha1 ha2 hc1 hc2
      have hok : ∀ p : Coord, p.1 < g.width → p.2 < g.height → g.ok p = true := by
        intro p h1 h2
        simp [SGrid.ok, h1, h2, hland]
      by_cases hx : a.1 = c.1
      · have hy : a.2 ≠ c.2 := by
          intro hy
          rw [show a = c from Prod.ext hx hy, manhattan_self] at hm
          cases hm
        rcases Nat.lt_or_ge a.2 c.2 with hlt | hge
        · have hb1 : c.2 - 1 < g.height := by omega
          have hstep : ReachN g.ok a (c.1, c.2 - 1) n :=
            ih a (c.1, c.2 - 1)
              (by unfold manhattan at hm ⊢; dsimp only; omega) ha1 ha2 hc1 hb1
          exact .step hstep (by unfold adj4; dsimp only; omega) (hok c hc1 hc2)
        · have hgt : c.2 < a.2 := by omega
          have hb1 : c.2 + 1 < g.height := by omega
          have hstep : ReachN g.ok a (c.1, c.2 + 1) n :=
            ih a (c.1, c.2 + 1)
              (by unfold manhattan at hm ⊢; dsimp only; omega) ha1 ha2 hc1 hb1
          exact .step hstep (by unfold adj4; dsimp only; omega) (hok c hc1 hc2)
      · rcases Nat.lt_or_ge a.1 c.1 with hlt | hge
        · have hb1 : c.1 - 1 < g.width := by omega
          have hstep : ReachN g.ok a (c.1 - 1, c.2) n :=
            ih a (c.1 - 1, c.2)
              (by unfold manhattan at hm ⊢; dsimp only; omega) ha1 ha2 hb1 hc2
          exact .step hstep (by unfold adj4; dsimp only; omega) (hok c hc1 hc2)
        · have hgt : c.1 < a.1 := by omega
          have hb1 : c.1 + 1 < g.width := by omega
          have hstep : ReachN g.ok a (c.1 + 1, c.2) n :=
            ih a (c.1 + 1, c.2)
              (by unfold manhattan at hm ⊢; dsimp only; omega) ha1 ha2 hb1 hc2
          exact .step hstep (by unfold adj4; dsimp only; omega) (hok c hc1 hc2)

/-- Claim C1 (amended to the `index.js` path computation): for a reachable
goal, the BFS of `_executeMoveTo` returns a sequence that begins at `start`,
ends at `goal`, advances one 4-connected step at a time through walkable
tiles, and has minimum edge count; on a grid with no walls its length minus
one is exactly the Manhattan distance.  (The part_001 `findPath` does not
satisfy this: see the counterexample.) -/
theorem claim_C1_shortest_path (g : SGrid) (start goal : Coord)
    (hreach : Reachable g.ok start goal) :
    ∃ path, findPathIdx g start goal = some path ∧
      path.head? = some start ∧ path.getLast? = some goal ∧
      List.Chain' (fun a b => adj4 a b ∧ g.ok b = true) path ∧
      ReachN g.ok start goal (path.length - 1) ∧
      (∀ m, ReachN g.ok start goal m → path.length - 1 ≤ m) ∧
      ((∀ x y, g.land x y = true) → start.1 < g.width → start.2 < g.height →
        goal.1 < g.width → goal.2 < g.height →
        path.length - 1 = manhattan start goal) := by
  obtain ⟨path, hfp, hhead, hlast, hchain, hrn, hmin⟩ :=
    findPathIdx_spec g start goal hreach
  refine ⟨path, hfp, hhead, hlast, hchain, hrn, hmin, ?_⟩
  intro hland hs1 hs2 hg1 hg2
  have hle : path.length - 1 ≤ manhattan start goal :=
    hmin _ (reach_of_no_walls g hland (manhattan start goal) start goal rfl
      hs1 hs2 hg1 hg2)
  have hge : manhattan start goal ≤ path.length - 1 := manhattan_le_reach hrn
  omega

theorem claim_C1_shortest_path_witness :
    Reachable gridW3.ok (0, 0) (2, 0) ∧
    ∃ path, findPathIdx gridW3 (0, 0) (2, 0) = some path ∧
      path.head? = some (0, 0) ∧ path.getLast? = some (2, 0) ∧
      List.Chain' (fun a b => adj4 a b ∧ gridW3.ok b = true) path ∧
      ReachN gridW3.ok (0, 0) (2, 0) (path.length - 1) ∧
      (∀ m, ReachN gridW3.ok (0, 0) (2, 0) m → path.length - 1 ≤ m) ∧
      ((∀ x y, gridW3.land x y = true) → (0, 0).1 < gridW3.width →
        (0, 0).2 < gridW3.height → (2, 0).1 < gridW3.width →
        (2, 0).2 < gridW3.height →
        path.length - 1 = manhattan (0, 0) (2, 0)) := by
  have r1 : ReachN gridW3.ok (0, 0) (1, 0) 1 := .step (.refl _) (by decide) (by decide)
  have r2 : ReachN gridW3.ok (0, 0) (2, 0) 2 := .step r1 (by decide) (by decide)
  exact ⟨⟨2, r2⟩, claim_C1_shortest_path gridW3 (0, 0) (2, 0) ⟨2, r2⟩⟩

/-- Claim C1, counterexample to the original wording for the part_001
`findPath`: on a 1×3 all-land strip the goal `(0,2)` is walkable and
reachable from `(0,0)`, yet `findPath` returns `[(0,0), (0,1)]` — a path
that stops on the tile adjacent to the goal instead of ending at the goal
(the early return fires as soon as a dequeued walkable tile has Manhattan
distance 1 to the goal). -/
theorem claim_C1_counterexample :
    tgridW.walk (0, 2) = true ∧
    ReachN (fun c => tgridW.walk c) (0, 0) (0, 2) 2 ∧
    findPathT tgridW (0, 0) (0, 2) = some [(0, 0), (0, 1)] ∧
    [((0 : Nat), (0 : Nat)), (0, 1)].getLast? ≠ some ((0, 2) : Coord) := by
  have r1 : ReachN (fun c => tgridW.walk c) (0, 0) (0, 1) 1 :=
    .step (.refl _) (by decide) (by decide)
  have r2 : ReachN (fun c => tgridW.walk c) (0, 0) (0, 2) 2 :=
    .step r1 (by decide) (by decide)
  exact ⟨by decide, r2, by decide, by decide⟩

/-! ## The part_001 `findPath` search (claim C2) -/

lemma fpget_cons {k p : Coord} {ps : List (Coord × Coord)} {c : Coord} :
    fpget ((k, p) :: ps) c = if k = c then some p else fpget ps c := by
  by_cases h : k = c
  · subst h
    simp [fpget, List.find?]
  · simp only [fpget, List.find?]
    have hb : ((k, p).1 == c) = false := by simpa using h
    simp [hb, h]

lemma fpget_nil {c : Coord} : fpget ([] : List (Coord × Coord)) c = none := by
  simp [fpget]

/-- A walk endpoint is the start or a walkable tile. -/
lemma reach_endpoint {ok : Coord → Bool} {a b : Coord} {n : Nat}
    (h : ReachN ok a b n) : b = a ∨ ok b = true := by
  cases h with
  | refl => exact Or.inl rfl
  | step h hadj hok => exact Or.inr hok

/-- Every in-bounds 4-neighbor of `cur` is produced by the `tdirs` scan of
part_001 `findPath`. -/
lemma tnbr_complete {g : TGrid} {cur c : Coord} (hadj : adj4 cur c)
    (h1 : c.1 < g.rows) (h2 : c.2 < g.cols) :
    ∃ d ∈ tdirs, tnbr g cur d = some c := by
  rcases hadj with ⟨e1, e2 | e2⟩ | ⟨e1, e2 | e2⟩
  · exact ⟨(0, 1), by simp [tdirs], by
      simp only [tnbr]
      rw [if_neg (by omega)]
      simp only [Option.some.injEq]
      exact Prod.ext (by omega) (by omega)⟩
  · exact ⟨(0, -1), by simp [tdirs], by
      simp only [tnbr]
      rw [if_neg (by omega)]
      simp only [Option.some.injEq]
      exact Prod.ext (by omega) (by omega)⟩
  · exact ⟨(1, 0), by simp [tdirs], by
      simp only [tnbr]
      rw [if_neg (by omega)]
      simp only [Option.some.injEq]
      exact Prod.ext (by omega) (by omega)⟩
  · exact ⟨(-1, 0), by simp [tdirs], by
      simp only [tnbr]
      rw [if_neg (by omega)]
      simp only [Option.some.injEq]
      exact Prod.ext (by omega) (by omega)⟩

lemma tnbr_sound {g : TGrid} {cur c : Coord} {d : Int × Int} (hd : d ∈ tdirs)
    (h : tnbr g cur d = some c) :
    adj4 cur c ∧ c.1 < g.rows ∧ c.2 < g.cols := by
  simp only [tdirs, List.mem_cons, List.not_mem_nil, or_false] at hd
  simp only [tnbr] at h
  split at h
  · exact absurd h (by simp)
  · rename_i hb
    push_neg at hb
    obtain ⟨hb1, hb2, hb3, hb4⟩ := hb
    simp only [Option.some.injEq] at h
    subst h
    rcases hd with rfl | rfl | rfl | rfl <;>
      refine ⟨?_, by omega, by omega⟩ <;> unfold adj4 <;> simp <;> omega

/-- The possible outcomes of a single `fpExpand` call: either the state is
unchanged (and any walkable coordinate this direction produced was already
visited), or a fresh, walkable 4-neighbor of `cur` is appended to the queue
and the visited set with parent `cur`. -/
lemma fpExpand_cases (g : TGrid) (cur : Coord) (st : FpSt) {d : Int × Int}
    (hd : d ∈ tdirs) :
    (fpExpand g cur st d = st ∧
      ∀ c', tnbr g cur d = some c' → g.walk c' = true → c' ∈ st.visited) ∨
      ∃ n, tnbr g cur d = some n ∧ n ∉ st.visited ∧ g.walk n = true ∧ adj4 cur n ∧
        fpExpand g cur st d =
          { queue := st.queue ++ [n], visited := st.visited ++ [n],
            prev := (n, cur) :: st.prev, best := st.best } := by
  unfold fpExpand
  match h : tnbr g cur d with
  | none => exact Or.inl ⟨rfl, by intro c' hc'; exact absurd hc' (by simp)⟩
  | some n =>
      by_cases hv : n ∈ st.visited
      · left
        refine ⟨by simp [hv], ?_⟩
        intro c' hc' _
        rw [Option.some.injEq] at hc'
        subst hc'
        exact hv
      · by_cases hw : g.walk n = true
        · right
          exact ⟨n, rfl, hv, hw, (tnbr_sound hd h).1, by simp [hv, hw]⟩
        · left
          refine ⟨by simp [hv, hw], ?_⟩
          intro c' hc' hw'
          rw [Option.some.injEq] at hc'
          subst hc'
          exact absurd hw' hw

lemma fpExpand_len (g : TGrid) (cur : Coord) (st : FpSt) (d : Int × Int) :
    (fpExpand g cur st d).visited.length + st.queue.length =
      st.visited.length + (fpExpand g cur st d).queue.length := by
  unfold fpExpand
  match h : tnbr g cur d with
  | none => simp
  | some n =>
      by_cases hv : n ∈ st.visited
      · simp [hv]
      · by_cases hw : g.walk n = true
        · simp [hv, hw]
          omega
        · simp [hv, hw]

lemma fpFold_len (g : TGrid) (cur : Coord) :
    ∀ (ds : List (Int × Int)) (st : FpSt),
      ((ds.foldl (fun s d => fpExpand g cur s d) st)).visited.length +
          st.queue.length =
        st.visited.length +
          ((ds.foldl (fun s d => fpExpand g cur s d) st)).queue.length := by
  intro ds
  induction ds with
  | nil => simp
  | cons d ds ih =>
      intro st
      simp only [List.foldl_cons]
      have h1 := fpExpand_len g cur st d
      have h2 := ih (fpExpand g cur st d)
      omega

/-- Size bound for any duplicate-free list of coordinates that are each the
start or walkable (hence in bounds). -/
lemma tvisited_len_le (g : TGrid) (start : Coord) (l : List Coord)
    (hnd : l.Nodup) (hin : ∀ c ∈ l, c = start ∨ g.walk c = true) :
    l.length ≤ g.rows * g.cols + 1 := by
  classical
  have hsub : l.toFinset ⊆
      insert start ((Finset.range g.rows) ×ˢ (Finset.range g.cols)) := by
    intro c hc
    rw [List.mem_toFinset] at hc
    rcases hin c hc with rfl | hok
    · exact Finset.mem_insert_self _ _
    · rw [TGrid.walk_iff] at hok
      exact Finset.mem_insert_of_mem (by
        rw [Finset.mem_product]
        exact ⟨Finset.mem_range.mpr hok.1, Finset.mem_range.mpr hok.2.1⟩)
  have hcard := Finset.card_le_card hsub
  rw [List.toFinset_card_of_nodup hnd] at hcard
  calc l.length ≤ (insert start ((Finset.range g.rows) ×ˢ
      (Finset.range g.cols))).card := hcard
    _ ≤ ((Finset.range g.rows) ×ˢ (Finset.range g.cols)).card + 1 :=
      Finset.card_insert_le _ _
    _ = g.rows * g.cols + 1 := by rw [Finset.card_product]; simp

/-- Core search-state facts of part_001 `findPath`, with a ghost depth
labelling `dmap` that certifies reachability and reconstruction
termination. -/
structure FpCore (g : TGrid) (start goal : Coord) (st : FpSt)
    (dmap : Coord → Nat) : Prop where
  vnd : st.visited.Nodup
  v0 : start ∈ st.visited
  vwalk : ∀ c ∈ st.visited, c = start ∨ g.walk c = true
  qsub : ∀ c ∈ st.queue, c ∈ st.visited
  qnd : st.queue.Nodup
  pkeys : ∀ c, (fpget st.prev c).isSome = true ↔ (c ∈ st.visited ∧ c ≠ start)
  pstep : ∀ c p, fpget st.prev c = some p →
    p ∈ st.visited ∧ adj4 p c ∧ g.walk c = true
  d0 : dmap start = 0
  dparent : ∀ c p, fpget st.prev c = some p → dmap c = dmap p + 1
  dbound : ∀ c ∈ st.visited, dmap c ≤ st.prev.length
  plen : st.prev.length + 1 = st.visited.length
  vreach : ∀ c ∈ st.visited, ReachN g.walk start c (dmap c)

/-- The invariant at the top of the `findPath` loop: the processed (dequeued)
cells are neighbor-closed, none of them triggered the adjacent-to-goal early
return, and `best` is exactly the Manhattan-minimum over the processed
walkable cells (absent iff there is none). -/
structure FpInv (g : TGrid) (start goal : Coord) (st : FpSt)
    (dmap : Coord → Nat) extends FpCore g start goal st dmap : Prop where
  closure : ∀ c ∈ st.visited, c ∉ st.queue → ∀ c', adj4 c c' →
    g.walk c' = true → c' ∈ st.visited
  noER : ∀ c ∈ st.visited, c ∉ st.queue →
    ¬ (manhattan c goal = 1 ∧ g.walk c = true)
  bestNone : st.best = none → ∀ c ∈ st.visited, c ∉ st.queue →
    g.walk c = false
  bestSome : ∀ bc bd, st.best = some (bc, bd) → bc ∈ st.visited ∧
    g.walk bc = true ∧ bd = manhattan bc goal ∧
    ∀ c ∈ st.visited, c ∉ st.queue → g.walk c = true → bd ≤ manhattan c goal

/-- The invariant in the middle of scanning the neighbors of a dequeued cell
`cur`, with the directions in `ds` still pending. -/
structure FpMid (g : TGrid) (start goal cur : Coord) (ds : List (Int × Int))
    (st : FpSt) (dmap : Coord → Nat)
    extends FpCore g start goal st dmap : Prop where
  curv : cur ∈ st.visited
  curnq : cur ∉ st.queue
  closure' : ∀ c ∈ st.visited, c ∉ st.queue → c ≠ cur → ∀ c', adj4 c c' →
    g.walk c' = true → c' ∈ st.visited
  curcl : ∀ c', adj4 cur c' → g.walk c' = true →
    c' ∈ st.visited ∨ ∃ d ∈ ds, tnbr g cur d = some c'
  noER : ∀ c ∈ st.visited, c ∉ st.queue →
    ¬ (manhattan c goal = 1 ∧ g.walk c = true)
  bestNone : st.best = none → ∀ c ∈ st.visited, c ∉ st.queue →
    g.walk c = false
  bestSome : ∀ bc bd, st.best = some (bc, bd) → bc ∈ st.visited ∧
    g.walk bc = true ∧ bd = manhattan bc goal ∧
    ∀ c ∈ st.visited, c ∉ st.queue → g.walk c = true → bd ≤ manhattan c goal

/-- Dequeuing `cur` when the early return does not fire: updating `best` with
`cur` establishes the mid-scan invariant with all four directions pending. -/
lemma FpInv.toMidF {g : TGrid} {start goal : Coord} {st : FpSt} {dmap}
    {cur : Coord} {rest : List Coord}
    (H : FpInv g start goal st dmap) (hq : st.queue = cur :: rest)
    (hER : ¬ (manhattan cur goal = 1 ∧ g.walk cur = true))
    (b' : Option (Coord × Nat))
    (hb' : b' = if g.walk cur then
        match st.best with
        | none => some (cur, manhattan cur goal)
        | some kd =>
            if manhattan cur goal < kd.2 then some (cur, manhattan cur goal)
            else some kd
      else st.best) :
    FpMid g start goal cur tdirs { st with queue := rest, best := b' } dmap := by
  have hcv : cur ∈ st.visited := H.qsub cur (by rw [hq]; exact List.mem_cons_self _ _)
  have hnd := H.qnd
  rw [hq] at hnd
  have hcnr : cur ∉ rest := (List.nodup_cons.mp hnd).1
  have hproc : ∀ c, c ∈ st.visited → c ∉ rest →
      (c = cur ∨ (c ∈ st.visited ∧ c ∉ st.queue)) := by
    intro c hc hcr
    by_cases hcc : c = cur
    · exact Or.inl hcc
    · refine Or.inr ⟨hc, ?_⟩
      rw [hq]
      intro hmem
      rcases List.mem_cons.mp hmem with h | h
      · exact hcc h
      · exact hcr h
  refine
    { vnd := H.vnd
      v0 := H.v0
      vwalk := H.vwalk
      qsub := fun c hc => H.qsub c (by rw [hq]; exact List.mem_cons_of_mem _ hc)
      qnd := hnd.of_cons
      pkeys := H.pkeys
      pstep := H.pstep
      d0 := H.d0
      dparent := H.dparent
      dbound := H.dbound
      plen := H.plen
      vreach := H.vreach
      curv := hcv
      curnq := hcnr
      closure' := ?_
      curcl := ?_
      noER := ?_
      bestNone := ?_
      bestSome := ?_ }
  · intro c hc hcr hcc c' hadj hok
    rcases hproc c hc hcr with h | ⟨_, hnq⟩
    · exact absurd h hcc
    · exact H.closure c hc hnq c' hadj hok
  · intro c' hadj hok
    right
    rw [TGrid.walk_iff] at hok
    exact tnbr_complete hadj hok.1 hok.2.1
  · intro c hc hcr
    rcases hproc c hc hcr with rfl | ⟨_, hnq⟩
    · exact hER
    · exact H.noER c hc hnq
  · intro hbn c hc hcr
    have hbn' : b' = none := hbn
    rcases hproc c hc hcr with rfl | ⟨_, hnq⟩
    · by_cases hw : g.walk c = true
      · exfalso
        rw [hb', if_pos hw] at hbn'
        cases hbs : st.best with
        | none => rw [hbs] at hbn'; cases hbn'
        | some kd =>
            rw [hbs] at hbn'
            dsimp only at hbn'
            by_cases hlt : manhattan c goal < kd.2
            · rw [if_pos hlt] at hbn'; cases hbn'
            · rw [if_neg hlt] at hbn'; cases hbn'
      · simpa using hw
    · apply H.bestNone ?_ c hc hnq
      rw [hb'] at hbn'
      by_cases hw : g.walk cur = true
      · rw [if_pos hw] at hbn'
        cases hbs : st.best with
        | none => rfl
        | some kd =>
            rw [hbs] at hbn'
            dsimp only at hbn'
            by_cases hlt : manhattan cur goal < kd.2
            · rw [if_pos hlt] at hbn'; cases hbn'
            · rw [if_neg hlt] at hbn'; cases hbn'
      · rw [if_neg hw] at hbn'
        exact hbn'
  · intro bc bd hbs'
    have hbv : b' = some (bc, bd) := hbs'
    rw [hb'] at hbv
    by_cases hw : g.walk cur = true
    · rw [if_pos hw] at hbv
      cases hbs : st.best with
      | none =>
          rw [hbs] at hbv
          dsimp only at hbv
          rw [Option.some.injEq] at hbv
          have hbc : bc = cur := (Prod.mk.injEq _ _ _ _).mp hbv.symm |>.1
          have hbd : bd = manhattan cur goal := (Prod.mk.injEq _ _ _ _).mp hbv.symm |>.2
          subst hbc
          subst hbd
          refine ⟨hcv, hw, rfl, ?_⟩
          intro c hc hcr hwc
          rcases hproc c hc hcr with rfl | ⟨_, hnq⟩
          · exact le_refl _
          · exact absurd hwc (by simp [H.bestNone hbs c hc hnq])
      | some kd =>
          rw [hbs] at hbv
          dsimp only at hbv
          obtain ⟨hkv, hkw, hkd, hkmin⟩ := H.bestSome kd.1 kd.2 (by rw [hbs])
          by_cases hlt : manhattan cur goal < kd.2
          · rw [if_pos hlt, Option.some.injEq] at hbv
            have hbc : bc = cur := (Prod.mk.injEq _ _ _ _).mp hbv.symm |>.1
            have hbd : bd = manhattan cur goal :=
              (Prod.mk.injEq _ _ _ _).mp hbv.symm |>.2
            subst hbc
            subst hbd
            refine ⟨hcv, hw, rfl, ?_⟩
            intro c hc hcr hwc
            rcases hproc c hc hcr with rfl | ⟨_, hnq⟩
            · exact le_refl _
            · have := hkmin c hc hnq hwc
              omega
          · rw [if_neg hlt, Option.some.injEq] at hbv
            subst hbv
            dsimp only at hkv hkw hkd hkmin hlt
            refine ⟨hkv, hkw, hkd, ?_⟩
            intro c hc hcr hwc
            rcases hproc c hc hcr with rfl | ⟨_, hnq⟩
            · omega
            · exact hkmin c hc hnq hwc
    · rw [if_neg hw] at hbv
      obtain ⟨hkv, hkw, hkd, hkmin⟩ := H.bestSome bc bd hbv
      refine ⟨hkv, hkw, hkd, ?_⟩
      intro c hc hcr hwc
      rcases hproc c hc hcr with rfl | ⟨_, hnq⟩
      · exact absurd hwc (by simp [hw])
      · exact hkmin c hc hnq hwc

/-- One neighbor probe preserves the mid-scan invariant, consuming its
direction. -/
lemma FpMid.expandF {g : TGrid} {start goal cur : Coord} {ds : List (Int × Int)}
    {d : Int × Int} {st : FpSt} {dmap}
    (H : FpMid g start goal cur (d :: ds) st dmap) (hd : d ∈ tdirs) :
    ∃ dmap', FpMid g start goal cur ds (fpExpand g cur st d) dmap' := by
  rcases fpExpand_cases g cur st hd with ⟨heq, hnoop⟩ | ⟨n, hn, hfresh, hok, hadj, heq⟩
  · refine ⟨dmap, ?_⟩
    rw [heq]
    exact
      { toFpCore := H.toFpCore, curv := H.curv, curnq := H.curnq,
        closure' := H.closure', noER := H.noER, bestNone := H.bestNone,
        bestSome := H.bestSome,
        curcl := by
          intro c' hadj hok
          rcases H.curcl c' hadj hok with hL | ⟨d0, hd0, hnb⟩
          · exact Or.inl hL
          · rcases List.mem_cons.mp hd0 with rfl | hmem
            · exact Or.inl (hnoop c' hnb hok)
            · exact Or.inr ⟨d0, hmem, hnb⟩ }
  · rw [heq]
    refine ⟨fun c => if c = n then dmap cur + 1 else dmap c, ?_⟩
    have hnstart : n ≠ start := fun h => hfresh (by rw [h]; exact H.v0)
    have hncur : cur ≠ n := fun h => hfresh (by rw [← h]; exact H.curv)
    have hnotq : n ∉ st.queue := fun h => hfresh (H.qsub n h)
    have hagree : ∀ c ∈ st.visited,
        (if c = n then dmap cur + 1 else dmap c) = dmap c := by
      intro c hc
      rw [if_neg (fun h => hfresh (by rw [← h]; exact hc))]
    have hmem' : ∀ c, c ∈ st.visited ++ [n] ↔ (c ∈ st.visited ∨ c = n) := by
      intro c
      simp
    refine
      { vnd := ?_, v0 := ?_, vwalk := ?_, qsub := ?_, qnd := ?_, pkeys := ?_,
        pstep := ?_, d0 := ?_, dparent := ?_, dbound := ?_, plen := ?_,
        vreach := ?_, curv := ?_, curnq := ?_, closure' := ?_, curcl := ?_,
        noER := ?_, bestNone := ?_, bestSome := ?_ }
    · simp only [List.nodup_append, List.nodup_cons, List.not_mem_nil,
        not_false_iff, List.nodup_nil, and_true, true_and]
      exact ⟨H.vnd, by simpa [List.disjoint_singleton] using hfresh⟩
    · exact List.mem_append_left _ H.v0
    · intro c hc
      rcases (hmem' c).mp hc with h | rfl
      · exact H.vwalk c h
      · exact Or.inr hok
    · intro c hc
      rcases List.mem_append.mp hc with h | h
      · exact List.mem_append_left _ (H.qsub c h)
      · exact List.mem_append_right _ h
    · simp only [List.nodup_append, List.nodup_cons, List.not_mem_nil,
        not_false_iff, List.nodup_nil, and_true, true_and]
      exact ⟨H.qnd, by simpa [List.disjoint_singleton] using hnotq⟩
    · intro c
      dsimp only
      rw [fpget_cons]
      by_cases hcn : n = c
      · subst hcn
        simp only [if_pos rfl]
        constructor
        · intro _
          exact ⟨List.mem_append_right _ (List.mem_singleton_self _), hnstart⟩
        · intro _
          rfl
      · rw [if_neg hcn]
        rw [H.pkeys c]
        constructor
        · intro ⟨h1, h2⟩
          exact ⟨List.mem_append_left _ h1, h2⟩
        · intro ⟨h1, h2⟩
          rcases (hmem' c).mp h1 with h | rfl
          · exact ⟨h, h2⟩
          · exact absurd rfl hcn
    · intro c p hcp
      dsimp only at hcp
      rw [fpget_cons] at hcp
      by_cases hcn : n = c
      · subst hcn
        rw [if_pos rfl, Option.some.injEq] at hcp
        subst hcp
        exact ⟨List.mem_append_left _ H.curv, hadj, hok⟩
      · rw [if_neg hcn] at hcp
        obtain ⟨h1, h2, h3⟩ := H.pstep c p hcp
        exact ⟨List.mem_append_left _ h1, h2, h3⟩
    · rw [if_neg (fun h => hnstart h.symm)]
      exact H.d0
    · intro c p hcp
      dsimp only at hcp
      rw [fpget_cons] at hcp
      by_cases hcn : n = c
      · subst hcn
        rw [if_pos rfl, Option.some.injEq] at hcp
        subst hcp
        rw [if_pos rfl, if_neg hncur]
      · rw [if_neg hcn] at hcp
        have hpv := (H.pstep c p hcp).1
        rw [if_neg (Ne.symm hcn), hagree p hpv]
        exact H.dparent c p hcp
    · intro c hc
      rcases (hmem' c).mp hc with h | rfl
      · rw [hagree c h]
        calc dmap c ≤ st.prev.length := H.dbound c h
          _ ≤ ((n, cur) :: st.prev).length := by simp
      · rw [if_pos rfl]
        have := H.dbound cur H.curv
        simp only [List.length_cons]
        omega
    · simp only [List.length_cons, List.length_append, List.length_nil]
      have := H.plen
      omega
    · intro c hc
      rcases (hmem' c).mp hc with h | rfl
      · rw [hagree c h]
        exact H.vreach c h
      · rw [if_pos rfl]
        exact .step (H.vreach cur H.curv) hadj hok
    · exact List.mem_append_left _ H.curv
    · intro hc
      rcases List.mem_append.mp hc with h | h
      · exact H.curnq h
      · exact hncur (List.mem_singleton.mp h).symm.symm
    · intro c hc hcq hcc c' hadj' hok'
      rcases (hmem' c).mp hc with h | rfl
      · refine List.mem_append_left _ ?_
        exact H.closure' c h (fun hq => hcq (List.mem_append_left _ hq)) hcc c' hadj' hok'
      · exact absurd (List.mem_append_right _ (List.mem_singleton_self _)) hcq
    · intro c' hadj' hok'
      rcases H.curcl c' hadj' hok' with hL | ⟨d0, hd0, hnb⟩
      · exact Or.inl (List.mem_append_left _ hL)
      · rcases List.mem_cons.mp hd0 with rfl | hmem
        · rw [hn, Option.some.injEq] at hnb
          subst hnb
          exact Or.inl (List.mem_append_right _ (List.mem_singleton_self _))
        · exact Or.inr ⟨d0, hmem, hnb⟩
    · intro c hc hcq
      rcases (hmem' c).mp hc with h | rfl
      · exact H.noER c h (fun hq => hcq (List.mem_append_left _ hq))
      · exact absurd (List.mem_append_right _ (List.mem_singleton_self _)) hcq
    · intro hbn c hc hcq
      rcases (hmem' c).mp hc with h | rfl
      · exact H.bestNone hbn c h (fun hq => hcq (List.mem_append_left _ hq))
      · exact absurd (List.mem_append_right _ (List.mem_singleton_self _)) hcq
    · intro bc bd hbs
      obtain ⟨h1, h2, h3, h4⟩ := H.bestSome bc bd hbs
      refine ⟨List.mem_append_left _ h1, h2, h3, ?_⟩
      intro c hc hcq hwc
      rcases (hmem' c).mp hc with h | rfl
      · exact h4 c h (fun hq => hcq (List.mem_append_left _ hq)) hwc
      · exact absurd (List.mem_append_right _ (List.mem_singleton_self _)) hcq

/-- Scanning a list of directions preserves the mid-scan invariant. -/
lemma FpMid.foldF {g : TGrid} {start goal cur : Coord} :
    ∀ {ds : List (Int × Int)} {st : FpSt} {dmap},
      FpMid g start goal cur ds st dmap → (∀ d ∈ ds, d ∈ tdirs) →
      ∃ dmap', FpMid g start goal cur []
        (ds.foldl (fun s d => fpExpand g cur s d) st) dmap' := by
  intro ds
  induction ds with
  | nil =>
      intro st dmap H _
      exact ⟨dmap, H⟩
  | cons d ds ih =>
      intro st dmap H hsub
      obtain ⟨dmap', H'⟩ := H.expandF (hsub d (List.mem_cons_self _ _))
      simpa using ih H' (fun d' hd' => hsub d' (List.mem_cons_of_mem _ hd'))

/-- At the end of the direction scan the loop-top invariant is restored. -/
lemma FpMid.toInvF {g : TGrid} {start goal cur : Coord} {st : FpSt} {dmap}
    (H : FpMid g start goal cur [] st dmap) : FpInv g start goal st dmap :=
  { toFpCore := H.toFpCore
    closure := by
      intro c hc hcq c' hadj hok
      by_cases hcc : c = cur
      · rcases H.curcl c' (by rw [← hcc]; exact hadj) hok with hL | ⟨d, hd, _⟩
        · exact hL
        · exact absurd hd (List.not_mem_nil _)
      · exact H.closure' c hc hcq hcc c' hadj hok
    noER := H.noER
    bestNone := H.bestNone
    bestSome := H.bestSome }

/-- The initial `findPath` state satisfies the loop invariant with the
all-zero depth labelling. -/
lemma fpInit_inv (g : TGrid) (start goal : Coord) :
    FpInv g start goal
      { queue := [start], visited := [start], prev := [], best := none }
      (fun _ => 0) := by
  refine
    { vnd := List.nodup_singleton _
      v0 := List.mem_singleton_self _
      vwalk := fun c hc => Or.inl (List.mem_singleton.mp hc)
      qsub := fun c hc => hc
      qnd := List.nodup_singleton _
      pkeys := ?_
      pstep := ?_
      d0 := rfl
      dparent := ?_
      dbound := ?_
      plen := rfl
      vreach := ?_
      closure := ?_
      noER := ?_
      bestNone := ?_
      bestSome := ?_ }
  · intro c
    rw [fpget_nil]
    simp only [Option.isSome_none, Bool.false_eq_true, false_iff]
    intro ⟨h1, h2⟩
    exact h2 (List.mem_singleton.mp h1)
  · intro c p hcp
    rw [fpget_nil] at hcp
    cases hcp
  · intro c p hcp
    rw [fpget_nil] at hcp
    cases hcp
  · intro c _
    exact Nat.zero_le _
  · intro c hc
    rw [(List.mem_singleton.mp hc)]
    exact .refl start
  · intro c hc hcq
    exact absurd hc hcq
  · intro c hc hcq
    exact absurd hc hcq
  · intro _ c hc hcq
    exact absurd hc hcq
  · intro bc bd hbs
    cases hbs

/-- The reconstruction loop of `findPath` walks the `prev` chain back to the
start, pushing each ancestor. -/
lemma fpReconLoop_spec {g : TGrid} {start goal : Coord} {st : FpSt} {dmap}
    (H : FpCore g start goal st dmap) :
    ∀ k c acc fuel, c ∈ st.visited → dmap c = k → k ≤ fuel →
      ∃ L, fpReconLoop st.prev start fuel c acc = acc ++ L ∧ L.length = k ∧
        (c :: L).getLast? = some start ∧
        List.Chain' (fun x y => adj4 y x ∧ g.walk x = true) (c :: L) := by
  intro k
  induction k with
  | zero =>
      intro c acc fuel hc hd _
      have hcs : c = start := by
        by_cases h : c = start
        · exact h
        · exfalso
          have hsome : (fpget st.prev c).isSome = true := (H.pkeys c).mpr ⟨hc, h⟩
          match hv : fpget st.prev c with
          | some p =>
              have := H.dparent c p hv
              omega
          | none => rw [hv] at hsome; exact absurd hsome (by simp)
      subst hcs
      refine ⟨[], ?_, rfl, by simp, List.chain'_singleton _⟩
      cases fuel with
      | zero => simp [fpReconLoop]
      | succ f => simp [fpReconLoop]
  | succ k ihk =>
      intro c acc fuel hc hd hfuel
      have hcs : c ≠ start := by
        intro h
        rw [h, H.d0] at hd
        cases hd
      have hsome : (fpget st.prev c).isSome = true := (H.pkeys c).mpr ⟨hc, hcs⟩
      match hv : fpget st.prev c with
      | none => rw [hv] at hsome; exact absurd hsome (by simp)
      | some p =>
          obtain ⟨hpv, hadj, hwc⟩ := H.pstep c p hv
          have hdp : dmap p = k := by
            have := H.dparent c p hv
            omega
          match fuel, hfuel with
          | f + 1, hfuel =>
              obtain ⟨L', hL', hlen', hlast', hchain'⟩ :=
                ihk p (acc ++ [p]) f hpv hdp (by omega)
              refine ⟨p :: L', ?_, by simp [hlen'], ?_, ?_⟩
              · rw [show fpReconLoop st.prev start (f + 1) c acc =
                  (if c = start then acc
                   else match fpget st.prev c with
                        | none => acc
                        | some p => fpReconLoop st.prev start f p (acc ++ [p]))
                  from rfl]
                rw [if_neg hcs, hv]
                dsimp only
                rw [hL']
                simp
              · rw [show (c :: p :: L').getLast? = (p :: L').getLast? from
                  List.getLast?_cons_cons]
                exact hlast'
              · exact List.chain'_cons.mpr ⟨⟨hadj, hwc⟩, hchain'⟩

/-- `reconstructPath` of `findPath`: a start-to-`c` path of 4-adjacent
walkable steps, of length the ghost depth of `c` plus one. -/
lemma fpRecon_spec {g : TGrid} {start goal : Coord} {st : FpSt} {dmap}
    (H : FpCore g start goal st dmap) {c : Coord} (hc : c ∈ st.visited) :
    (fpRecon st.prev start c).head? = some start ∧
    (fpRecon st.prev start c).getLast? = some c ∧
    List.Chain' (fun a b => adj4 a b ∧ g.walk b = true) (fpRecon st.prev start c) ∧
    (fpRecon st.prev start c).length = dmap c + 1 := by
  have hfuel : dmap c ≤ st.prev.length + 1 := le_trans (H.dbound c hc) (by omega)
  obtain ⟨L, hL, hlen, hlast, hchain⟩ :=
    fpReconLoop_spec H (dmap c) c [c] (st.prev.length + 1) hc rfl hfuel
  unfold fpRecon
  rw [hL]
  rw [show ([c] ++ L : List Coord) = c :: L from rfl]
  refine ⟨?_, ?_, ?_, by simp [hlen]⟩
  · rw [List.head?_reverse]
    exact hlast
  · rw [List.getLast?_reverse]
    rfl
  · rw [List.chain'_reverse]
    convert hchain using 2

/-- The three possible outcomes of the `findPath` search, as facts about the
returned value: an early-return path to a walkable tile adjacent to the goal;
or — when no reachable walkable tile is adjacent to the goal — either a path
to a reachable walkable tile of minimum Manhattan distance to the goal, or
`null` exactly when no walkable tile is reachable at all. -/
def FpPost (g : TGrid) (start goal : Coord) (r : Option (List Coord)) : Prop :=
  (∃ path e, r = some path ∧ path.head? = some start ∧ path.getLast? = some e ∧
      List.Chain' (fun a b => adj4 a b ∧ g.walk b = true) path ∧
      manhattan e goal = 1 ∧ g.walk e = true ∧ Reachable g.walk start e) ∨
  ((∀ c, Reachable g.walk start c → g.walk c = true → manhattan c goal ≠ 1) ∧
    ((∃ path e, r = some path ∧ path.head? = some start ∧ path.getLast? = some e ∧
        List.Chain' (fun a b => adj4 a b ∧ g.walk b = true) path ∧
        g.walk e = true ∧ Reachable g.walk start e ∧
        ∀ c, Reachable g.walk start c → g.walk c = true →
          manhattan e goal ≤ manhattan c goal) ∨
      (r = none ∧ ∀ c, Reachable g.walk start c → g.walk c = true → False)))

/-- With an empty queue, every walkable tile reachable from the start has
been visited. -/
lemma FpInv.reach_visited {g : TGrid} {start goal : Coord} {st : FpSt} {dmap}
    (H : FpInv g start goal st dmap) (hq : st.queue = []) :
    ∀ {m : Nat} {c : Coord}, ReachN g.walk start c m →
      c = start ∨ g.walk c = true → c ∈ st.visited := by
  intro m c h
  induction h with
  | refl =>
      intro _
      exact H.v0
  | step h hadj hok ih =>
      intro _
      exact H.closure _ (ih (reach_endpoint h))
        (by rw [hq]; exact List.not_mem_nil _) _ hadj hok

lemma fpLoop_empty {g : TGrid} {start goal : Coord} {fuel : Nat} {st : FpSt}
    (hq : st.queue = []) :
    fpLoop g start goal fuel st =
      match st.best with
      | some kd => some (fpRecon st.prev start kd.1)
      | none => none := by
  conv_lhs => rw [fpLoop]
  rw [hq]

lemma fpLoop_found {g : TGrid} {start goal : Coord} {fuel : Nat} {st : FpSt}
    {cur : Coord} {rest : List Coord} (hq : st.queue = cur :: rest)
    (hER : manhattan cur goal = 1 ∧ g.walk cur = true) :
    fpLoop g start goal (fuel + 1) st = some (fpRecon st.prev start cur) := by
  conv_lhs => rw [fpLoop]
  rw [hq]
  dsimp only
  rw [if_pos hER]

lemma fpLoop_step {g : TGrid} {start goal : Coord} {fuel : Nat} {st : FpSt}
    {cur : Coord} {rest : List Coord} (hq : st.queue = cur :: rest)
    (hER : ¬ (manhattan cur goal = 1 ∧ g.walk cur = true))
    (b' : Option (Coord × Nat))
    (hb' : b' = if g.walk cur then
        match st.best with
        | none => some (cur, manhattan cur goal)
        | some kd =>
            if manhattan cur goal < kd.2 then some (cur, manhattan cur goal)
            else some kd
      else st.best) :
    fpLoop g start goal (fuel + 1) st =
      fpLoop g start goal fuel
        (tdirs.foldl (fun s d => fpExpand g cur s d)
          { st with queue := rest, best := b' }) := by
  subst hb'
  conv_lhs => rw [fpLoop]
  rw [hq]
  dsimp only
  rw [if_neg hER]

/-- One loop iteration without an early return, packaged: the dequeued state
carries the mid-scan invariant and the loop recurses on its neighbor
expansion. -/
lemma FpInv.stepMid {g : TGrid} {start goal : Coord} {st : FpSt} {dmap}
    {cur : Coord} {rest : List Coord} (H : FpInv g start goal st dmap)
    (fuel : Nat) (hq : st.queue = cur :: rest)
    (hER : ¬ (manhattan cur goal = 1 ∧ g.walk cur = true)) :
    ∃ stM : FpSt, stM.queue = rest ∧ stM.visited = st.visited ∧
      FpMid g start goal cur tdirs stM dmap ∧
      fpLoop g start goal (fuel + 1) st =
        fpLoop g start goal fuel
          (tdirs.foldl (fun s d => fpExpand g cur s d) stM) := by
  refine ⟨_, ?_, ?_, H.toMidF hq hER _ rfl, fpLoop_step hq hER _ rfl⟩
  · rfl
  · rfl

/-- Queue exhaustion: the post-loop fallback delivers the best candidate (or
`null`), and its facts. -/
lemma fpLoop_spec_empty {g : TGrid} {start goal : Coord} {fuel : Nat}
    {st : FpSt} {dmap} (H : FpInv g start goal st dmap) (hq : st.queue = []) :
    FpPost g start goal (fpLoop g start goal fuel st) := by
  have hreachv : ∀ c, Reachable g.walk start c → g.walk c = true →
      c ∈ st.visited := by
    intro c hr hw
    obtain ⟨m, hm⟩ := hr
    exact H.reach_visited hq hm (Or.inr hw)
  have hnq : ∀ c : Coord, c ∉ st.queue := by
    intro c
    rw [hq]
    exact List.not_mem_nil _
  have noadj : ∀ c, Reachable g.walk start c → g.walk c = true →
      manhattan c goal ≠ 1 := by
    intro c hr hw h1
    exact H.noER c (hreachv c hr hw) (hnq c) ⟨h1, hw⟩
  rw [fpLoop_empty hq]
  cases hbs : st.best with
  | none =>
      refine Or.inr ⟨noadj, Or.inr ⟨rfl, ?_⟩⟩
      intro c hr hw
      have := H.bestNone hbs c (hreachv c hr hw) (hnq c)
      simp [this] at hw
  | some kd =>
      obtain ⟨bc, bd⟩ := kd
      obtain ⟨hbv, hbw, hbd, hbmin⟩ := H.bestSome bc bd hbs
      obtain ⟨hhead, hlast, hchain, _⟩ := fpRecon_spec H.toFpCore hbv
      refine Or.inr ⟨noadj, Or.inl ⟨fpRecon st.prev start bc, bc, rfl, hhead, hlast,
        hchain, hbw, ⟨dmap bc, H.vreach bc hbv⟩, ?_⟩⟩
      intro c hr hw
      have := hbmin c (hreachv c hr hw) (hnq c) hw
      omega

/-- The `findPath` loop, from any invariant state with sufficient fuel,
reaches one of the three outcomes. -/
lemma fpLoop_spec (g : TGrid) (start goal : Coord) :
    ∀ (fuel : Nat) (st : FpSt) (dmap : Coord → Nat),
      FpInv g start goal st dmap →
      g.rows * g.cols + 1 - st.visited.length + st.queue.length ≤ fuel →
      FpPost g start goal (fpLoop g start goal fuel st) := by
  intro fuel
  induction fuel with
  | zero =>
      intro st dmap H hfuel
      cases hqe : st.queue with
      | nil => exact fpLoop_spec_empty H hqe
      | cons cur rest =>
          exfalso
          rw [hqe] at hfuel
          simp only [List.length_cons] at hfuel
          omega
  | succ f ihf =>
      intro st dmap H hfuel
      cases hqe : st.queue with
      | nil => exact fpLoop_spec_empty H hqe
      | cons cur rest =>
          by_cases hER : manhattan cur goal = 1 ∧ g.walk cur = true
          · have hcv : cur ∈ st.visited :=
              H.qsub cur (by rw [hqe]; exact List.mem_cons_self _ _)
            obtain ⟨hhead, hlast, hchain, _⟩ := fpRecon_spec H.toFpCore hcv
            rw [fpLoop_found hqe hER]
            exact Or.inl ⟨fpRecon st.prev start cur, cur, rfl, hhead, hlast,
              hchain, hER.1, hER.2, ⟨dmap cur, H.vreach cur hcv⟩⟩
          · obtain ⟨stM, hq1, hv1f, hMid, hstep⟩ := H.stepMid f hqe hER
            obtain ⟨dmap'', hMid''⟩ := hMid.foldF (fun d hd => hd)
            have H'' := hMid''.toInvF
            rw [hstep]
            apply ihf _ dmap'' H''
            have hlen := fpFold_len g cur tdirs stM
            rw [hq1, hv1f] at hlen
            have hv1 : st.visited.length ≤ g.rows * g.cols + 1 :=
              tvisited_len_le g start st.visited H.vnd H.vwalk
            have hv2 := tvisited_len_le g start _ H''.vnd H''.vwalk
            rw [hqe] at hfuel
            simp only [List.length_cons] at hfuel
            omega

lemma manhattan_one_adj4 {a b : Coord} (h : manhattan a b = 1) : adj4 a b := by
  unfold manhattan at h
  unfold adj4
  omega

/-- part_001 `findPath` satisfies the three-branch outcome description. -/
lemma findPathT_spec (g : TGrid) (start goal : Coord) :
    FpPost g start goal (findPathT g start goal) := by
  unfold findPathT
  apply fpLoop_spec g start goal _ _ (fun _ => 0) (fpInit_inv g start goal)
  rw [show ({ queue := [start], visited := [start], prev := [], best := none } : FpSt).visited = [start] from rfl]
  rw [show ({ queue := [start], visited := [start], prev := [], best := none } : FpSt).queue = [start] from rfl]
  simp only [List.length_singleton]
  omega

/-- Claim C2: for a goal that is not itself walkable-and-reachable, part_001
`findPath` (1) returns a path to some reachable walkable tile adjacent to the
goal whenever one exists (approach semantics); (2) otherwise returns a path
to a reachable walkable tile of minimum Manhattan distance to the goal
whenever any reachable walkable tile was found; and (3) returns `null`
exactly when no walkable tile is reachable at all. -/
theorem claim_C2_approach_fallback (g : TGrid) (start goal : Coord)
    (hgoal : ¬ (g.walk goal = true ∧ Reachable g.walk start goal)) :
    ((∃ c, manhattan c goal = 1 ∧ g.walk c = true ∧ Reachable g.walk start c) →
      ∃ path e, findPathT g start goal = some path ∧
        path.head? = some start ∧ path.getLast? = some e ∧
        List.Chain' (fun a b => adj4 a b ∧ g.walk b = true) path ∧
        adj4 e goal ∧ manhattan e goal = 1 ∧ g.walk e = true ∧
        Reachable g.walk start e) ∧
    ((¬ ∃ c, manhattan c goal = 1 ∧ g.walk c = true ∧ Reachable g.walk start c) →
      (∃ c, g.walk c = true ∧ Reachable g.walk start c) →
      ∃ path e, findPathT g start goal = some path ∧
        path.head? = some start ∧ path.getLast? = some e ∧
        List.Chain' (fun a b => adj4 a b ∧ g.walk b = true) path ∧
        g.walk e = true ∧ Reachable g.walk start e ∧
        (∀ c, Reachable g.walk start c → g.walk c = true →
          manhattan e goal ≤ manhattan c goal)) ∧
    (findPathT g start goal = none ↔
      ∀ c, Reachable g.walk start c → g.walk c = true → False) := by
  have hpost := findPathT_spec g start goal
  refine ⟨?_, ?_, ?_, ?_⟩
  · intro ⟨c, h1, hw, hr⟩
    rcases hpost with ⟨path, e, heq, hh, hl, hch, he1, hew, her⟩ |
      ⟨noadj, _⟩
    · exact ⟨path, e, heq, hh, hl, hch, manhattan_one_adj4 he1, he1, hew, her⟩
    · exact absurd h1 (noadj c hr hw)
  · intro hnadj ⟨c, hw, hr⟩
    rcases hpost with ⟨path, e, heq, hh, hl, hch, he1, hew, her⟩ |
      ⟨noadj, ⟨path, e, heq, hh, hl, hch, hew, her, hmin⟩ | ⟨hnone, hnall⟩⟩
    · exact absurd ⟨e, he1, hew, her⟩ hnadj
    · exact ⟨path, e, heq, hh, hl, hch, hew, her, hmin⟩
    · exact absurd hw (by simpa using hnall c hr)
  · intro hn
    rcases hpost with ⟨path, e, heq, _⟩ |
      ⟨_, ⟨path, e, heq, _⟩ | ⟨_, hnall⟩⟩
    · rw [hn] at heq
      cases heq
    · rw [hn] at heq
      cases heq
    · exact hnall
  · intro hnall
    rcases hpost with ⟨path, e, heq, _, _, _, _, hew, her⟩ |
      ⟨_, ⟨path, e, heq, _, _, _, hew, her, _⟩ | ⟨hnone, _⟩⟩
    · exact absurd (hnall e her hew) (by simp)
    · exact absurd (hnall e her hew) (by simp)
    · exact hnone

theorem claim_C2_approach_fallback_witness :
    (¬ (tgridWater.walk (0, 2) = true ∧
        Reachable tgridWater.walk (0, 0) (0, 2))) ∧
    (∀ c, Reachable tgridWater.walk (0, 0) c → tgridWater.walk c = true →
      False) ∧
    findPathT tgridWater (0, 0) (0, 2) = none := by
  have hg : ¬ (tgridWater.walk (0, 2) = true ∧
      Reachable tgridWater.walk (0, 0) (0, 2)) := fun h => absurd h.1 (by decide)
  have hnall : ∀ c, Reachable tgridWater.walk (0, 0) c →
      tgridWater.walk c = true → False := by
    intro c _ hw
    simp [TGrid.walk, tgridWater] at hw
  exact ⟨hg, hnall,
    ((claim_C2_approach_fallback tgridWater (0, 0) (0, 2) hg).2.2).mpr hnall⟩

end TTS
